import Mathlib

/-!
# WasmEdge `PO::ArgumentParser`

A shallow embedding of `include/po/argument_parser.h`: the descriptor model, the
registration functions, the token scanner `SubCommandDescriptor::parse` with its
helpers, the help / usage renderer and the `ArgumentParser` facade, followed by
theorems about the scanner, the registration functions and the renderer.

Conventions of the embedding.

* A C string (`const char *`, `std::string_view`, `std::string`) is the list of its
  characters, `Str`.
* A pointer to an `ArgumentDescriptor` is the index of the descriptor in the
  `ArgumentDescriptors` vector of the scope that owns it; the null pointer is `none`.
* A `SubCommandDescriptor` lives in the vector `SubCommandDescriptors` of the facade
  and `this[Offset]` is the element `Offset` places after it, so the member functions
  take the index `id` of `*this` and the whole parser state.
* The registered option objects (`po/option.h`) and `SubCommand` objects
  (`po/subcommand.h`) are outside the header.  Every call made on them is recorded, in
  order, in `Calls`; whether `Opt.argument(token)` succeeds is given by a conversion
  table `conv`.
* A function that writes to `std::cout` returns the text it writes.  A function that
  may loop forever returns an `Option`, `none` standing for "never returns".
* State is never rolled back: a function that can fail returns its result together with
  the state it leaves behind.
-/

namespace WasmEdge
namespace PO

/-! ## Strings -/

/-- A C string or string view, as the list of its characters. -/
abbrev Str := List Char

/-- Index of the first character satisfying `p`. -/
def first_index (p : Char → Bool) : Str → Option Nat
  | [] => none
  | c :: cs => if p c then some 0 else (first_index p cs).map (· + 1)

/-- Index of the last character satisfying `p`. -/
def last_index (p : Char → Bool) : Str → Option Nat
  | [] => none
  | c :: cs =>
    match last_index p cs with
    | some i => some (i + 1)
    | none => if p c then some 0 else none

/-- The call `s.find(c, pos)` of `std::string_view`: the first index `≥ pos` that holds
`c`, `none` for `npos`. -/
def find (s : Str) (c : Char) (pos : Nat) : Option Nat :=
  (first_index (fun x => x == c) (s.drop pos)).map (· + pos)

/-- The call `s.find_last_of(c, pos)`: the last index `≤ pos` that holds `c`. -/
def find_last_of (s : Str) (c : Char) (pos : Nat) : Option Nat :=
  last_index (fun x => x == c) (s.take (pos + 1))

/-- The call `s.find_first_not_of(c, pos)`: the first index `≥ pos` that does not hold
`c`. -/
def find_first_not_of (s : Str) (c : Char) (pos : Nat) : Option Nat :=
  (first_index (fun x => x != c) (s.drop pos)).map (· + pos)

/-- The call `s.substr(pos, n)`. -/
def substr (s : Str) (pos n : Nat) : Str := (s.drop pos).take n

/-- The call `s.substr(pos)`. -/
def substr_from (s : Str) (pos : Nat) : Str := s.drop pos

/-- The character `s[i]`. -/
def char_at (s : Str) (i : Nat) : Char := s.getD i default

/-! ## Maps

`std::unordered_map` is used through `find`, `emplace` and `empty` only, so an
association list without duplicate keys stands for it. -/

/-- The call `m.find(k)`: the value bound to `k`, `none` for `end()`. -/
def map_find {κ : Type} [DecidableEq κ] : List (κ × Nat) → κ → Option Nat
  | [], _ => none
  | (k', v) :: m, k => if k' = k then some v else map_find m k

/-- The call `m.emplace(k, v)`: inserts only when `k` is not yet bound. -/
def map_emplace {κ : Type} [DecidableEq κ] (m : List (κ × Nat)) (k : κ) (v : Nat) :
    List (κ × Nat) :=
  match map_find m k with
  | some _ => m
  | none => m ++ [(k, v)]

/-! ## Errors -/

/-- Modelled from the spec: the error codes of `po/error.h`, which is not part of the
sources.  The parser itself only produces `InvalidArgument`; the kind of an error
(unknown option, option takes no argument, positional overflow) is implicit in its
message. -/
inductive ErrCode where
  | InvalidArgument
  | OutOfRange
  deriving DecidableEq, Repr

/-- Modelled from the spec: the structured error of `po/error.h`, a code and a
message. -/
structure Error where
  code : ErrCode
  message : Str
  deriving DecidableEq, Repr

/-! ## Option objects -/

/-- The identity (address) of an option object.  Every scope owns its help toggle, the
facade owns the version toggle, all other options belong to the caller. -/
inductive OptRef where
  | help (scope : Nat)
  | version
  | user (addr : Nat)
  deriving DecidableEq, Repr

/-- Modelled from the spec: what a descriptor reads from an option object of
`po/option.h` when it is registered (`description()`, `meta()`, `min_narg()`,
`max_narg()`, `hidden()`), together with the identity of the object. -/
structure OptObj where
  ref : OptRef
  description : Str
  metavar : Str
  min_narg : Nat
  max_narg : Nat
  hidden : Bool
  deriving DecidableEq, Repr

/-- Modelled from the spec: an `Option<Toggle>` built from a description, a flag that
takes no value (`min_narg = max_narg = 0`), is not hidden and whose default operation
sets it. -/
def Toggle (ref : OptRef) (description : Str) : OptObj :=
  { ref := ref, description := description, metavar := [], min_narg := 0, max_narg := 0,
    hidden := false }

/-- Modelled from the spec: the conversion logic of the registered option objects, the
error that `Opt.argument(token)` returns, `none` when it accepts the token. -/
abbrev Conv := OptRef → Str → Option Error

/-- Modelled from the spec: a `SubCommand` object of `po/subcommand.h`, its identity and
its description. -/
structure SubCommand where
  addr : Nat
  description : Str
  deriving DecidableEq, Repr

/-- A call made on an object outside the parser. -/
inductive Call where
  | argument (o : OptRef) (s : Str)
  | default_argument (o : OptRef)
  | select (sc : Nat)
  deriving DecidableEq, Repr

/-! ## Descriptors -/

/-- The class `ArgumentDescriptor`.  `Opt` is the option object captured by the `Value`
and `DefaultValue` closures. -/
structure ArgumentDescriptor where
  Desc : Str
  Meta : Str
  NArgs : Nat
  MinNArgs : Nat
  MaxNArgs : Nat
  Options : List Str
  Opt : OptRef
  Hidden : Bool
  deriving DecidableEq, Repr

instance : Inhabited ArgumentDescriptor :=
  ⟨{ Desc := [], Meta := [], NArgs := 0, MinNArgs := 0, MaxNArgs := 0, Options := [],
     Opt := .user 0, Hidden := false }⟩

/-- The constructor `ArgumentDescriptor(T &Opt)`. -/
def ArgumentDescriptor.new (o : OptObj) : ArgumentDescriptor :=
  { Desc := o.description, Meta := o.metavar, NArgs := 0, MinNArgs := o.min_narg,
    MaxNArgs := o.max_narg, Options := [], Opt := o.ref, Hidden := o.hidden }

/-- The class `SubCommandDescriptor`.  `HelpOpt` is the value stored in the help toggle
the scope owns. -/
structure SubCommandDescriptor where
  SC : Option SubCommand
  SubCommandNames : List Str
  ProgramNames : List Str
  ArgumentDescriptors : List ArgumentDescriptor
  OptionMap : List (OptRef × Nat)
  ArgumentMap : List (Str × Nat)
  SubCommandMap : List (Str × Nat)
  SubCommandList : List Nat
  NonpositionalList : List Nat
  PositionalList : List Nat
  HelpOpt : Bool
  deriving DecidableEq, Repr

instance : Inhabited SubCommandDescriptor :=
  ⟨{ SC := none, SubCommandNames := [], ProgramNames := [], ArgumentDescriptors := [],
     OptionMap := [], ArgumentMap := [], SubCommandMap := [], SubCommandList := [],
     NonpositionalList := [], PositionalList := [], HelpOpt := false }⟩

/-- The element `ArgumentDescriptors[i]` of a scope. -/
def SubCommandDescriptor.desc (S : SubCommandDescriptor) (i : Nat) : ArgumentDescriptor :=
  S.ArgumentDescriptors.getD i default

/-- The overload `add_option(std::string_view Argument, T &Opt)`. -/
def SubCommandDescriptor.add_option (S : SubCommandDescriptor) (Argument : Str) (o : OptObj) :
    SubCommandDescriptor :=
  match map_find S.OptionMap o.ref with
  | none =>
    { S with
      OptionMap := map_emplace S.OptionMap o.ref S.ArgumentDescriptors.length
      ArgumentMap := map_emplace S.ArgumentMap Argument S.ArgumentDescriptors.length
      NonpositionalList := S.NonpositionalList ++ [S.ArgumentDescriptors.length]
      ArgumentDescriptors :=
        S.ArgumentDescriptors ++ [{ ArgumentDescriptor.new o with Options := [Argument] }] }
  | some i =>
    { S with
      ArgumentMap := map_emplace S.ArgumentMap Argument i
      ArgumentDescriptors :=
        S.ArgumentDescriptors.modify (fun D => { D with Options := D.Options ++ [Argument] }) i }

/-- The overload `add_option(T &Opt)`, which registers a positional argument. -/
def SubCommandDescriptor.add_option_positional (S : SubCommandDescriptor) (o : OptObj) :
    SubCommandDescriptor :=
  match map_find S.OptionMap o.ref with
  | none =>
    { S with
      OptionMap := map_emplace S.OptionMap o.ref S.ArgumentDescriptors.length
      PositionalList := S.PositionalList ++ [S.ArgumentDescriptors.length]
      ArgumentDescriptors := S.ArgumentDescriptors ++ [ArgumentDescriptor.new o] }
  | some i => { S with PositionalList := S.PositionalList ++ [i] }

/-- The constructors `SubCommandDescriptor()` and `SubCommandDescriptor(SubCommand &)` of
the scope stored at index `id`: a fresh help toggle registered under `h` and `help`. -/
def SubCommandDescriptor.new (id : Nat) (SC : Option SubCommand) : SubCommandDescriptor :=
  let S : SubCommandDescriptor :=
    { SC := SC, SubCommandNames := [], ProgramNames := [], ArgumentDescriptors := [],
      OptionMap := [], ArgumentMap := [], SubCommandMap := [], SubCommandList := [],
      NonpositionalList := [], PositionalList := [], HelpOpt := false }
  let HelpOpt := Toggle (.help id) "Show this help messages".data
  (S.add_option "h".data HelpOpt).add_option "help".data HelpOpt

/-! ## The parser and its environment -/

/-- The class `ArgumentParser`, with the part of the outside world it acts on: the calls
made so far on option and subcommand objects, and the text written to `std::cout` and
`std::cerr`.  `VerOpt` is the value stored in the version toggle. -/
structure ArgumentParser where
  SubCommandDescriptors : List SubCommandDescriptor
  CurrentSubCommandId : Nat
  SubCommandStack : List Nat
  VerOpt : Bool
  Calls : List Call
  Cout : Str
  Cerr : Str
  deriving DecidableEq, Repr

/-- The scope `SubCommandDescriptors[id]`. -/
def ArgumentParser.scope (P : ArgumentParser) (id : Nat) : SubCommandDescriptor :=
  P.SubCommandDescriptors.getD id default

/-- The descriptor `SubCommandDescriptors[id].ArgumentDescriptors[i]`. -/
def ArgumentParser.desc (P : ArgumentParser) (id i : Nat) : ArgumentDescriptor :=
  (P.scope id).desc i

/-- Assignment through a reference to the scope `id`. -/
def ArgumentParser.modify_scope (P : ArgumentParser) (id : Nat)
    (f : SubCommandDescriptor → SubCommandDescriptor) : ArgumentParser :=
  { P with SubCommandDescriptors := P.SubCommandDescriptors.modify f id }

/-- Assignment through a reference to the descriptor `i` of the scope `id`. -/
def ArgumentParser.modify_desc (P : ArgumentParser) (id i : Nat)
    (f : ArgumentDescriptor → ArgumentDescriptor) : ArgumentParser :=
  P.modify_scope id (fun S => { S with ArgumentDescriptors := S.ArgumentDescriptors.modify f i })

/-! ## Calls on the option objects -/

/-- Modelled from the spec: the call `Opt.default_argument()` on the option object `o`
(`po/option.h`).  The call is recorded; on a toggle the parser owns it stores `true`. -/
def default_argument (o : OptRef) (P : ArgumentParser) : ArgumentParser :=
  let P1 := { P with Calls := P.Calls ++ [Call.default_argument o] }
  match o with
  | .help s => P1.modify_scope s (fun S => { S with HelpOpt := true })
  | .version => { P1 with VerOpt := true }
  | .user _ => P1

/-- Modelled from the spec: the call `Opt.argument(s)` on the option object `o`
(`po/option.h`).  The call is recorded and its result is the one of the conversion table.
The scanner never makes this call on a toggle owned by the parser, which takes no
value and is never a positional. -/
def argument (conv : Conv) (o : OptRef) (s : Str) (P : ArgumentParser) :
    Except Error Unit × ArgumentParser :=
  let P1 := { P with Calls := P.Calls ++ [Call.argument o s] }
  match conv o s with
  | some e => (.error e, P1)
  | none => (.ok (), P1)

/-- The member `ArgumentDescriptor::default_value()` of descriptor `i` of scope `id`. -/
def default_value (id i : Nat) (P : ArgumentParser) : ArgumentParser :=
  default_argument (P.desc id i).Opt P

/-- The member `ArgumentDescriptor::value(String)` of descriptor `i` of scope `id`. -/
def value (conv : Conv) (id i : Nat) (s : Str) (P : ArgumentParser) :
    Except Error Unit × ArgumentParser :=
  argument conv (P.desc id i).Opt s P

/-! ## The scanner -/

/-- The member `consume_argument(CurrentDesc, Argument)`.  `NArgs` counts tokens of the
argument vector, so the increment of the `size_t` does not wrap. -/
def consume_argument (conv : Conv) (id i : Nat) (Argument : Str) (P : ArgumentParser) :
    Except Error (Option Nat) × ArgumentParser :=
  match value conv id i Argument P with
  | (.error e, P1) => (.error e, P1)
  | (.ok _, P1) =>
    let P2 := P1.modify_desc id i (fun D => { D with NArgs := D.NArgs + 1 })
    if (P2.desc id i).NArgs ≥ (P2.desc id i).MaxNArgs then (.ok none, P2)
    else (.ok (some i), P2)

/-- The member `consume_long_option(Option)`. -/
def consume_long_option (id : Nat) (OptionName : Str) (P : ArgumentParser) :
    Except Error (Option Nat) × ArgumentParser :=
  match map_find (P.scope id).ArgumentMap OptionName with
  | none => (.error ⟨.InvalidArgument, "unknown option: ".data ++ OptionName⟩, P)
  | some i =>
    if (P.desc id i).MaxNArgs = 0 then (.ok none, default_value id i P)
    else (.ok (some i), P)

/-- The member `consume_short_option(Option)`. -/
def consume_short_option (id : Nat) (OptionName : Str) (P : ArgumentParser) :
    Except Error (Option Nat) × ArgumentParser :=
  match map_find (P.scope id).ArgumentMap OptionName with
  | none => (.error ⟨.InvalidArgument, "unknown option: ".data ++ OptionName⟩, P)
  | some i =>
    if (P.desc id i).MaxNArgs = 0 then (.ok none, default_value id i P)
    else (.ok (some i), P)

/-- The statement `if (CurrentDesc && CurrentDesc->nargs() == 0)
CurrentDesc->default_value();`, which the scanner runs before an option token, before
each character of a short cluster and at the end of the input. -/
def pending_default (id : Nat) (CurrentDesc : Option Nat) (P : ArgumentParser) :
    ArgumentParser :=
  match CurrentDesc with
  | some i => if (P.desc id i).NArgs = 0 then default_value id i P else P
  | none => P

/-- The loop of `consume_short_options` over the characters `Arg[1], Arg[2], ...`, given
as the list of the characters still to read. -/
def consume_short_options_loop (id : Nat) :
    Str → Option Nat → ArgumentParser → Except Error (Option Nat) × ArgumentParser
  | [], CurrentDesc, P => (.ok CurrentDesc, P)
  | c :: cs, CurrentDesc, P =>
    match consume_short_option id [c] (pending_default id CurrentDesc P) with
    | (.error e, P1) => (.error e, P1)
    | (.ok d, P1) => consume_short_options_loop id cs d P1

/-- The member `consume_short_options(Arg)`. -/
def consume_short_options (id : Nat) (Arg : Str) (P : ArgumentParser) :
    Except Error (Option Nat) × ArgumentParser :=
  consume_short_options_loop id (Arg.drop 1) none P

/-- The member `consume_long_option_with_argument(Arg)`. -/
def consume_long_option_with_argument (conv : Conv) (id : Nat) (Arg : Str)
    (P : ArgumentParser) : Except Error (Option Nat) × ArgumentParser :=
  match find Arg '=' 2 with
  | some Pos =>
    let OptionName := substr Arg 2 (Pos - 2)
    let Argument := substr_from Arg (Pos + 1)
    match consume_long_option id OptionName P with
    | (.error e, P1) => (.error e, P1)
    | (.ok none, P1) =>
      (.error ⟨.InvalidArgument,
        "option ".data ++ OptionName ++ "doesn't need arguments.".data⟩, P1)
    | (.ok (some CurrentDesc), P1) =>
      (.ok none, (consume_argument conv id CurrentDesc Argument P1).2)
  | none => consume_long_option id (substr_from Arg 2) P

/-- The local variables of `parse`. -/
structure Locals where
  CurrentDesc : Option Nat
  FirstNonOption : Bool
  Escaped : Bool
  PositionalIter : Nat
  deriving DecidableEq, Repr

/-- The locals at the start of `parse`. -/
def Locals.init : Locals :=
  { CurrentDesc := none, FirstNonOption := true, Escaped := false, PositionalIter := 0 }

/-- What one iteration of the loop of `parse` does: it falls through to the next token,
returns an error, or returns what the scan of a child scope returns. -/
inductive Step where
  | next (L : Locals) (P : ArgumentParser)
  | fail (e : Error) (P : ArgumentParser)
  | dispatch (Child : Nat) (P : ArgumentParser)
  deriving DecidableEq, Repr

/-- The call `Child.SC->select()`. -/
def select (Child : Nat) (P : ArgumentParser) : ArgumentParser :=
  match (P.scope Child).SC with
  | some sc => { P with Calls := P.Calls ++ [Call.select sc.addr] }
  | none => P

/-- The value part of the last branch of the loop of `parse`, after `Escaped = true`. -/
def parse_value (conv : Conv) (id : Nat) (L : Locals) (P : ArgumentParser) (Arg : Str) :
    Step :=
  match L.CurrentDesc with
  | some i =>
    match consume_argument conv id i Arg P with
    | (.error e, P1) => .fail e P1
    | (.ok d, P1) => .next { L with CurrentDesc := d } P1
  | none =>
    match (P.scope id).PositionalList.get? L.PositionalIter with
    | none =>
      .fail ⟨.InvalidArgument, "positional argument exceeds maxinum consuming.".data⟩ P
    | some Index =>
      match consume_argument conv id Index Arg P with
      | (.error e, P1) => .fail e P1
      | (.ok d, P1) =>
        .next { L with CurrentDesc := d, PositionalIter := L.PositionalIter + 1 } P1

/-- The body of the loop of `parse` for the token `Arg`. -/
def parse_body (conv : Conv) (id : Nat) (L : Locals) (P : ArgumentParser) (Arg : Str) :
    Step :=
  if !L.Escaped && decide (Arg.length ≥ 2) && char_at Arg 0 == '-' then
    if char_at Arg 1 == '-' then
      if Arg.length = 2 then .next { L with Escaped := true } P
      else
        -- long option
        match consume_long_option_with_argument conv id Arg
            (pending_default id L.CurrentDesc P) with
        | (.error e, P1) => .fail e P1
        | (.ok d, P1) => .next { L with CurrentDesc := d } P1
    else
      -- short options
      match consume_short_options id Arg (pending_default id L.CurrentDesc P) with
      | (.error e, P1) => .fail e P1
      | (.ok d, P1) => .next { L with CurrentDesc := d } P1
  else if !L.Escaped && L.CurrentDesc.isSome then
    .next { L with CurrentDesc := none }
      (consume_argument conv id (L.CurrentDesc.getD 0) Arg P).2
  else
    -- no more options
    let Found :=
      if L.FirstNonOption && !(P.scope id).SubCommandMap.isEmpty then
        map_find (P.scope id).SubCommandMap Arg
      else none
    match Found with
    | some Offset => .dispatch (id + Offset) (select (id + Offset) P)
    | none => parse_value conv id { L with FirstNonOption := false, Escaped := true } P Arg

/-! ## The help and usage renderer -/

/-- The constant `YELLOW_COLOR` (outside Windows). -/
def YELLOW_COLOR : Str := "\x1b[33m".data

/-- The constant `GREEN_COLOR`. -/
def GREEN_COLOR : Str := "\x1b[32m".data

/-- The constant `RESET_COLOR`. -/
def RESET_COLOR : Str := "\x1b[0m".data

/-- The local constant `kIndent` of `help`. -/
def kIndent : Str := ['\t']

/-- The text of `IndentCount` copies of `kIndent`. -/
def indents (kIndent : Str) : Nat → Str
  | 0 => []
  | n + 1 => kIndent ++ indents kIndent n

/-- The `while` loop of `indent_output` followed by the output of the last line.  An
iteration that finds a space shortens `Desc`, so `fuel` iterations are enough when
`fuel > Desc.length`; an iteration that finds no space leaves `Desc` as it is and the
loop never ends (`none`). -/
def indent_output_loop (kIndent : Str) (IndentCount Width : Nat) : Nat → Str → Option Str
  | 0, _ => none
  | fuel + 1, Desc =>
    if Desc.length > Width then
      match find_last_of Desc ' ' Width with
      | none => none
      | some SpacePos =>
        let Rest :=
          match find_first_not_of Desc ' ' SpacePos with
          | some WordPos => substr_from Desc WordPos
          | none => []
        (indent_output_loop kIndent IndentCount Width fuel Rest).map
          (fun out => indents kIndent IndentCount ++ substr Desc 0 SpacePos ++ ['\n'] ++ out)
    else if Desc.isEmpty then some []
    else some (indents kIndent IndentCount ++ Desc)

/-- The member `indent_output(kIndent, IndentCount, ScreenWidth, Desc)`: the text it
writes, `none` when it never returns.  `Width` is computed in `std::size_t`. -/
def indent_output (kIndent : Str) (IndentCount ScreenWidth : Nat) (Desc : Str) : Option Str :=
  let Width := (ScreenWidth + 2 ^ 64 - (kIndent.length * IndentCount) % 2 ^ 64) % 2 ^ 64
  indent_output_loop kIndent IndentCount Width (Desc.length + 1) Desc

/-- The text `usage` writes for one positional descriptor, with the flag `First`. -/
def usage_positional (S : SubCommandDescriptor) (acc : Str × Bool) (Index : Nat) : Str × Bool :=
  let Desc := S.desc Index
  if Desc.Hidden then acc
  else
    let out := if acc.2 then acc.1 ++ " [--]".data else acc.1
    let Optional := Desc.MinNArgs = 0
    let out := out ++ [' '] ++ (if Optional then ['['] else [])
    let out :=
      match Desc.MaxNArgs with
      | 0 => out
      | 1 => out ++ Desc.Meta
      | _ => out ++ Desc.Meta ++ " ...".data
    (out ++ (if Optional then [']'] else []), false)

/-- The member `usage()` of the scope `id`: the text it writes. -/
def usage (id : Nat) (P : ArgumentParser) : Str :=
  let S := P.scope id
  YELLOW_COLOR ++ "USAGE".data ++ RESET_COLOR ++ ['\n']
    ++ S.ProgramNames.foldl (fun out Part => out ++ '\t' :: Part) []
    ++ (if S.NonpositionalList.length ≠ 0 then " [OPTIONS]".data else [])
    ++ (S.PositionalList.foldl (usage_positional S) ([], true)).1
    ++ ['\n']

/-- The names of a group joined by `|`, as the loops of `help` with the flag `First`
write them; `spell` is what is written for one name. -/
def join_names (spell : Str → Str) (Names : List Str) : Str :=
  (Names.foldl (fun (acc : Str × Bool) Name =>
    ((if acc.2 then acc.1 else acc.1 ++ ['|']) ++ spell Name, false)) ([], true)).1

/-- One round of the subcommand loop of `help`. -/
def help_subcommand (id : Nat) (P : ArgumentParser) (Offset : Nat) : Option Str :=
  let Child := P.scope (id + Offset)
  let Description := match Child.SC with
    | some sc => sc.description
    | none => []
  (indent_output kIndent 2 80 Description).map (fun body =>
    kIndent ++ GREEN_COLOR ++ join_names (fun Name => Name) Child.SubCommandNames
      ++ RESET_COLOR ++ ['\n'] ++ body ++ ['\n'])

/-- One round of the option loop of `help`. -/
def help_option (id : Nat) (P : ArgumentParser) (Index : Nat) : Option Str :=
  let Desc := P.desc id Index
  if Desc.Hidden then some []
  else
    (indent_output kIndent 2 80 Desc.Desc).map (fun body =>
      kIndent ++ GREEN_COLOR
        ++ join_names (fun Name => if Name.length = 1 then '-' :: Name else '-' :: '-' :: Name)
            Desc.Options
        ++ RESET_COLOR ++ ['\n'] ++ body ++ ['\n'])

/-- The text of a loop whose rounds write `round x` for the `x` of a list, `none` when a
round never returns. -/
def help_rounds (round : Nat → Option Str) : List Nat → Option Str
  | [] => some []
  | x :: xs =>
    match round x with
    | none => none
    | some out => (help_rounds round xs).map (fun rest => out ++ rest)

/-- The member `help()` of the scope `id`: the text it writes, `none` when it never
returns. -/
def help (id : Nat) (P : ArgumentParser) : Option Str :=
  let S := P.scope id
  let SubCommands :=
    if S.SubCommandList.isEmpty then some []
    else
      (help_rounds (help_subcommand id P) S.SubCommandList).map (fun out =>
        YELLOW_COLOR ++ "SubCommands".data ++ RESET_COLOR ++ ['\n'] ++ out ++ ['\n'])
  match SubCommands with
  | none => none
  | some sub =>
    (help_rounds (help_option id P) S.NonpositionalList).map (fun opts =>
      usage id P ++ ['\n'] ++ sub ++ YELLOW_COLOR ++ "OPTIONS".data ++ RESET_COLOR ++ ['\n']
        ++ opts)

/-! ## `parse` -/

/-- The first three statements of `parse`: `ProgramNames` becomes the prefix followed by
`Argv[ArgP]`. -/
def parse_enter (id : Nat) (ProgramNamePrefix : List Str) (Arg0 : Str) (P : ArgumentParser) :
    ArgumentParser :=
  P.modify_scope id (fun S => { S with ProgramNames := ProgramNamePrefix ++ [Arg0] })

/-- The validation of `parse`: `if (!HelpOpt->value()) for (Desc : ArgumentDescriptors)
if (Desc.nargs() < Desc.min_nargs()) HelpOpt->value() = true;`. -/
def parse_validate (id : Nat) (P : ArgumentParser) : ArgumentParser :=
  if !(P.scope id).HelpOpt then
    P.modify_scope id (fun S =>
      { S with
        HelpOpt := S.ArgumentDescriptors.foldl
          (fun h Desc => if Desc.NArgs < Desc.MinNArgs then true else h) S.HelpOpt })
  else P

/-- The end of `parse`, after the loop over the tokens: the pending default, then the
outcome.  `VersionOpt` is a reference to the value of the version toggle, read here. -/
def parse_tail (id : Nat) (CurrentDesc : Option Nat) (P : ArgumentParser) :
    Option (Bool × ArgumentParser) :=
  let P1 := pending_default id CurrentDesc P
  if P1.VerOpt then some (true, P1)
  else
    let P2 := parse_validate id P1
    if (P2.scope id).HelpOpt then
      (help id P2).map (fun out => (false, { P2 with Cout := P2.Cout ++ out }))
    else some (true, P2)

/-- The loop of `parse` of the scope `id` over the tokens `Argv[ArgI], ..., Argv[Argc-1]`
still to read, followed by the end of `parse`.  A dispatch returns what `parse` of the
child returns on the tokens after the subcommand name. -/
def parse_loop (conv : Conv) :
    Nat → Locals → ArgumentParser → List Str → Option (Except Error Bool × ArgumentParser)
  | id, L, P, [] => (parse_tail id L.CurrentDesc P).map (fun r => (.ok r.1, r.2))
  | id, L, P, Arg :: rest =>
    match parse_body conv id L P Arg with
    | .next L1 P1 => parse_loop conv id L1 P1 rest
    | .fail e P1 => some (.error e, P1)
    | .dispatch Child P1 =>
      parse_loop conv Child Locals.init
        (parse_enter Child (P1.scope id).ProgramNames Arg P1) rest

/-- The member `parse(ProgramNamePrefix, Argc, Argv, ArgP, VersionOpt)` of the scope
`id`, where `Arg0` is `Argv[ArgP]` and `Args` are the tokens after it.  The result is
`ok true` (proceed), `ok false` (help was rendered) or an error, with the state left
behind; `none` when `help` never returns. -/
def parse (conv : Conv) (id : Nat) (ProgramNamePrefix : List Str) (Arg0 : Str)
    (Args : List Str) (P : ArgumentParser) : Option (Except Error Bool × ArgumentParser) :=
  parse_loop conv id Locals.init (parse_enter id ProgramNamePrefix Arg0 P) Args

/-! ## The facade -/

/-- The constructor `ArgumentParser()`: one root scope, with the version toggle
registered under `v` and `version`; nothing has been called or written yet. -/
def ArgumentParser.new : ArgumentParser :=
  let VerOpt := Toggle .version "Show version infomation".data
  { SubCommandDescriptors :=
      [((SubCommandDescriptor.new 0 none).add_option "v".data VerOpt).add_option
        "version".data VerOpt]
    CurrentSubCommandId := 0
    SubCommandStack := []
    VerOpt := false
    Calls := []
    Cout := []
    Cerr := [] }

/-- The facade overload `add_option(Argument, Opt)`. -/
def ArgumentParser.add_option (P : ArgumentParser) (Argument : Str) (o : OptObj) :
    ArgumentParser :=
  P.modify_scope P.CurrentSubCommandId (fun S => S.add_option Argument o)

/-- The facade overload `add_option(Opt)`. -/
def ArgumentParser.add_option_positional (P : ArgumentParser) (o : OptObj) : ArgumentParser :=
  P.modify_scope P.CurrentSubCommandId (fun S => S.add_option_positional o)

/-- The member `add_child(Child, Args...)` of the scope `id`, for the child stored at
index `Child`: `Offset` is the distance between the two elements. -/
def add_child (id Child : Nat) (Args : List Str) (P : ArgumentParser) : ArgumentParser :=
  let Offset := Child - id
  let P1 := P.modify_scope id (fun S => { S with SubCommandList := S.SubCommandList ++ [Offset] })
  let P2 := P1.modify_scope Child (fun S => { S with SubCommandNames := S.SubCommandNames ++ Args })
  P2.modify_scope id (fun S =>
    { S with SubCommandMap := Args.foldl (fun m Arg => map_emplace m Arg Offset) S.SubCommandMap })

/-- The member `begin_subcommand(SC, Args...)`. -/
def ArgumentParser.begin_subcommand (P : ArgumentParser) (SC : SubCommand) (Args : List Str) :
    ArgumentParser :=
  let ParentSubCommandId := P.CurrentSubCommandId
  let Child := P.SubCommandDescriptors.length
  let P1 : ArgumentParser :=
    { P with
      SubCommandStack := P.SubCommandStack ++ [P.CurrentSubCommandId]
      CurrentSubCommandId := Child
      SubCommandDescriptors := P.SubCommandDescriptors ++ [SubCommandDescriptor.new Child (some SC)] }
  add_child ParentSubCommandId Child Args P1

/-- The member `end_subcommand()`.  On an empty stack the source reads `back()` of an
empty vector; the current scope is then left as it is. -/
def ArgumentParser.end_subcommand (P : ArgumentParser) : ArgumentParser :=
  match P.SubCommandStack.getLast? with
  | some Id => { P with CurrentSubCommandId := Id, SubCommandStack := P.SubCommandStack.dropLast }
  | none => P

/-- The facade `parse(Argc, Argv)`: the scan of the root scope on the whole argument
vector.  An error is written to `std::cerr` and gives `false`. -/
def ArgumentParser.parse (conv : Conv) (P : ArgumentParser) (Argv : List Str) :
    Option (Bool × ArgumentParser) :=
  match PO.parse conv 0 [] (Argv.headD []) Argv.tail P with
  | none => none
  | some (.error e, P1) => some (false, { P1 with Cerr := P1.Cerr ++ e.message ++ ['\n'] })
  | some (.ok r, P1) => some (r || P1.VerOpt, P1)

/-! # Auxiliary definitions for the statements -/

/-- A plain token: it does not start with `-` or is shorter than two characters. -/
def plain (t : Str) : Prop := ¬ (t.length ≥ 2 ∧ char_at t 0 = '-')

instance (t : Str) : Decidable (plain t) := by unfold plain; infer_instance

/-! ## Registration data

An operation of the scanner changes consumed counts, toggles, program names and the
environment, never what was registered.  `reset` forgets the former. -/

/-- The descriptor with its consumed count cleared. -/
def ArgumentDescriptor.reset (D : ArgumentDescriptor) : ArgumentDescriptor :=
  { D with NArgs := 0 }

/-- The scope with its counts, help toggle and program names cleared. -/
def SubCommandDescriptor.reset (S : SubCommandDescriptor) : SubCommandDescriptor :=
  { S with HelpOpt := false, ProgramNames := [],
           ArgumentDescriptors := S.ArgumentDescriptors.map ArgumentDescriptor.reset }

/-- The scopes of the parser with everything a scan may change cleared. -/
def ArgumentParser.reset (P : ArgumentParser) : List SubCommandDescriptor :=
  P.SubCommandDescriptors.map SubCommandDescriptor.reset

/-- Two states with the same registration data agree on everything registered. -/
structure SameRegistration (Q P : ArgumentParser) : Prop where
  reset_eq : Q.reset = P.reset

/-- The state in which the value operation of descriptor `i` of scope `id` has been
invoked once more, with `v`, and has accepted it: the call is recorded and the consumed
count of that descriptor is one higher; nothing else differs. -/
def bind_value (id i : Nat) (v : Str) (P : ArgumentParser) : ArgumentParser :=
  { P with Calls := P.Calls ++ [Call.argument (P.desc id i).Opt v] }.modify_desc id i
    (fun D => { D with NArgs := D.NArgs + 1 })

/-- The state after the default operations of the descriptors that the one-character
aliases `cs` resolve to have been invoked, in order. -/
def fire_flags (id : Nat) (cs : Str) (P : ArgumentParser) : ArgumentParser :=
  cs.foldl (fun Q c => default_value id ((map_find (Q.scope id).ArgumentMap [c]).getD 0) Q) P

/-- The state after the descriptors `ps` have accepted the tokens `ts`, the first
descriptor the first token and so on, as far as both lists go. -/
def bind_values (id : Nat) : List Nat → List Str → ArgumentParser → ArgumentParser
  | p :: ps, t :: ts, P => bind_values id ps ts (bind_value id p t P)
  | _, _, P => P

/-- The error of the scanner for a plain token that finds no positional left. -/
def PositionalOverflow : Error :=
  ⟨.InvalidArgument, "positional argument exceeds maxinum consuming.".data⟩

/-- The positional slots of a scope, from the words of the specification: the
positionals are filled in registration order, and a positional takes values until its
count reaches `max_nargs`, at least one.  `slots maxN ps n` lists the descriptors of the
first `n` slots that the positionals `ps` offer when `maxN p` is `max_nargs` of `p`; it
is shorter than `n` when they offer fewer. -/
def slots (maxN : Nat → Nat) : List Nat → Nat → List Nat
  | [], _ => []
  | p :: ps, n =>
    List.replicate (min n (max 1 (maxN p))) p ++ slots maxN ps (n - max 1 (maxN p))

/-- The slots left when the descriptor `c` still takes `r` values before the positionals
`ps` are started. -/
def slots_from (maxN : Nat → Nat) (r c : Nat) (ps : List Nat) (n : Nat) : List Nat :=
  List.replicate (min n r) c ++ slots maxN ps (n - r)

/-- The state of the scan between two literal tokens: either no descriptor is live, or
the live descriptor `c` has taken a value and takes `r` more; the positionals not yet
started, `ps`, are distinct, registered and untouched. -/
structure Filling (id : Nat) (L : Locals) (Q : ArgumentParser) (r c : Nat) (ps : List Nat) :
    Prop where
  escaped : L.Escaped = true
  no_subcommand : (Q.scope id).SubCommandMap = []
  scope_lt : id < Q.SubCommandDescriptors.length
  rest : (Q.scope id).PositionalList.drop L.PositionalIter = ps
  nodup : ps.Nodup
  fresh : ∀ p ∈ ps, p < (Q.scope id).ArgumentDescriptors.length ∧ (Q.desc id p).NArgs = 0
  live : (L.CurrentDesc = none ∧ r = 0) ∨
    (L.CurrentDesc = some c ∧ r ≠ 0 ∧ c ∉ ps ∧ c < (Q.scope id).ArgumentDescriptors.length ∧
      (Q.desc id c).NArgs ≠ 0 ∧ (Q.desc id c).NArgs + r = (Q.desc id c).MaxNArgs)

/-- The descriptors of scope `j` are the same in both states, consumed counts
included. -/
def untouched (j : Nat) (Q P : ArgumentParser) : Prop :=
  (Q.scope j).ArgumentDescriptors = (P.scope j).ArgumentDescriptors

/-- What a step of the loop leaves of the scopes other than the one scanned: their
descriptors; and a dispatch goes to a scope that is not stored before it. -/
def Step.frame (j id : Nat) (P : ArgumentParser) : Step → Prop
  | .next _ P1 => untouched j P1 P
  | .fail _ P1 => untouched j P1 P
  | .dispatch Child P1 => untouched j P1 P ∧ id ≤ Child

/-- The loop of `parse` over the tokens `ts` as long as it does not return: the scope it
is scanning after the last of them (the scope it started in, or the child it was
transferred to), with the locals and the state reached; `none` when the loop returns an
error at one of the tokens. -/
def scan (conv : Conv) :
    Nat → Locals → ArgumentParser → List Str → Option (Nat × Locals × ArgumentParser)
  | id, L, P, [] => some (id, L, P)
  | id, L, P, Arg :: rest =>
    match parse_body conv id L P Arg with
    | .next L1 P1 => scan conv id L1 P1 rest
    | .fail _ _ => none
    | .dispatch Child P1 =>
      scan conv Child Locals.init (parse_enter Child (P1.scope id).ProgramNames Arg P1) rest

/-- The state `Q` extends the state `P`: every call recorded in `P` is still there, in
order, followed by the later ones, no consumed count is lower, and a toggle that was
set is still set. -/
structure Extends (Q P : ArgumentParser) : Prop where
  calls : P.Calls <+: Q.Calls
  counts : ∀ s i, (P.desc s i).NArgs ≤ (Q.desc s i).NArgs
  help : ∀ s, (P.scope s).HelpOpt = true → (Q.scope s).HelpOpt = true
  version : P.VerOpt = true → Q.VerOpt = true

/-- The state `Q` extends the state `P` by at most `n` accepted values: `Q` extends `P`,
no consumed count of `Q` is more than `n` above the one of `P`, and the limits
`max_nargs` are the same. -/
structure Within (n : Nat) (Q P : ArgumentParser) : Prop where
  ext : Extends Q P
  grow : ∀ s i, (Q.desc s i).NArgs ≤ (P.desc s i).NArgs + n
  max : ∀ s i, (Q.desc s i).MaxNArgs = (P.desc s i).MaxNArgs

/-- The selection callbacks fired so far: the addresses of the subcommand objects whose
`select` was called, in order. -/
def selections (P : ArgumentParser) : List Nat :=
  P.Calls.filterMap (fun c => match c with | .select sc => some sc | _ => none)

/-- The step is not a dispatch, and when the loop goes on `FirstNonOption` is false. -/
def Step.stays : Step → Prop
  | .next L1 _ => L1.FirstNonOption = false
  | .fail _ _ => True
  | .dispatch _ _ => False

/-- The scope after the calls `add_option(alias, target)` of the list, in order. -/
def add_options (S : SubCommandDescriptor) (calls : List (Str × OptObj)) :
    SubCommandDescriptor :=
  calls.foldl (fun S c => S.add_option c.1 c.2) S

/-- The targets of a list of calls that the scope `S` has no descriptor for yet, each
one once. -/
def new_targets (S : SubCommandDescriptor) (calls : List (Str × OptObj)) : List OptRef :=
  ((calls.map (fun c => c.2.ref)).filter (fun r => (map_find S.OptionMap r).isNone)).dedup

/-- A call of the facade while the tree is built. -/
inductive FacadeOp where
  | add_option (Argument : Str) (o : OptObj)
  | add_option_positional (o : OptObj)
  | begin_subcommand (SC : SubCommand) (Args : List Str)
  | end_subcommand
  deriving DecidableEq, Repr

/-- The parser after the call `op`. -/
def FacadeOp.apply (P : ArgumentParser) : FacadeOp → ArgumentParser
  | .add_option Argument o => P.add_option Argument o
  | .add_option_positional o => P.add_option_positional o
  | .begin_subcommand SC Args => P.begin_subcommand SC Args
  | .end_subcommand => P.end_subcommand

/-- The option object is one of the caller.  The toggles of the parser are private
members (`HelpOpt`, `VerOpt`) that no call of the facade can be given. -/
def OptRef.of_caller : OptRef → Bool
  | .user _ => true
  | _ => false

/-- The call passes an option object of the caller, if it passes one. -/
def FacadeOp.of_caller : FacadeOp → Bool
  | .add_option _ o => o.ref.of_caller
  | .add_option_positional o => o.ref.of_caller
  | _ => true

/-- The call registers the alias `A`. -/
def FacadeOp.registers_alias (A : Str) : FacadeOp → Bool
  | .add_option Argument _ => decide (Argument = A)
  | _ => false

/-- The parser after the calls `ops`, in order, on the parser `P`. -/
def build_from (P : ArgumentParser) (ops : List FacadeOp) : ArgumentParser :=
  ops.foldl FacadeOp.apply P

/-- The tree built through the facade: the constructor, then the calls `ops`. -/
def build (ops : List FacadeOp) : ArgumentParser :=
  build_from ArgumentParser.new ops

/-- Whether one of the calls `ops`, made in order on the parser `P`, registers the alias
`A` while the scope `id` is the current one. -/
def registers (A : Str) (id : Nat) : ArgumentParser → List FacadeOp → Bool
  | _, [] => false
  | P, op :: ops =>
    (decide (P.CurrentSubCommandId = id) && op.registers_alias A) ||
      registers A id (op.apply P) ops

/-- The built-in aliases of the scope `S` stored at index `id`: `h` and `help` resolve
to the first descriptor, the help toggle of the scope; in the root `v` and `version`
resolve to the second, the version toggle; no descriptor of another scope is the
version toggle; and every alias bound is a built-in one or satisfies `K`. -/
structure Builtin (S : SubCommandDescriptor) (id : Nat) (K : Str → Prop) : Prop where
  short : map_find S.ArgumentMap "h".data = some 0
  long : map_find S.ArgumentMap "help".data = some 0
  own : (S.desc 0).Opt = .help id
  first : 0 < S.ArgumentDescriptors.length
  root : id = 0 → map_find S.ArgumentMap "v".data = some 1 ∧
    map_find S.ArgumentMap "version".data = some 1 ∧ (S.desc 1).Opt = .version ∧
    1 < S.ArgumentDescriptors.length
  sub : id ≠ 0 → ∀ i, (S.desc i).Opt ≠ .version
  keys : ∀ A, map_find S.ArgumentMap A ≠ none →
    A = "h".data ∨ A = "help".data ∨ (id = 0 ∧ (A = "v".data ∨ A = "version".data)) ∨ K A

/-- Every scope of the tree has its built-in aliases, the aliases of scope `id` beyond
them satisfying `K · id`. -/
structure FacadeInv (P : ArgumentParser) (K : Str → Nat → Prop) : Prop where
  pos : 0 < P.SubCommandDescriptors.length
  scopes : ∀ id, id < P.SubCommandDescriptors.length →
    Builtin (P.scope id) id (fun A => K A id)

/-- The words of a text: its maximal runs of characters other than the space, in
order. -/
def words : Str → List Str
  | [] => []
  | c :: cs =>
    if c = ' ' then words cs
    else
      match cs with
      | [] => [[c]]
      | d :: _ =>
        if d = ' ' then [c] :: words cs
        else
          match words cs with
          | w :: ws => (c :: w) :: ws
          | [] => [[c]]

/-- The words of a sequence of lines, read in order. -/
def words_of (ls : List Str) : List Str :=
  ls.foldr (fun l r => words l ++ r) []

/-- The text that shows the lines `ls`, each after its indent and followed by a line
break, and then the last line `last` after its indent, or nothing when it is empty. -/
def render_lines (kIndent : Str) (IndentCount : Nat) (ls : List Str) (last : Str) : Str :=
  ls.foldr (fun l out => indents kIndent IndentCount ++ l ++ ['\n'] ++ out)
    (if last.isEmpty then [] else indents kIndent IndentCount ++ last)

/-- Greedy word wrap, from the words of the specification: a text of at most `Width`
characters is the last line; a longer text `a ++ ' ' :: gap ++ rest` is broken at the
space after `a`, the last space at or before index `Width` (no space follows it up to
that index), the line is `a`, the line break replaces the run of spaces `' ' :: gap`,
and the wrap goes on with `rest`, which does not start with a space. -/
inductive Greedy (Width : Nat) : Str → List Str → Str → Prop
  | done (Desc : Str) : Desc.length ≤ Width → Greedy Width Desc [] Desc
  | line (a gap rest : Str) (ls : List Str) (last : Str) :
    Width < (a ++ ' ' :: (gap ++ rest)).length → a.length ≤ Width →
    (∀ c ∈ gap, c = ' ') → rest.head? ≠ some ' ' →
    (∀ c ∈ (gap ++ rest).take (Width - a.length), c ≠ ' ') →
    Greedy Width rest ls last → Greedy Width (a ++ ' ' :: (gap ++ rest)) (a :: ls) last

/-- Two states agree from the scope `c` on: they have as many scopes, the same scopes
at every index from `c` on, and the same version flag.  The scopes stored before `c`,
the calls recorded and the text written may differ. -/
structure Agree (c : Nat) (Q Q1 : ArgumentParser) : Prop where
  length : Q.SubCommandDescriptors.length = Q1.SubCommandDescriptors.length
  scopes : ∀ s, c ≤ s → Q.scope s = Q1.scope s
  version : Q.VerOpt = Q1.VerOpt

/-- Two runs have the same outcome: both never return, or both return the same result,
in states that agree from the scope `c` on. -/
def same_outcome {α : Type} (c : Nat) :
    Option (α × ArgumentParser) → Option (α × ArgumentParser) → Prop
  | none, none => True
  | some (r, Q), some (r1, Q1) => r = r1 ∧ Agree c Q Q1
  | _, _ => False

/-- Two steps of the loop do the same: both go on, fail or dispatch, with the same
locals, error or child, in states that agree from the scope `c` on. -/
def same_step (c : Nat) : Step → Step → Prop
  | .next L P, .next L1 P1 => L = L1 ∧ Agree c P P1
  | .fail e P, .fail e1 P1 => e = e1 ∧ Agree c P P1
  | .dispatch d P, .dispatch d1 P1 => d = d1 ∧ Agree c P P1
  | _, _ => False

/-- The first line `usage` writes, the heading. -/
def usage_heading : Str :=
  YELLOW_COLOR ++ "USAGE".data ++ RESET_COLOR ++ ['\n']

/-- The program-name chain of the usage line: every name after a tab. -/
def usage_chain (S : SubCommandDescriptor) : Str :=
  S.ProgramNames.foldr (fun Part out => '\t' :: Part ++ out) []

/-- The positionals of a scope that are not hidden, in registration order. -/
def visible_positionals (S : SubCommandDescriptor) : List ArgumentDescriptor :=
  (S.PositionalList.map S.desc).filter (fun D => !D.Hidden)

/-- Whether some nonpositional descriptor of the scope is not hidden. -/
def has_visible_option (S : SubCommandDescriptor) : Bool :=
  S.NonpositionalList.any (fun i => !(S.desc i).Hidden)

/-- The usage line from the words of the specification: the program-name chain, then
`[OPTIONS]` if some nonpositional is not hidden, then every positional that is not
hidden, in registration order, as its metavar, followed by ` ...` when `max_nargs > 1`
and enclosed in square brackets when `min_nargs = 0`; nothing else.  The items are
set apart by a space. -/
def usage_line_claimed (S : SubCommandDescriptor) : Str :=
  usage_chain S ++ (if has_visible_option S then " [OPTIONS]".data else [])
    ++ (visible_positionals S).foldr (fun D out =>
        [' '] ++ (if D.MinNArgs = 0 then ['['] else [])
          ++ D.Meta ++ (if D.MaxNArgs > 1 then " ...".data else [])
          ++ (if D.MinNArgs = 0 then [']'] else []) ++ out) []

/-- What the usage line shows for one positional: a space, then the metavar, which is
left out when `max_nargs = 0` and followed by ` ...` when `max_nargs > 1`, enclosed in
square brackets when `min_nargs = 0`. -/
def usage_entry (D : ArgumentDescriptor) : Str :=
  [' '] ++ (if D.MinNArgs = 0 then ['['] else [])
    ++ (if D.MaxNArgs = 0 then [] else if D.MaxNArgs = 1 then D.Meta
        else D.Meta ++ " ...".data)
    ++ (if D.MinNArgs = 0 then [']'] else [])

/-- The positional part of the usage line: nothing when every positional is hidden,
else ` [--]` followed by the entries of the positionals that are not hidden. -/
def usage_positionals (S : SubCommandDescriptor) : Str :=
  if (visible_positionals S).isEmpty then []
  else " [--]".data ++ (visible_positionals S).foldr (fun D out => usage_entry D ++ out) []

/-- The usage line as amended: the line of the specification with ` [--]` before the
first positional shown and the entries of `usage_entry`. -/
def usage_line (S : SubCommandDescriptor) : Str :=
  usage_chain S ++ (if has_visible_option S then " [OPTIONS]".data else [])
    ++ usage_positionals S

/-- The first descriptor of the scope is listed as a nonpositional and is not hidden,
as the help toggle that the constructor of the scope registers is. -/
def help_listed (S : SubCommandDescriptor) : Prop :=
  0 ∈ S.NonpositionalList ∧ (S.desc 0).Hidden = false ∧ 0 < S.ArgumentDescriptors.length

/-- The state a step of the loop ends in, whatever it does next. -/
def Step.state : Step → ArgumentParser
  | .next _ P1 => P1
  | .fail _ P1 => P1
  | .dispatch _ P1 => P1

/-! ## Example data -/

/-- An option object of the caller at address `addr` that takes between `lo` and `hi`
values. -/
def example_option (addr lo hi : Nat) : OptObj :=
  { ref := .user addr, description := "an option".data, metavar := "ARG".data,
    min_narg := lo, max_narg := hi, hidden := false }

/-- A conversion table that accepts every token. -/
def accept_all : Conv := fun _ _ => none

/-- A conversion table in which the option at address 1 holds a number and rejects the
token `abc`; every other token is accepted. -/
def reject_abc : Conv := fun o s =>
  if o = .user 1 ∧ s = "abc".data then some ⟨.InvalidArgument, "invalid argument".data⟩
  else none

/-- A parser with one single-valued option `--out`. -/
def parser_out : ArgumentParser :=
  ArgumentParser.new.add_option "out".data (example_option 1 0 1)

/-- A parser whose single-valued option is registered under the empty alias. -/
def parser_empty_alias : ArgumentParser :=
  ArgumentParser.new.add_option [] (example_option 1 0 1)

/-- The parser of the clustering example: the flags `-a` (verbose) and `-b` (force) and
the single-valued option `-c` (out). -/
def parser_cluster : ArgumentParser :=
  ((ArgumentParser.new.add_option "a".data (Toggle (.user 1) "verbose".data)).add_option
    "b".data (Toggle (.user 2) "force".data)).add_option "c".data (example_option 3 0 1)

/-- A parser with a flag registered under the alias `-` and the single-valued option
`d`. -/
def parser_dash_alias : ArgumentParser :=
  (ArgumentParser.new.add_option "-".data (Toggle (.user 1) "a flag".data)).add_option
    "d".data (example_option 2 0 1)

/-- A parser with two single-valued positionals, the first of which holds a number. -/
def parser_two_positionals : ArgumentParser :=
  (ArgumentParser.new.add_option_positional (example_option 1 1 1)).add_option_positional
    (example_option 2 0 1)

/-- A parser with a single-valued positional followed by one that takes up to three
values. -/
def parser_multi_positional : ArgumentParser :=
  (ArgumentParser.new.add_option_positional (example_option 1 1 1)).add_option_positional
    (example_option 2 0 3)

/-- The parser of the dispatch example: the root has an option `--opt` and an option
`--verbose`, the child `build` has an option `--opt` of its own. -/
def parser_build : ArgumentParser :=
  ((((ArgumentParser.new.add_option "opt".data (example_option 1 0 1)).add_option
    "verbose".data (Toggle (.user 3) "verbose".data)).begin_subcommand
    ⟨10, "Build the project".data⟩ ["build".data]).add_option "opt".data
    (example_option 2 0 1)).end_subcommand

/-- A parser whose child scope is linked under the alias `-b`. -/
def parser_dash_subcommand : ArgumentParser :=
  (ArgumentParser.new.begin_subcommand ⟨10, "Build the project".data⟩ ["-b".data]).end_subcommand

/-- A parser with a required option `-n`, `--number`. -/
def parser_number : ArgumentParser :=
  (ArgumentParser.new.add_option "n".data (example_option 1 1 1)).add_option "number".data
    (example_option 1 1 1)

/-- A parser with a required option whose description is one word of 80 characters. -/
def parser_long_word : ArgumentParser :=
  ArgumentParser.new.add_option "n".data
    { ref := .user 1, description := List.replicate 80 'x', metavar := "ARG".data,
      min_narg := 1, max_narg := 1, hidden := false }

/-- A parser with an option `--dir` that takes up to three values and one positional. -/
def parser_dir : ArgumentParser :=
  (ArgumentParser.new.add_option "dir".data (example_option 1 0 3)).add_option_positional
    (example_option 2 0 1)

/-- A parser with one positional that takes between two and three values. -/
def parser_min_two : ArgumentParser :=
  ArgumentParser.new.add_option_positional (example_option 1 2 3)

/-- The parser of the dispatch example with a positional in the root. -/
def parser_build_file : ArgumentParser :=
  ((ArgumentParser.new.add_option_positional (example_option 1 0 1)).begin_subcommand
    ⟨10, "Build the project".data⟩ ["build".data]).end_subcommand

/-- The calls that build the tree of the dispatch example, with an option `-v` of the
caller in the subcommand `run` and none in the subcommand `build`. -/
def example_calls : List FacadeOp :=
  [.add_option "opt".data (example_option 1 0 1),
   .begin_subcommand ⟨10, "Build the project".data⟩ ["build".data],
   .add_option "out".data (example_option 2 0 1),
   .end_subcommand,
   .begin_subcommand ⟨11, "Run the project".data⟩ ["run".data],
   .add_option "v".data (Toggle (.user 3) "verbose".data),
   .end_subcommand]

/-- A description of 98 characters whose words are short. -/
def example_description : Str :=
  "Enable the gas metering of the runtime and print the gas used by every call when the run has ended".data

/-- A description that holds a word of 80 characters after two short ones. -/
def example_long_word : Str :=
  "see also ".data ++ List.replicate 80 'x'

/-- A parser with one positional that takes exactly three values. -/
def parser_min_three : ArgumentParser :=
  ArgumentParser.new.add_option_positional (example_option 1 3 3)

/-- A parser whose root has a required option `--num` and the child `build`. -/
def parser_required_parent : ArgumentParser :=
  ((ArgumentParser.new.add_option "num".data (example_option 1 1 1)).begin_subcommand
    ⟨10, "Build the project".data⟩ ["build".data]).end_subcommand

/-- A parser with a required positional `FILE`, a hidden positional and an optional
positional `ARGS` that takes up to three values. -/
def parser_usage : ArgumentParser :=
  ((ArgumentParser.new.add_option_positional
      { ref := .user 1, description := "input".data, metavar := "FILE".data,
        min_narg := 1, max_narg := 1, hidden := false }).add_option_positional
      { ref := .user 2, description := "secret".data, metavar := "KEY".data,
        min_narg := 0, max_narg := 1, hidden := true }).add_option_positional
      { ref := .user 3, description := "arguments".data, metavar := "ARGS".data,
        min_narg := 0, max_narg := 3, hidden := false }

/-- The calls that build `parser_usage`. -/
def usage_calls : List FacadeOp :=
  [.add_option_positional
      { ref := .user 1, description := "input".data, metavar := "FILE".data,
        min_narg := 1, max_narg := 1, hidden := false },
   .add_option_positional
      { ref := .user 2, description := "secret".data, metavar := "KEY".data,
        min_narg := 0, max_narg := 1, hidden := true },
   .add_option_positional
      { ref := .user 3, description := "arguments".data, metavar := "ARGS".data,
        min_narg := 0, max_narg := 3, hidden := false }]

/-- A parser with one positional that takes no value. -/
def parser_zero_positional : ArgumentParser :=
  ArgumentParser.new.add_option_positional (example_option 1 0 0)

/-! ## Strings and lists: auxiliary facts -/

theorem first_index_append_of_not_mem (c : Char) (A v : Str) (h : c ∉ A) :
    first_index (fun x => x == c) (A ++ c :: v) = some A.length := by
  induction A with
  | nil => simp [first_index]
  | cons a A ih =>
    have h1 : a ≠ c := fun e => h (by simp [e])
    have h2 : c ∉ A := fun e => h (by simp [e])
    simp [first_index, h1, ih h2]

theorem first_index_of_not_mem (c : Char) (A : Str) (h : c ∉ A) :
    first_index (fun x => x == c) A = none := by
  induction A with
  | nil => simp [first_index]
  | cons a A ih =>
    have h1 : a ≠ c := fun e => h (by simp [e])
    have h2 : c ∉ A := fun e => h (by simp [e])
    simp [first_index, h1, ih h2]

theorem find_long_with_argument (A v : Str) (h : '=' ∉ A) :
    find ('-' :: '-' :: (A ++ '=' :: v)) '=' 2 = some (A.length + 2) := by
  simp [find, first_index_append_of_not_mem _ _ _ h]

theorem find_long_without_argument (A : Str) (h : '=' ∉ A) :
    find ('-' :: '-' :: A) '=' 2 = none := by
  simp [find, first_index_of_not_mem _ _ h]

theorem substr_long_name (A v : Str) :
    substr ('-' :: '-' :: (A ++ '=' :: v)) 2 (A.length + 2 - 2) = A := by
  simp [substr]

theorem substr_long_value (A v : Str) :
    substr_from ('-' :: '-' :: (A ++ '=' :: v)) (A.length + 2 + 1) = v := by
  simp [substr_from]

theorem getD_modify {α : Type} (f : α → α) (n m : Nat) (l : List α) (d : α) :
    (List.modify f n l)[m]?.getD d =
      if n = m ∧ m < l.length then f (l[m]?.getD d) else l[m]?.getD d := by
  simp only [List.getElem?_modify]
  by_cases hm : m < l.length
  · simp [List.getElem?_eq_getElem hm, hm]
  · have : l[m]? = none := by simp at hm; simp [hm]
    simp [this, hm]

theorem map_modify_of_comp {α β : Type} (g : α → β) (f : α → α) (h : ∀ a, g (f a) = g a)
    (n : Nat) (l : List α) : (List.modify f n l).map g = l.map g := by
  induction l generalizing n with
  | nil => simp
  | cons a l ih =>
    cases n with
    | zero => simp [h]
    | succ n => simp [ih]

theorem modify_eq_self {α : Type} (f : α → α) (n : Nat) (l : List α) (d : α)
    (h : f (l[n]?.getD d) = l[n]?.getD d) : List.modify f n l = l := by
  induction l generalizing n with
  | nil => simp
  | cons a l ih =>
    cases n with
    | zero => simpa using h
    | succ n => simp at h; simp [ih n h]

/-! ## The state: reading after writing -/

@[simp] theorem scope_modify_scope (P : ArgumentParser) (s id : Nat)
    (f : SubCommandDescriptor → SubCommandDescriptor) :
    (P.modify_scope s f).scope id =
      if s = id ∧ id < P.SubCommandDescriptors.length then f (P.scope id) else P.scope id := by
  simp [ArgumentParser.modify_scope, ArgumentParser.scope, getD_modify]

@[simp] theorem length_modify_scope (P : ArgumentParser) (s : Nat)
    (f : SubCommandDescriptor → SubCommandDescriptor) :
    (P.modify_scope s f).SubCommandDescriptors.length = P.SubCommandDescriptors.length := by
  simp [ArgumentParser.modify_scope]

@[simp] theorem Calls_modify_scope (P : ArgumentParser) (s : Nat)
    (f : SubCommandDescriptor → SubCommandDescriptor) :
    (P.modify_scope s f).Calls = P.Calls := rfl

@[simp] theorem VerOpt_modify_scope (P : ArgumentParser) (s : Nat)
    (f : SubCommandDescriptor → SubCommandDescriptor) :
    (P.modify_scope s f).VerOpt = P.VerOpt := rfl

@[simp] theorem Cout_modify_scope (P : ArgumentParser) (s : Nat)
    (f : SubCommandDescriptor → SubCommandDescriptor) :
    (P.modify_scope s f).Cout = P.Cout := rfl

@[simp] theorem scope_with_Calls (P : ArgumentParser) (c : List Call) (id : Nat) :
    ({ P with Calls := c } : ArgumentParser).scope id = P.scope id := rfl

@[simp] theorem scope_with_VerOpt (P : ArgumentParser) (b : Bool) (id : Nat) :
    ({ P with VerOpt := b } : ArgumentParser).scope id = P.scope id := rfl

@[simp] theorem scope_with_Cout (P : ArgumentParser) (c : Str) (id : Nat) :
    ({ P with Cout := c } : ArgumentParser).scope id = P.scope id := rfl

theorem reset_scope (P : ArgumentParser) (id : Nat) :
    (P.scope id).reset = P.reset[id]?.getD default := by
  simp only [ArgumentParser.reset, ArgumentParser.scope, List.getD_eq_getElem?_getD,
    List.getElem?_map]
  cases P.SubCommandDescriptors[id]? <;> rfl

theorem reset_desc (S : SubCommandDescriptor) (i : Nat) :
    (S.desc i).reset = S.reset.ArgumentDescriptors[i]?.getD default := by
  simp only [SubCommandDescriptor.reset, SubCommandDescriptor.desc, List.getD_eq_getElem?_getD,
    List.getElem?_map]
  cases S.ArgumentDescriptors[i]? <;> rfl

theorem SameRegistration.refl (P : ArgumentParser) : SameRegistration P P := ⟨rfl⟩

theorem SameRegistration.trans {R Q P : ArgumentParser} (h1 : SameRegistration R Q)
    (h2 : SameRegistration Q P) : SameRegistration R P := ⟨h1.reset_eq.trans h2.reset_eq⟩

theorem SameRegistration.scope {Q P : ArgumentParser} (h : SameRegistration Q P) (id : Nat) :
    (Q.scope id).reset = (P.scope id).reset := by
  rw [reset_scope, reset_scope, h.reset_eq]

theorem SameRegistration.desc {Q P : ArgumentParser} (h : SameRegistration Q P) (id i : Nat) :
    (Q.desc id i).reset = (P.desc id i).reset := by
  simp only [ArgumentParser.desc, reset_desc, h.scope id]

theorem SameRegistration.length {Q P : ArgumentParser} (h : SameRegistration Q P) :
    Q.SubCommandDescriptors.length = P.SubCommandDescriptors.length := by
  have := congrArg List.length h.reset_eq
  simpa [ArgumentParser.reset] using this

theorem SameRegistration.desc_length {Q P : ArgumentParser} (h : SameRegistration Q P)
    (id : Nat) :
    (Q.scope id).ArgumentDescriptors.length = (P.scope id).ArgumentDescriptors.length := by
  have := congrArg (fun S => S.ArgumentDescriptors.length) (h.scope id)
  simpa [SubCommandDescriptor.reset] using this

theorem SameRegistration.ArgumentMap {Q P : ArgumentParser} (h : SameRegistration Q P)
    (id : Nat) : (Q.scope id).ArgumentMap = (P.scope id).ArgumentMap := by
  have := congrArg SubCommandDescriptor.ArgumentMap (h.scope id)
  exact this

theorem SameRegistration.SubCommandMap {Q P : ArgumentParser} (h : SameRegistration Q P)
    (id : Nat) : (Q.scope id).SubCommandMap = (P.scope id).SubCommandMap := by
  have := congrArg SubCommandDescriptor.SubCommandMap (h.scope id)
  exact this

theorem SameRegistration.PositionalList {Q P : ArgumentParser} (h : SameRegistration Q P)
    (id : Nat) : (Q.scope id).PositionalList = (P.scope id).PositionalList := by
  have := congrArg SubCommandDescriptor.PositionalList (h.scope id)
  exact this

theorem SameRegistration.SC {Q P : ArgumentParser} (h : SameRegistration Q P)
    (id : Nat) : (Q.scope id).SC = (P.scope id).SC := by
  have := congrArg SubCommandDescriptor.SC (h.scope id)
  exact this

theorem SameRegistration.MaxNArgs {Q P : ArgumentParser} (h : SameRegistration Q P)
    (id i : Nat) : (Q.desc id i).MaxNArgs = (P.desc id i).MaxNArgs := by
  have := congrArg ArgumentDescriptor.MaxNArgs (h.desc id i)
  exact this

theorem SameRegistration.MinNArgs {Q P : ArgumentParser} (h : SameRegistration Q P)
    (id i : Nat) : (Q.desc id i).MinNArgs = (P.desc id i).MinNArgs := by
  have := congrArg ArgumentDescriptor.MinNArgs (h.desc id i)
  exact this

theorem SameRegistration.Opt {Q P : ArgumentParser} (h : SameRegistration Q P)
    (id i : Nat) : (Q.desc id i).Opt = (P.desc id i).Opt := by
  have := congrArg ArgumentDescriptor.Opt (h.desc id i)
  exact this

theorem sameRegistration_modify_scope (P : ArgumentParser) (s : Nat)
    (f : SubCommandDescriptor → SubCommandDescriptor) (hf : ∀ S, (f S).reset = S.reset) :
    SameRegistration (P.modify_scope s f) P :=
  ⟨by simp only [ArgumentParser.reset, ArgumentParser.modify_scope]
      exact map_modify_of_comp _ _ hf _ _⟩

theorem sameRegistration_modify_desc (P : ArgumentParser) (id i : Nat)
    (f : ArgumentDescriptor → ArgumentDescriptor) (hf : ∀ D, (f D).reset = D.reset) :
    SameRegistration (P.modify_desc id i f) P := by
  apply sameRegistration_modify_scope
  intro S
  simp only [SubCommandDescriptor.reset, map_modify_of_comp _ _ hf]

theorem sameRegistration_default_argument (o : OptRef) (P : ArgumentParser) :
    SameRegistration (default_argument o P) P := by
  cases o with
  | help s =>
    exact (sameRegistration_modify_scope
      { P with Calls := P.Calls ++ [Call.default_argument (.help s)] } s
      (fun S => { S with HelpOpt := true }) (fun _ => rfl)).trans ⟨rfl⟩
  | version => exact ⟨rfl⟩
  | user a => exact ⟨rfl⟩

theorem sameRegistration_default_value (id i : Nat) (P : ArgumentParser) :
    SameRegistration (default_value id i P) P :=
  sameRegistration_default_argument _ _

theorem sameRegistration_pending_default (id : Nat) (cur : Option Nat) (P : ArgumentParser) :
    SameRegistration (pending_default id cur P) P := by
  cases cur with
  | none => exact ⟨rfl⟩
  | some i =>
    simp only [pending_default]
    split
    · exact sameRegistration_default_value _ _ _
    · exact ⟨rfl⟩

theorem sameRegistration_parse_enter (id : Nat) (pre : List Str) (a : Str) (P : ArgumentParser) :
    SameRegistration (parse_enter id pre a P) P :=
  sameRegistration_modify_scope P id (fun S => { S with ProgramNames := pre ++ [a] })
    (fun _ => rfl)

theorem sameRegistration_select (c : Nat) (P : ArgumentParser) :
    SameRegistration (select c P) P := by
  simp only [select]
  split <;> exact ⟨rfl⟩

theorem sameRegistration_bind_value (id i : Nat) (v : Str) (P : ArgumentParser) :
    SameRegistration (bind_value id i v P) P :=
  (sameRegistration_modify_desc
    { P with Calls := P.Calls ++ [Call.argument (P.desc id i).Opt v] } id i
    (fun D => { D with NArgs := D.NArgs + 1 }) (fun _ => rfl)).trans ⟨rfl⟩

theorem desc_modify_desc_gen (P : ArgumentParser) (id i j : Nat)
    (f : ArgumentDescriptor → ArgumentDescriptor) :
    (P.modify_desc id i f).desc id j =
      if id < P.SubCommandDescriptors.length ∧ i = j ∧
          j < (P.scope id).ArgumentDescriptors.length then f (P.desc id j)
      else P.desc id j := by
  by_cases hid : id < P.SubCommandDescriptors.length
  · simp [ArgumentParser.modify_desc, ArgumentParser.desc, SubCommandDescriptor.desc, hid,
      getD_modify]
  · simp [ArgumentParser.modify_desc, ArgumentParser.desc, hid]

theorem desc_modify_desc (P : ArgumentParser) (id i j : Nat)
    (f : ArgumentDescriptor → ArgumentDescriptor)
    (hid : id < P.SubCommandDescriptors.length) :
    (P.modify_desc id i f).desc id j =
      if i = j ∧ j < (P.scope id).ArgumentDescriptors.length then f (P.desc id j)
      else P.desc id j := by
  simp [desc_modify_desc_gen, hid]

theorem desc_default_of_not_lt (P : ArgumentParser) (id i : Nat)
    (h : ¬ (id < P.SubCommandDescriptors.length ∧ i < (P.scope id).ArgumentDescriptors.length)) :
    P.desc id i = default := by
  by_cases hid : id < P.SubCommandDescriptors.length
  · have hi : (P.scope id).ArgumentDescriptors.length ≤ i := by
      by_contra hc
      exact h ⟨hid, by omega⟩
    simp [ArgumentParser.desc, SubCommandDescriptor.desc, List.getElem?_eq_none hi]
  · have hs : P.scope id = default := by
      simp only [ArgumentParser.scope, List.getD_eq_getElem?_getD]
      rw [List.getElem?_eq_none (by omega)]
      rfl
    simp only [ArgumentParser.desc, hs]
    rfl

theorem consume_argument_accept (conv : Conv) (id i : Nat) (v : Str) (P : ArgumentParser)
    (h : conv (P.desc id i).Opt v = none) :
    consume_argument conv id i v P =
      (.ok (if ((bind_value id i v P).desc id i).NArgs ≥ ((bind_value id i v P).desc id i).MaxNArgs
          then none else some i), bind_value id i v P) := by
  simp only [consume_argument, value, argument, h, bind_value]
  split <;> rfl

theorem consume_argument_reject (conv : Conv) (id i : Nat) (v : Str) (P : ArgumentParser)
    (e : Error) (h : conv (P.desc id i).Opt v = some e) :
    consume_argument conv id i v P =
      (.error e, { P with Calls := P.Calls ++ [Call.argument (P.desc id i).Opt v] }) := by
  simp only [consume_argument, value, argument, h]

theorem sameRegistration_consume_argument (conv : Conv) (id i : Nat) (v : Str)
    (P : ArgumentParser) : SameRegistration (consume_argument conv id i v P).2 P := by
  cases h : conv (P.desc id i).Opt v with
  | none => rw [consume_argument_accept _ _ _ _ _ h]; exact sameRegistration_bind_value _ _ _ _
  | some e => rw [consume_argument_reject _ _ _ _ _ _ h]; exact ⟨rfl⟩


/-! ## One step of the scanner -/

theorem consume_long_option_found (id : Nat) (A : Str) (P : ArgumentParser) (i : Nat)
    (h : map_find (P.scope id).ArgumentMap A = some i) :
    consume_long_option id A P =
      if (P.desc id i).MaxNArgs = 0 then (.ok none, default_value id i P)
      else (.ok (some i), P) := by
  simp only [consume_long_option, h]

theorem consume_long_option_unknown (id : Nat) (A : Str) (P : ArgumentParser)
    (h : map_find (P.scope id).ArgumentMap A = none) :
    consume_long_option id A P =
      (.error ⟨.InvalidArgument, "unknown option: ".data ++ A⟩, P) := by
  simp only [consume_long_option, h]

theorem consume_short_option_eq (id : Nat) (A : Str) (P : ArgumentParser) :
    consume_short_option id A P = consume_long_option id A P := rfl

theorem parse_body_long (conv : Conv) (id : Nat) (L : Locals) (P : ArgumentParser)
    (r : Str) (hE : L.Escaped = false) (hr : r ≠ []) :
    parse_body conv id L P ('-' :: '-' :: r) =
      match consume_long_option_with_argument conv id ('-' :: '-' :: r)
          (pending_default id L.CurrentDesc P) with
      | (.error e, P1) => .fail e P1
      | (.ok d, P1) => .next { L with CurrentDesc := d } P1 := by
  have : r.length ≠ 0 := by simpa using hr
  simp [parse_body, hE, char_at, this]

theorem parse_body_short (conv : Conv) (id : Nat) (L : Locals) (P : ArgumentParser)
    (c : Char) (cs : Str) (hE : L.Escaped = false) (hc : c ≠ '-') :
    parse_body conv id L P ('-' :: c :: cs) =
      match consume_short_options id ('-' :: c :: cs) (pending_default id L.CurrentDesc P) with
      | (.error e, P1) => .fail e P1
      | (.ok d, P1) => .next { L with CurrentDesc := d } P1 := by
  simp [parse_body, hE, char_at, hc]

theorem parse_body_escape (conv : Conv) (id : Nat) (L : Locals) (P : ArgumentParser)
    (hE : L.Escaped = false) :
    parse_body conv id L P ['-', '-'] = .next { L with Escaped := true } P := by
  simp [parse_body, hE, char_at]

theorem parse_body_option_value (conv : Conv) (id : Nat) (L : Locals) (P : ArgumentParser)
    (v : Str) (i : Nat) (hE : L.Escaped = false) (hC : L.CurrentDesc = some i) (hv : plain v) :
    parse_body conv id L P v =
      .next { L with CurrentDesc := none } (consume_argument conv id i v P).2 := by
  have h1 : (decide (v.length ≥ 2) && char_at v 0 == '-') = false := by
    simp only [plain] at hv
    by_cases h2 : v.length ≥ 2
    · have : char_at v 0 ≠ '-' := fun h => hv ⟨h2, h⟩
      simp [this]
    · simp [h2]
  simp only [parse_body, hE, Bool.not_false, Bool.true_and, h1, hC]
  simp

theorem parse_body_literal (conv : Conv) (id : Nat) (L : Locals) (P : ArgumentParser)
    (v : Str) (h : (L.Escaped = true) ∨ (plain v ∧ L.CurrentDesc = none)) :
    parse_body conv id L P v =
      match (if L.FirstNonOption && !(P.scope id).SubCommandMap.isEmpty then
          map_find (P.scope id).SubCommandMap v else none) with
      | some Offset => .dispatch (id + Offset) (select (id + Offset) P)
      | none => parse_value conv id { L with FirstNonOption := false, Escaped := true } P v := by
  rcases h with hE | ⟨hv, hC⟩
  · simp [parse_body, hE]
  · have h1 : (decide (v.length ≥ 2) && char_at v 0 == '-') = false := by
      simp only [plain] at hv
      by_cases h2 : v.length ≥ 2
      · have : char_at v 0 ≠ '-' := fun h => hv ⟨h2, h⟩
        simp [this]
      · simp [h2]
    simp only [parse_body, Bool.and_assoc, h1, hC]
    simp

theorem consume_long_option_with_argument_eq (conv : Conv) (id : Nat) (A v : Str)
    (P : ArgumentParser) (hA : '=' ∉ A) :
    consume_long_option_with_argument conv id ('-' :: '-' :: (A ++ '=' :: v)) P =
      match consume_long_option id A P with
      | (.error e, P1) => (.error e, P1)
      | (.ok none, P1) =>
        (.error ⟨.InvalidArgument, "option ".data ++ A ++ "doesn't need arguments.".data⟩, P1)
      | (.ok (some i), P1) => (.ok none, (consume_argument conv id i v P1).2) := by
  simp only [consume_long_option_with_argument, find_long_with_argument A v hA,
    substr_long_name, substr_long_value]

theorem consume_long_option_with_argument_plain (conv : Conv) (id : Nat) (A : Str)
    (P : ArgumentParser) (hA : '=' ∉ A) :
    consume_long_option_with_argument conv id ('-' :: '-' :: A) P =
      consume_long_option id A P := by
  simp [consume_long_option_with_argument, find_long_without_argument A hA, substr_from]

/-- Both spellings of a long option with one value, `--A v` and `--A=v`, lead the loop
from the same state to the same state. -/
theorem parse_loop_long_value (conv : Conv) (id : Nat) (L : Locals) (P : ArgumentParser)
    (A v : Str) (i : Nat) (rest : List Str) (hE : L.Escaped = false)
    (hA : A ≠ []) (hEq : '=' ∉ A)
    (hFind : map_find (P.scope id).ArgumentMap A = some i)
    (hMax : (P.desc id i).MaxNArgs ≠ 0) (hv : plain v) :
    parse_loop conv id L P (('-' :: '-' :: A) :: v :: rest) =
        parse_loop conv id { L with CurrentDesc := none }
          (consume_argument conv id i v (pending_default id L.CurrentDesc P)).2 rest
    ∧ parse_loop conv id L P (('-' :: '-' :: (A ++ '=' :: v)) :: rest) =
        parse_loop conv id { L with CurrentDesc := none }
          (consume_argument conv id i v (pending_default id L.CurrentDesc P)).2 rest := by
  have hreg := sameRegistration_pending_default id L.CurrentDesc P
  have hFind' : map_find ((pending_default id L.CurrentDesc P).scope id).ArgumentMap A = some i := by
    rw [hreg.ArgumentMap]; exact hFind
  have hMax' : ((pending_default id L.CurrentDesc P).desc id i).MaxNArgs ≠ 0 := by
    rw [hreg.MaxNArgs]; exact hMax
  constructor
  · rw [parse_loop, parse_body_long conv id L P A hE hA,
      consume_long_option_with_argument_plain conv id A _ hEq,
      consume_long_option_found id A _ i hFind', if_neg hMax']
    simp only
    rw [parse_loop, parse_body_option_value conv id { L with CurrentDesc := some i } _ v i hE rfl hv]
  · rw [parse_loop, parse_body_long conv id L P (A ++ '=' :: v) hE (by simp),
      consume_long_option_with_argument_eq conv id A v _ hEq,
      consume_long_option_found id A _ i hFind', if_neg hMax']

/-! ## The end of `parse` -/

theorem foldl_validate (l : List ArgumentDescriptor) (h : Bool) :
    l.foldl (fun h Desc => if Desc.NArgs < Desc.MinNArgs then true else h) h =
      (h || l.any (fun D => decide (D.NArgs < D.MinNArgs))) := by
  induction l generalizing h with
  | nil => simp
  | cons D l ih =>
    simp only [List.foldl_cons, ih, List.any_cons]
    by_cases hD : D.NArgs < D.MinNArgs <;> simp [hD]

theorem HelpOpt_parse_validate (id : Nat) (P : ArgumentParser)
    (hid : id < P.SubCommandDescriptors.length) :
    ((parse_validate id P).scope id).HelpOpt =
      ((P.scope id).HelpOpt ||
        (P.scope id).ArgumentDescriptors.any (fun D => decide (D.NArgs < D.MinNArgs))) := by
  simp only [parse_validate]
  split
  · simp only [scope_modify_scope, hid, and_self, if_true]
    exact foldl_validate _ _
  · rename_i h
    simp only [Bool.not_eq_true, Bool.not_eq_false'] at h
    simp [h]

theorem modify_scope_eq_self (P : ArgumentParser) (s : Nat)
    (f : SubCommandDescriptor → SubCommandDescriptor) (h : f (P.scope s) = P.scope s) :
    P.modify_scope s f = P := by
  simp only [ArgumentParser.modify_scope]
  rw [modify_eq_self f s P.SubCommandDescriptors default]
  simpa [ArgumentParser.scope] using h

theorem parse_validate_satisfied (id : Nat) (P : ArgumentParser)
    (hH : (P.scope id).HelpOpt = false)
    (hD : ∀ D ∈ (P.scope id).ArgumentDescriptors, D.MinNArgs ≤ D.NArgs) :
    parse_validate id P = P := by
  have hval : (P.scope id).ArgumentDescriptors.foldl
      (fun h Desc => if Desc.NArgs < Desc.MinNArgs then true else h) (P.scope id).HelpOpt
      = false := by
    rw [foldl_validate, hH]
    simp only [Bool.false_or, List.any_eq_false, decide_eq_true_eq, not_lt]
    exact hD
  simp only [parse_validate, hH, Bool.not_false, if_true]
  apply modify_scope_eq_self
  rw [hval, ← hH]

/-- The scan proceeds when the version toggle is set, or the help toggle is unset and
every descriptor has its minimum. -/
theorem parse_tail_proceed (id : Nat) (P : ArgumentParser)
    (h : P.VerOpt = true ∨ ((P.scope id).HelpOpt = false ∧
      ∀ D ∈ (P.scope id).ArgumentDescriptors, D.MinNArgs ≤ D.NArgs)) :
    parse_tail id none P = some (true, P) := by
  simp only [parse_tail, pending_default]
  by_cases hV : P.VerOpt = true
  · simp [hV]
  · rcases h with h | ⟨hH, hD⟩
    · exact absurd h hV
    · simp [hV, parse_validate_satisfied id P hH hD, hH]

theorem mem_descs_iff (S : SubCommandDescriptor) (D : ArgumentDescriptor) :
    D ∈ S.ArgumentDescriptors ↔ ∃ j, j < S.ArgumentDescriptors.length ∧ S.desc j = D := by
  simp only [SubCommandDescriptor.desc, List.getD_eq_getElem?_getD, List.mem_iff_getElem]
  constructor
  · rintro ⟨j, hj, rfl⟩
    exact ⟨j, hj, by simp [List.getElem?_eq_getElem hj]⟩
  · rintro ⟨j, hj, rfl⟩
    exact ⟨j, hj, by simp [List.getElem?_eq_getElem hj]⟩

theorem scope_bind_value_ne (id i s : Nat) (v : Str) (P : ArgumentParser) (h : s ≠ id) :
    (bind_value id i v P).scope s = P.scope s := by
  simp [bind_value, ArgumentParser.modify_desc, Ne.symm h]

theorem desc_bind_value (id i j : Nat) (v : Str) (P : ArgumentParser)
    (hid : id < P.SubCommandDescriptors.length) :
    (bind_value id i v P).desc id j =
      if i = j ∧ j < (P.scope id).ArgumentDescriptors.length then
        { P.desc id j with NArgs := (P.desc id j).NArgs + 1 }
      else P.desc id j := by
  exact desc_modify_desc { P with Calls := P.Calls ++ [Call.argument (P.desc id i).Opt v] }
    id i j (fun D => { D with NArgs := D.NArgs + 1 }) hid

theorem HelpOpt_bind_value (id i s : Nat) (v : Str) (P : ArgumentParser) :
    ((bind_value id i v P).scope s).HelpOpt = (P.scope s).HelpOpt := by
  simp only [bind_value, ArgumentParser.modify_desc, scope_modify_scope]
  split <;> rfl

theorem Calls_bind_value (id i : Nat) (v : Str) (P : ArgumentParser) :
    (bind_value id i v P).Calls = P.Calls ++ [Call.argument (P.desc id i).Opt v] := rfl

theorem VerOpt_bind_value (id i : Nat) (v : Str) (P : ArgumentParser) :
    (bind_value id i v P).VerOpt = P.VerOpt := rfl

theorem desc_parse_enter (id s j : Nat) (pre : List Str) (a : Str) (P : ArgumentParser) :
    (parse_enter id pre a P).desc s j = P.desc s j := by
  simp only [parse_enter, ArgumentParser.desc, scope_modify_scope]
  split <;> rfl

theorem HelpOpt_parse_enter (id s : Nat) (pre : List Str) (a : Str) (P : ArgumentParser) :
    ((parse_enter id pre a P).scope s).HelpOpt = (P.scope s).HelpOpt := by
  simp only [parse_enter, scope_modify_scope]
  split <;> rfl

/-! ## What a scan leaves untouched -/

theorem untouched.same (j : Nat) (P : ArgumentParser) : untouched j P P := rfl

theorem untouched.chain {j : Nat} {R Q P : ArgumentParser} (h1 : untouched j R Q)
    (h2 : untouched j Q P) : untouched j R P := Eq.trans h1 h2

theorem untouched_default_argument (j : Nat) (o : OptRef) (P : ArgumentParser) :
    untouched j (default_argument o P) P := by
  cases o with
  | help s =>
    simp only [untouched, default_argument, scope_modify_scope]
    split <;> rfl
  | version => rfl
  | user a => rfl

theorem untouched_pending_default (j id : Nat) (cur : Option Nat) (P : ArgumentParser) :
    untouched j (pending_default id cur P) P := by
  cases cur with
  | none => rfl
  | some i =>
    simp only [pending_default, default_value]
    split
    · exact untouched_default_argument _ _ _
    · rfl

theorem untouched_consume_argument (conv : Conv) (j id i : Nat) (v : Str)
    (P : ArgumentParser) (h : j ≠ id) : untouched j (consume_argument conv id i v P).2 P := by
  cases hc : conv (P.desc id i).Opt v with
  | none =>
    rw [consume_argument_accept _ _ _ _ _ hc]
    simp only [untouched, scope_bind_value_ne id i j v P h]
  | some e => rw [consume_argument_reject _ _ _ _ _ _ hc]; rfl

theorem untouched_consume_long_option (j id : Nat) (A : Str) (P : ArgumentParser) :
    untouched j (consume_long_option id A P).2 P := by
  simp only [consume_long_option]
  split
  · rfl
  · split
    · exact untouched_default_argument _ _ _
    · rfl

theorem untouched_consume_short_options_loop (j id : Nat) (cs : Str) :
    ∀ (cur : Option Nat) (P : ArgumentParser),
      untouched j (consume_short_options_loop id cs cur P).2 P := by
  induction cs with
  | nil => intro cur P; rfl
  | cons c cs ih =>
    intro cur P
    have h1 := untouched_pending_default j id cur P
    have h2 := untouched_consume_long_option j id [c] (pending_default id cur P)
    simp only [consume_short_options_loop, consume_short_option_eq]
    cases hr : consume_long_option id [c] (pending_default id cur P) with
    | mk r P1 =>
      rw [hr] at h2
      cases r with
      | error e => exact h2.chain h1
      | ok d => exact (ih d P1).chain (h2.chain h1)

theorem untouched_consume_long_option_with_argument (conv : Conv) (j id : Nat) (Arg : Str)
    (P : ArgumentParser) (h : j ≠ id) :
    untouched j (consume_long_option_with_argument conv id Arg P).2 P := by
  simp only [consume_long_option_with_argument]
  split
  · rename_i Pos _
    have h2 := untouched_consume_long_option j id (substr Arg 2 (Pos - 2)) P
    cases hr : consume_long_option id (substr Arg 2 (Pos - 2)) P with
    | mk r P1 =>
      rw [hr] at h2
      cases r with
      | error e => exact h2
      | ok d =>
        cases d with
        | none => exact h2
        | some i => exact (untouched_consume_argument conv j id i _ P1 h).chain h2
  · exact untouched_consume_long_option _ _ _ _

theorem parse_value_frame (conv : Conv) (j id : Nat) (L : Locals) (P : ArgumentParser)
    (Arg : Str) (h : j ≠ id) : (parse_value conv id L P Arg).frame j id P := by
  simp only [parse_value]
  split
  · rename_i i _
    have h2 := untouched_consume_argument conv j id i Arg P h
    cases hr : consume_argument conv id i Arg P with
    | mk r P1 =>
      rw [hr] at h2
      cases r <;> exact h2
  · split
    · exact untouched.same _ _
    · rename_i Index _
      have h2 := untouched_consume_argument conv j id Index Arg P h
      cases hr : consume_argument conv id Index Arg P with
      | mk r P1 =>
        rw [hr] at h2
        cases r <;> exact h2

theorem untouched_select (j c : Nat) (P : ArgumentParser) : untouched j (select c P) P := by
  simp only [select]
  split <;> rfl

theorem untouched_parse_enter (j id : Nat) (pre : List Str) (a : Str) (P : ArgumentParser) :
    untouched j (parse_enter id pre a P) P := by
  simp only [untouched, parse_enter, scope_modify_scope]
  split <;> rfl

theorem parse_body_frame (conv : Conv) (j id : Nat) (L : Locals) (P : ArgumentParser)
    (Arg : Str) (h : j ≠ id) : (parse_body conv id L P Arg).frame j id P := by
  simp only [parse_body]
  split
  · split
    · split
      · exact untouched.same _ _
      · have h1 := untouched_pending_default j id L.CurrentDesc P
        have h2 := untouched_consume_long_option_with_argument conv j id Arg
          (pending_default id L.CurrentDesc P) h
        cases hr : consume_long_option_with_argument conv id Arg
            (pending_default id L.CurrentDesc P) with
        | mk r P1 =>
          rw [hr] at h2
          cases r <;> exact h2.chain h1
    · have h1 := untouched_pending_default j id L.CurrentDesc P
      have h2 := untouched_consume_short_options_loop j id (Arg.drop 1) none
        (pending_default id L.CurrentDesc P)
      simp only [consume_short_options]
      cases hr : consume_short_options_loop id (Arg.drop 1) none
          (pending_default id L.CurrentDesc P) with
      | mk r P1 =>
        rw [hr] at h2
        cases r <;> exact h2.chain h1
  · split
    · exact untouched_consume_argument conv j id _ Arg P h
    · split
      · exact ⟨untouched_select _ _ _, Nat.le_add_right _ _⟩
      · exact parse_value_frame conv j id _ P Arg h

theorem untouched_parse_validate (j id : Nat) (P : ArgumentParser) :
    untouched j (parse_validate id P) P := by
  simp only [parse_validate]
  split
  · simp only [untouched, scope_modify_scope]
    split <;> rfl
  · rfl

theorem untouched_parse_tail (j id : Nat) (cur : Option Nat) (P : ArgumentParser)
    (b : Bool) (Q : ArgumentParser) (h : parse_tail id cur P = some (b, Q)) :
    untouched j Q P := by
  have h1 := untouched_pending_default j id cur P
  have h2 := untouched_parse_validate j id (pending_default id cur P)
  simp only [parse_tail] at h
  by_cases hV : (pending_default id cur P).VerOpt = true
  · rw [if_pos hV] at h
    cases h
    exact h1
  · rw [if_neg hV] at h
    by_cases hH : ((parse_validate id (pending_default id cur P)).scope id).HelpOpt = true
    · rw [if_pos hH] at h
      obtain ⟨out, _, ho⟩ := Option.map_eq_some'.1 h
      cases ho
      exact h2.chain h1
    · rw [if_neg hH] at h
      cases h
      exact h2.chain h1

/-- A scan never changes the descriptors of a scope stored before the one it scans. -/
theorem parse_loop_frame (conv : Conv) (j : Nat) (ts : List Str) :
    ∀ (id : Nat) (L : Locals) (P : ArgumentParser) (r : Except Error Bool) (Q : ArgumentParser),
      j < id → parse_loop conv id L P ts = some (r, Q) → untouched j Q P := by
  induction ts with
  | nil =>
    intro id L P r Q _ h
    simp only [parse_loop, Option.map_eq_some'] at h
    obtain ⟨⟨b, Q'⟩, hb, he⟩ := h
    cases he
    exact untouched_parse_tail j id _ P b Q' hb
  | cons t ts ih =>
    intro id L P r Q hj h
    have hf := parse_body_frame conv j id L P t (Nat.ne_of_lt hj)
    rw [parse_loop] at h
    cases hb : parse_body conv id L P t with
    | next L1 P1 =>
      rw [hb] at h hf
      exact (ih id L1 P1 r Q hj h).chain hf
    | fail e P1 =>
      rw [hb] at h hf
      simp only [Option.some.injEq, Prod.mk.injEq] at h
      rw [← h.2]
      exact hf
    | dispatch Child P1 =>
      rw [hb] at h hf
      have := ih Child Locals.init _ r Q (Nat.lt_of_lt_of_le hj hf.2) h
      exact this.chain ((untouched_parse_enter j Child _ t P1).chain hf.1)

theorem Calls_parse_validate (id : Nat) (P : ArgumentParser) :
    (parse_validate id P).Calls = P.Calls := by
  simp only [parse_validate]
  split <;> rfl

theorem Calls_parse_tail (id : Nat) (cur : Option Nat) (P : ArgumentParser)
    (b : Bool) (Q : ArgumentParser) (h : parse_tail id cur P = some (b, Q)) :
    Q.Calls = (pending_default id cur P).Calls := by
  simp only [parse_tail] at h
  by_cases hV : (pending_default id cur P).VerOpt = true
  · rw [if_pos hV] at h
    cases h
    rfl
  · rw [if_neg hV] at h
    by_cases hH : ((parse_validate id (pending_default id cur P)).scope id).HelpOpt = true
    · rw [if_pos hH] at h
      obtain ⟨out, _, ho⟩ := Option.map_eq_some'.1 h
      cases ho
      exact Calls_parse_validate _ _
    · rw [if_neg hH] at h
      cases h
      exact Calls_parse_validate _ _

/-- The end of `parse` makes no call on an option object and changes no descriptor: in
the state it returns, the calls and the descriptors of every scope are those of the
state the loop ended in. -/
theorem parse_tail_final (id : Nat) (X : ArgumentParser) (r : Except Error Bool)
    (Q : ArgumentParser)
    (h : (parse_tail id none X).map (fun r => ((Except.ok r.1 : Except Error Bool), r.2)) =
      some (r, Q)) :
    Q.Calls = X.Calls ∧ ∀ j i, Q.desc j i = X.desc j i := by
  obtain ⟨⟨b, Q'⟩, hb, he⟩ := Option.map_eq_some'.1 h
  cases he
  refine ⟨Calls_parse_tail id none X b Q' hb, ?_⟩
  intro j i
  have := untouched_parse_tail j id none X b Q' hb
  simp only [ArgumentParser.desc, SubCommandDescriptor.desc]
  rw [this]

theorem untouched.desc_eq {j : Nat} {Q P : ArgumentParser} (h : untouched j Q P) (i : Nat) :
    Q.desc j i = P.desc j i := by
  simp only [ArgumentParser.desc, SubCommandDescriptor.desc]
  rw [h]

theorem desc_consume_argument_ne (conv : Conv) (id i j : Nat) (v : Str) (P : ArgumentParser)
    (h : i ≠ j) : (consume_argument conv id i v P).2.desc id j = P.desc id j := by
  cases hc : conv (P.desc id i).Opt v with
  | none =>
    rw [consume_argument_accept _ _ _ _ _ hc]
    have e := desc_modify_desc_gen
      { P with Calls := P.Calls ++ [Call.argument (P.desc id i).Opt v] } id i j
      (fun D => { D with NArgs := D.NArgs + 1 })
    have e' : (bind_value id i v P).desc id j =
        if id < P.SubCommandDescriptors.length ∧ i = j ∧
            j < (P.scope id).ArgumentDescriptors.length then
          { P.desc id j with NArgs := (P.desc id j).NArgs + 1 }
        else P.desc id j := e
    show (bind_value id i v P).desc id j = P.desc id j
    rw [e', if_neg (fun h3 => h h3.2.1)]
  | some e => rw [consume_argument_reject _ _ _ _ _ _ hc]; rfl

/-- C1 (amended).  For a scope in which the nonempty alias `A`, without `=`, resolves to a
descriptor with `max_nargs = 1`, and a plain token `v`: the scans of `[prog, --A, v]` and of
`[prog, --A=v]` from the same state give the same outcome and the same final state.  When
the value operation of the descriptor accepts `v` and its count was 0, then in the
final state exactly that value operation has been invoked, once, with `v`, its count is 1
and no other descriptor has changed; and the outcome is proceed when moreover the help
toggle is unset and no other descriptor has `min_nargs > 0` (the version toggle set or
not), the descriptor itself having `min_nargs ≤ max_nargs`. -/
theorem long_option_forms_agree (conv : Conv) (id : Nat) (pre : List Str) (prog : Str)
    (P : ArgumentParser) (A v : Str) (i : Nat)
    (hA : A ≠ []) (hEq : '=' ∉ A)
    (hFind : map_find (P.scope id).ArgumentMap A = some i)
    (hMax : (P.desc id i).MaxNArgs = 1) (hv : plain v) :
    parse conv id pre prog ['-' :: '-' :: A, v] P
        = parse conv id pre prog ['-' :: '-' :: (A ++ '=' :: v)] P
    ∧ (conv (P.desc id i).Opt v = none →
        id < P.SubCommandDescriptors.length →
        i < (P.scope id).ArgumentDescriptors.length →
        (P.desc id i).NArgs = 0 →
        (∀ r Q, parse conv id pre prog ['-' :: '-' :: A, v] P = some (r, Q) →
          Q.Calls = P.Calls ++ [Call.argument (P.desc id i).Opt v]
          ∧ (Q.desc id i).NArgs = 1
          ∧ ∀ j, j ≠ i → Q.desc id j = P.desc id j)
        ∧ ((P.desc id i).MinNArgs ≤ (P.desc id i).MaxNArgs →
          (P.scope id).HelpOpt = false →
          (∀ j, j < (P.scope id).ArgumentDescriptors.length → j ≠ i →
            (P.desc id j).MinNArgs = 0) →
          parse conv id pre prog ['-' :: '-' :: A, v] P =
            some (.ok true, bind_value id i v (parse_enter id pre prog P)))) := by
  have hreg := sameRegistration_parse_enter id pre prog P
  have hFind0 : map_find ((parse_enter id pre prog P).scope id).ArgumentMap A = some i := by
    rw [hreg.ArgumentMap]; exact hFind
  have hMax0 : ((parse_enter id pre prog P).desc id i).MaxNArgs ≠ 0 := by
    rw [hreg.MaxNArgs, hMax]; decide
  have key := parse_loop_long_value conv id Locals.init (parse_enter id pre prog P) A v i []
    rfl hA hEq hFind0 hMax0 hv
  refine ⟨?_, ?_⟩
  · simp only [parse]
    rw [key.1, key.2]
  · intro hacc hid hi hN
    have hOpt : ((parse_enter id pre prog P).desc id i).Opt = (P.desc id i).Opt := hreg.Opt id i
    have hacc0 : conv ((parse_enter id pre prog P).desc id i).Opt v = none := by
      rw [hOpt]; exact hacc
    have hid0 : id < (parse_enter id pre prog P).SubCommandDescriptors.length := by
      rw [hreg.length]; exact hid
    have hi0 : i < ((parse_enter id pre prog P).scope id).ArgumentDescriptors.length := by
      rw [hreg.desc_length]; exact hi
    have hloop : parse conv id pre prog ['-' :: '-' :: A, v] P =
        (parse_tail id none (bind_value id i v (parse_enter id pre prog P))).map
          (fun r => (.ok r.1, r.2)) := by
      simp only [parse]
      rw [key.1]
      simp only [Locals.init, pending_default, consume_argument_accept conv id i v _ hacc0,
        parse_loop]
    have hCalls : (bind_value id i v (parse_enter id pre prog P)).Calls =
        P.Calls ++ [Call.argument (P.desc id i).Opt v] := by
      rw [Calls_bind_value, hOpt]; rfl
    have hSelf : ((bind_value id i v (parse_enter id pre prog P)).desc id i).NArgs = 1 := by
      rw [desc_bind_value _ _ _ _ _ hid0]
      simp only [hi0, and_self, if_true, desc_parse_enter, hN]
    have hOthers : ∀ j, j ≠ i →
        (bind_value id i v (parse_enter id pre prog P)).desc id j = P.desc id j := by
      intro j hj
      rw [desc_bind_value _ _ _ _ _ hid0]
      simp only [Ne.symm hj, false_and, if_false, desc_parse_enter]
    refine ⟨?_, ?_⟩
    · intro r Q hres
      rw [hloop] at hres
      obtain ⟨hc, hd⟩ := parse_tail_final id _ r Q hres
      refine ⟨by rw [hc, hCalls], by rw [hd, hSelf], ?_⟩
      intro j hj
      rw [hd, hOthers j hj]
    · intro hMin hH hOther
      rw [hloop, parse_tail_proceed]
      · rfl
      · right
        refine ⟨by rw [HelpOpt_bind_value, HelpOpt_parse_enter]; exact hH, ?_⟩
        intro D hD
        obtain ⟨j, hj, rfl⟩ := (mem_descs_iff _ _).1 hD
        show ((bind_value id i v (parse_enter id pre prog P)).desc id j).MinNArgs ≤
          ((bind_value id i v (parse_enter id pre prog P)).desc id j).NArgs
        by_cases hij : j = i
        · rw [hij, hSelf, (sameRegistration_bind_value id i v _).MinNArgs, hreg.MinNArgs]
          omega
        · rw [hOthers j hij]
          rw [hOther j (by
            rw [← hreg.desc_length, ← (sameRegistration_bind_value id i v _).desc_length]
            exact hj) hij]
          exact Nat.zero_le _

/-- C1, witness: `--out file.txt` and `--out=file.txt` on a parser with the
single-valued option `--out`. -/
theorem long_option_forms_agree_witness :
    parse accept_all 0 [] "prog".data ["--out".data, "file.txt".data] parser_out
        = parse accept_all 0 [] "prog".data ["--out=file.txt".data] parser_out
    ∧ (∀ r Q, parse accept_all 0 [] "prog".data ["--out".data, "file.txt".data] parser_out
          = some (r, Q) →
        Q.Calls = parser_out.Calls ++ [Call.argument (.user 1) "file.txt".data]
        ∧ (Q.desc 0 2).NArgs = 1
        ∧ ∀ j, j ≠ 2 → Q.desc 0 j = parser_out.desc 0 j)
    ∧ parse accept_all 0 [] "prog".data ["--out".data, "file.txt".data] parser_out
        = some (.ok true,
            bind_value 0 2 "file.txt".data (parse_enter 0 [] "prog".data parser_out)) :=
  have h := long_option_forms_agree accept_all 0 [] "prog".data parser_out "out".data
    "file.txt".data 2 (by decide) (by decide) (by decide) (by decide) (by decide)
  have h2 := h.2 rfl (by decide) (by decide) (by decide)
  ⟨h.1, h2.1, h2.2 (by decide) (by decide) (by decide)⟩

/-- C1, counterexample.  With the empty alias the token `--` is the escape marker, so
`[prog, --, x]` ends in a positional overflow while `[prog, --=x]` feeds `x` to the
option; and when the value operation rejects the token (`abc` for a number) the
consumed count of the option is 0, not 1, after either spelling. -/
theorem long_option_forms_agree_counterexample :
    (map_find (parser_empty_alias.scope 0).ArgumentMap [] = some 2
      ∧ (parser_empty_alias.desc 0 2).MaxNArgs = 1
      ∧ (∃ Q, parse accept_all 0 [] "prog".data ['-' :: '-' :: [], "x".data] parser_empty_alias
            = some (.error ⟨.InvalidArgument,
                "positional argument exceeds maxinum consuming.".data⟩, Q)
          ∧ Q.Calls = [])
      ∧ (∃ Q, parse accept_all 0 [] "prog".data ['-' :: '-' :: ([] ++ '=' :: "x".data)]
              parser_empty_alias = some (.ok true, Q)
          ∧ Q.Calls = [Call.argument (.user 1) "x".data]))
    ∧ (map_find (parser_out.scope 0).ArgumentMap "out".data = some 2
      ∧ (parser_out.desc 0 2).MaxNArgs = 1
      ∧ (∃ Q, parse reject_abc 0 [] "prog".data ["--out".data, "abc".data] parser_out
            = some (.ok true, Q) ∧ (Q.desc 0 2).NArgs = 0)
      ∧ (∃ Q, parse reject_abc 0 [] "prog".data ["--out=abc".data] parser_out
            = some (.ok true, Q) ∧ (Q.desc 0 2).NArgs = 0)) := by
  refine ⟨⟨by decide, by decide, ⟨_, rfl, by decide⟩, ⟨_, rfl, by decide⟩⟩,
    by decide, by decide, ⟨_, rfl, by decide⟩, ⟨_, rfl, by decide⟩⟩

/-! ## Short clusters -/

theorem Calls_default_argument (o : OptRef) (P : ArgumentParser) :
    (default_argument o P).Calls = P.Calls ++ [Call.default_argument o] := by
  cases o <;> rfl

theorem Calls_default_value (id i : Nat) (P : ArgumentParser) :
    (default_value id i P).Calls = P.Calls ++ [Call.default_argument (P.desc id i).Opt] :=
  Calls_default_argument _ _

theorem Calls_consume_argument (conv : Conv) (id i : Nat) (v : Str) (P : ArgumentParser) :
    (consume_argument conv id i v P).2.Calls =
      P.Calls ++ [Call.argument (P.desc id i).Opt v] := by
  cases h : conv (P.desc id i).Opt v with
  | none => rw [consume_argument_accept _ _ _ _ _ h]; rfl
  | some e => rw [consume_argument_reject _ _ _ _ _ _ h]

theorem sameRegistration_fire_flags (id : Nat) (cs : Str) (P : ArgumentParser) :
    SameRegistration (fire_flags id cs P) P := by
  induction cs generalizing P with
  | nil => exact ⟨rfl⟩
  | cons c cs ih =>
    simp only [fire_flags, List.foldl_cons]
    exact (ih _).trans (sameRegistration_default_value _ _ _)

theorem Calls_fire_flags (id : Nat) (cs : Str) (P : ArgumentParser) :
    (fire_flags id cs P).Calls = P.Calls ++ cs.map (fun c =>
      Call.default_argument (P.desc id ((map_find (P.scope id).ArgumentMap [c]).getD 0)).Opt) := by
  induction cs generalizing P with
  | nil => simp [fire_flags]
  | cons c cs ih =>
    have hreg := sameRegistration_default_value id
      ((map_find (P.scope id).ArgumentMap [c]).getD 0) P
    simp only [fire_flags, List.foldl_cons, List.map_cons]
    have := ih (default_value id ((map_find (P.scope id).ArgumentMap [c]).getD 0) P)
    simp only [fire_flags] at this
    rw [this, Calls_default_value, hreg.ArgumentMap]
    simp only [hreg.Opt, List.append_assoc, List.singleton_append]

/-- A run of flags at the start of what is left of a short cluster fires their defaults
and leaves no live descriptor. -/
theorem consume_short_options_loop_flags (id : Nat) (cs rest : Str) (P : ArgumentParser)
    (h : ∀ c ∈ cs, ∃ j, map_find (P.scope id).ArgumentMap [c] = some j ∧
      (P.desc id j).MaxNArgs = 0) :
    consume_short_options_loop id (cs ++ rest) none P =
      consume_short_options_loop id rest none (fire_flags id cs P) := by
  induction cs generalizing P with
  | nil => rfl
  | cons c cs ih =>
    obtain ⟨j, hj, hmax⟩ := h c (by simp)
    have hreg := sameRegistration_default_value id j P
    simp only [List.cons_append, consume_short_options_loop, pending_default,
      consume_short_option_eq, consume_long_option_found id [c] P j hj, hmax, if_true,
      fire_flags, List.foldl_cons, hj, Option.getD_some]
    apply ih
    intro c' hc'
    obtain ⟨j', hj', hmax'⟩ := h c' (by simp [hc'])
    exact ⟨j', by rw [hreg.ArgumentMap]; exact hj', by rw [hreg.MaxNArgs]; exact hmax'⟩

theorem untouched_fire_flags (j id : Nat) (cs : Str) (P : ArgumentParser) :
    untouched j (fire_flags id cs P) P := by
  induction cs generalizing P with
  | nil => rfl
  | cons c cs ih =>
    simp only [fire_flags, List.foldl_cons]
    exact (ih _).chain (untouched_default_argument _ _ _)

/-- C2 (amended).  For a scope in which the one-character aliases `cs` resolve to
zero-arg descriptors and the one-character alias `d` to a descriptor with
`max_nargs = 1`, a plain token `v`, and a cluster `cs ++ [d]` that does not begin with
`-`: the scan of `[prog, -cs d, v]` invokes the default operation of the descriptor of
each character of `cs`, in order, then the value operation of the descriptor of `d`
with `v`, and ends with the validation of the state so reached; it makes no other call
and consumes no positional: no descriptor but the one of `d` has changed. -/
theorem short_cluster_then_value (conv : Conv) (id : Nat) (pre : List Str) (prog : Str)
    (P : ArgumentParser) (cs : Str) (d : Char) (v : Str) (jd : Nat)
    (hflags : ∀ c ∈ cs, ∃ j, map_find (P.scope id).ArgumentMap [c] = some j ∧
      (P.desc id j).MaxNArgs = 0)
    (hd : map_find (P.scope id).ArgumentMap [d] = some jd)
    (hmax : (P.desc id jd).MaxNArgs = 1)
    (hdash : (cs ++ [d]).head? ≠ some '-') (hv : plain v) :
    parse conv id pre prog ['-' :: (cs ++ [d]), v] P =
        (parse_tail id none
          (consume_argument conv id jd v (fire_flags id cs (parse_enter id pre prog P))).2).map
          (fun r => (.ok r.1, r.2))
    ∧ (consume_argument conv id jd v (fire_flags id cs (parse_enter id pre prog P))).2.Calls =
        P.Calls
          ++ cs.map (fun c =>
              Call.default_argument (P.desc id ((map_find (P.scope id).ArgumentMap [c]).getD 0)).Opt)
          ++ [Call.argument (P.desc id jd).Opt v]
    ∧ (∀ r Q, parse conv id pre prog ['-' :: (cs ++ [d]), v] P = some (r, Q) →
        Q.Calls =
          P.Calls
            ++ cs.map (fun c =>
                Call.default_argument
                  (P.desc id ((map_find (P.scope id).ArgumentMap [c]).getD 0)).Opt)
            ++ [Call.argument (P.desc id jd).Opt v]
        ∧ ∀ j, j ≠ jd → Q.desc id j = P.desc id j) := by
  have hreg := sameRegistration_parse_enter id pre prog P
  have hreg2 := sameRegistration_fire_flags id cs (parse_enter id pre prog P)
  have hflags0 : ∀ c ∈ cs, ∃ j,
      map_find ((parse_enter id pre prog P).scope id).ArgumentMap [c] = some j ∧
      ((parse_enter id pre prog P).desc id j).MaxNArgs = 0 := by
    intro c hc
    obtain ⟨j, hj, hm⟩ := hflags c hc
    exact ⟨j, by rw [hreg.ArgumentMap]; exact hj, by rw [hreg.MaxNArgs]; exact hm⟩
  have hd2 : map_find ((fire_flags id cs (parse_enter id pre prog P)).scope id).ArgumentMap [d]
      = some jd := by
    rw [hreg2.ArgumentMap, hreg.ArgumentMap]; exact hd
  have hmax2 : ((fire_flags id cs (parse_enter id pre prog P)).desc id jd).MaxNArgs ≠ 0 := by
    rw [hreg2.MaxNArgs, hreg.MaxNArgs, hmax]; decide
  have hloop : parse conv id pre prog ['-' :: (cs ++ [d]), v] P =
      (parse_tail id none
        (consume_argument conv id jd v (fire_flags id cs (parse_enter id pre prog P))).2).map
        (fun r => (.ok r.1, r.2)) := by
    obtain ⟨c0, cs0, hcs⟩ : ∃ c0 cs0, cs ++ [d] = c0 :: cs0 := by
      cases cs with
      | nil => exact ⟨d, [], rfl⟩
      | cons a as => exact ⟨a, as ++ [d], rfl⟩
    have hc0 : c0 ≠ '-' := by
      intro e
      apply hdash
      rw [hcs, e]; rfl
    simp only [parse]
    rw [parse_loop, hcs, parse_body_short conv id Locals.init _ c0 cs0 rfl hc0, ← hcs]
    simp only [consume_short_options, List.drop_succ_cons, List.drop_zero, Locals.init,
      pending_default]
    rw [consume_short_options_loop_flags id cs [d] _ hflags0]
    simp only [consume_short_options_loop, pending_default, consume_short_option_eq,
      consume_long_option_found id [d] _ jd hd2, if_neg hmax2]
    rw [parse_loop, parse_body_option_value conv id _ _ v jd rfl rfl hv]
    simp only [parse_loop]
  have hCalls : (consume_argument conv id jd v
      (fire_flags id cs (parse_enter id pre prog P))).2.Calls =
      P.Calls
        ++ cs.map (fun c =>
            Call.default_argument (P.desc id ((map_find (P.scope id).ArgumentMap [c]).getD 0)).Opt)
        ++ [Call.argument (P.desc id jd).Opt v] := by
    rw [Calls_consume_argument, Calls_fire_flags, hreg2.Opt, hreg.Opt]
    have hC : (parse_enter id pre prog P).Calls = P.Calls := rfl
    rw [hC]
    congr 2
    apply List.map_congr_left
    intro c _
    rw [hreg.ArgumentMap, hreg.Opt]
  refine ⟨hloop, hCalls, ?_⟩
  intro r Q hres
  rw [hloop] at hres
  obtain ⟨hc, hdesc⟩ := parse_tail_final id _ r Q hres
  refine ⟨by rw [hc, hCalls], ?_⟩
  intro j hj
  rw [hdesc, desc_consume_argument_ne conv id jd j v _ (Ne.symm hj),
    (untouched_fire_flags id id cs _).desc_eq, desc_parse_enter]

/-- C2, witness: `-abc file.txt` gives verbose, force and out = `file.txt`. -/
theorem short_cluster_then_value_witness :
    parse accept_all 0 [] "prog".data ["-abc".data, "file.txt".data] parser_cluster =
        (parse_tail 0 none
          (consume_argument accept_all 0 4 "file.txt".data
            (fire_flags 0 "ab".data (parse_enter 0 [] "prog".data parser_cluster))).2).map
          (fun r => (.ok r.1, r.2))
    ∧ (consume_argument accept_all 0 4 "file.txt".data
          (fire_flags 0 "ab".data (parse_enter 0 [] "prog".data parser_cluster))).2.Calls =
        [Call.default_argument (.user 1), Call.default_argument (.user 2),
          Call.argument (.user 3) "file.txt".data]
    ∧ (∀ r Q, parse accept_all 0 [] "prog".data ["-abc".data, "file.txt".data] parser_cluster
          = some (r, Q) →
        Q.Calls = [Call.default_argument (.user 1), Call.default_argument (.user 2),
          Call.argument (.user 3) "file.txt".data]
        ∧ ∀ j, j ≠ 4 → Q.desc 0 j = parser_cluster.desc 0 j) :=
  short_cluster_then_value accept_all 0 [] "prog".data parser_cluster "ab".data 'c'
    "file.txt".data 4 (by decide) (by decide) (by decide) (by decide) (by decide)

/-- C2, counterexample.  With a flag registered under the alias `-`, the token built
from the cluster `-` `d` is `--d`, a long option: the value `v` reaches the descriptor
of `d`, but the default operation of the flag is never invoked. -/
theorem short_cluster_then_value_counterexample :
    (∃ j, map_find (parser_dash_alias.scope 0).ArgumentMap ['-'] = some j ∧
        (parser_dash_alias.desc 0 j).MaxNArgs = 0 ∧
        (parser_dash_alias.desc 0 j).Opt = .user 1)
    ∧ (∃ j, map_find (parser_dash_alias.scope 0).ArgumentMap ['d'] = some j ∧
        (parser_dash_alias.desc 0 j).MaxNArgs = 1)
    ∧ ∃ Q, parse accept_all 0 [] "prog".data ['-' :: (['-'] ++ ['d']), "v".data]
          parser_dash_alias = some (.ok true, Q)
        ∧ Q.Calls = [Call.argument (.user 2) "v".data] := by
  refine ⟨⟨2, by decide, by decide, by decide⟩, ⟨3, by decide, by decide⟩, ⟨_, rfl, by decide⟩⟩

/-! ## Positionals -/

theorem bind_values_nil_right (id : Nat) (ps : List Nat) (P : ArgumentParser) :
    bind_values id ps [] P = P := by
  cases ps <;> rfl

theorem Calls_bind_values (id : Nat) (ps : List Nat) (ts : List Str) (P : ArgumentParser) :
    (bind_values id ps ts P).Calls =
      P.Calls ++ List.zipWith (fun p t => Call.argument (P.desc id p).Opt t) ps ts := by
  induction ps generalizing ts P with
  | nil => simp [bind_values]
  | cons p ps ih =>
    cases ts with
    | nil => simp [bind_values]
    | cons t ts =>
      have hf : (fun p' t' => Call.argument ((bind_value id p t P).desc id p').Opt t') =
          (fun p' t' => Call.argument (P.desc id p').Opt t') := by
        funext p' t'
        rw [(sameRegistration_bind_value id p t P).Opt]
      simp only [bind_values, ih, Calls_bind_value, List.zipWith_cons_cons, List.append_assoc,
        List.singleton_append, hf]

theorem sameRegistration_bind_values (id : Nat) (ps : List Nat) (ts : List Str)
    (P : ArgumentParser) : SameRegistration (bind_values id ps ts P) P := by
  induction ps generalizing ts P with
  | nil => exact ⟨rfl⟩
  | cons p ps ih =>
    cases ts with
    | nil => exact ⟨rfl⟩
    | cons t ts => exact (ih ts _).trans (sameRegistration_bind_value _ _ _ _)

/-- After a value was accepted, a descriptor that takes at most one value is full. -/
theorem full_after_bind_value (id i : Nat) (v : Str) (P : ArgumentParser)
    (h : (P.desc id i).MaxNArgs ≤ 1) :
    ((bind_value id i v P).desc id i).NArgs ≥ ((bind_value id i v P).desc id i).MaxNArgs := by
  have e := desc_modify_desc_gen
    { P with Calls := P.Calls ++ [Call.argument (P.desc id i).Opt v] } id i i
    (fun D => { D with NArgs := D.NArgs + 1 })
  have e' : (bind_value id i v P).desc id i =
      if id < P.SubCommandDescriptors.length ∧ i = i ∧
          i < (P.scope id).ArgumentDescriptors.length then
        { P.desc id i with NArgs := (P.desc id i).NArgs + 1 }
      else P.desc id i := e
  rw [e']
  by_cases hr : id < P.SubCommandDescriptors.length ∧ i < (P.scope id).ArgumentDescriptors.length
  · simp only [hr.1, hr.2, and_self, true_and, if_true]
    show (P.desc id i).NArgs + 1 ≥ (P.desc id i).MaxNArgs
    omega
  · have hd := desc_default_of_not_lt P id i hr
    have : ¬ (id < P.SubCommandDescriptors.length ∧ i = i ∧
        i < (P.scope id).ArgumentDescriptors.length) := fun h3 => hr ⟨h3.1, h3.2.2⟩
    rw [if_neg this, hd]
    exact Nat.le_refl _

theorem parse_value_positional (conv : Conv) (id : Nat) (L : Locals) (P : ArgumentParser)
    (v : Str) (p : Nat) (rem : List Nat) (hcur : L.CurrentDesc = none)
    (hrem : (P.scope id).PositionalList.drop L.PositionalIter = p :: rem)
    (hacc : conv (P.desc id p).Opt v = none) :
    parse_value conv id L P v =
      .next { L with
          CurrentDesc :=
            if ((bind_value id p v P).desc id p).NArgs ≥ ((bind_value id p v P).desc id p).MaxNArgs
              then none else some p
          PositionalIter := L.PositionalIter + 1 }
        (bind_value id p v P) := by
  have hget : (P.scope id).PositionalList.get? L.PositionalIter = some p := by
    have := congrArg List.head? hrem
    simpa [List.head?_drop] using this
  simp only [parse_value, hcur, hget, consume_argument_accept conv id p v P hacc]

theorem parse_value_overflow (conv : Conv) (id : Nat) (L : Locals) (P : ArgumentParser)
    (v : Str) (hcur : L.CurrentDesc = none)
    (hrem : (P.scope id).PositionalList.drop L.PositionalIter = []) :
    parse_value conv id L P v = .fail PositionalOverflow P := by
  have hget : (P.scope id).PositionalList.get? L.PositionalIter = none := by
    have := congrArg List.head? hrem
    simpa [List.head?_drop] using this
  simp only [parse_value, hcur, hget, PositionalOverflow]

theorem parse_body_literal_no_subcommand (conv : Conv) (id : Nat) (L : Locals)
    (P : ArgumentParser) (v : Str)
    (h : (L.Escaped = true) ∨ (plain v ∧ L.CurrentDesc = none))
    (hsub : (P.scope id).SubCommandMap = []) :
    parse_body conv id L P v =
      parse_value conv id { L with FirstNonOption := false, Escaped := true } P v := by
  rw [parse_body_literal conv id L P v h, hsub]
  simp

/-- The loop over literal tokens of a scope without subcommands whose positionals take at
most one value each: the tokens go to the positionals not yet used, in order. -/
theorem parse_loop_positionals (conv : Conv) (id : Nat) (ts : List Str) :
    ∀ (L : Locals) (Q : ArgumentParser),
      L.CurrentDesc = none →
      (Q.scope id).SubCommandMap = [] →
      (L.Escaped = true ∨ ∀ t ∈ ts, plain t) →
      (∀ p ∈ (Q.scope id).PositionalList, (Q.desc id p).MaxNArgs ≤ 1) →
      (∀ pt ∈ List.zip ((Q.scope id).PositionalList.drop L.PositionalIter) ts,
        conv (Q.desc id pt.1).Opt pt.2 = none) →
      parse_loop conv id L Q ts =
        if ts.length ≤ ((Q.scope id).PositionalList.drop L.PositionalIter).length then
          (parse_tail id none
            (bind_values id ((Q.scope id).PositionalList.drop L.PositionalIter) ts Q)).map
            (fun r => (.ok r.1, r.2))
        else
          some (.error PositionalOverflow,
            bind_values id ((Q.scope id).PositionalList.drop L.PositionalIter) ts Q) := by
  induction ts with
  | nil =>
    intro L Q hcur _ _ _ _
    simp only [parse_loop, hcur, bind_values_nil_right, List.length_nil, Nat.zero_le, if_true]
  | cons t ts ih =>
    intro L Q hcur hsub htok hmax hacc
    have hlit : (L.Escaped = true) ∨ (plain t ∧ L.CurrentDesc = none) := by
      rcases htok with h | h
      · exact Or.inl h
      · exact Or.inr ⟨h t (by simp), hcur⟩
    rw [parse_loop, parse_body_literal_no_subcommand conv id L Q t hlit hsub]
    cases hrem : (Q.scope id).PositionalList.drop L.PositionalIter with
    | nil =>
      rw [parse_value_overflow conv id { L with FirstNonOption := false, Escaped := true } Q t
        hcur hrem]
      simp [bind_values]
    | cons p rem =>
      have hp : p ∈ (Q.scope id).PositionalList :=
        List.mem_of_mem_drop (by rw [hrem]; simp)
      have haccp : conv (Q.desc id p).Opt t = none := hacc (p, t) (by rw [hrem]; simp)
      rw [parse_value_positional conv id { L with FirstNonOption := false, Escaped := true } Q t
          p rem hcur hrem haccp,
        if_pos (full_after_bind_value id p t Q (hmax p hp))]
      simp only
      have hreg := sameRegistration_bind_value id p t Q
      have hrem' : ((bind_value id p t Q).scope id).PositionalList.drop (L.PositionalIter + 1)
          = rem := by
        rw [hreg.PositionalList, ← List.drop_drop, hrem]
        rfl
      rw [ih _ (bind_value id p t Q) rfl (by rw [hreg.SubCommandMap]; exact hsub) (Or.inl rfl)
        (by intro q hq; rw [hreg.MaxNArgs]; exact hmax q (by rw [← hreg.PositionalList]; exact hq))
        (by
          intro pt hpt
          rw [hreg.Opt]
          apply hacc pt
          rw [hrem]
          simp only [hrem'] at hpt
          simp [hpt])]
      simp only [hrem', bind_values, List.length_cons, Nat.add_le_add_iff_right]

/-! ## Positionals that take several values -/

theorem desc_bind_value_ne (id i j : Nat) (v : Str) (P : ArgumentParser) (h : i ≠ j) :
    (bind_value id i v P).desc id j = P.desc id j := by
  have e := desc_modify_desc_gen
    { P with Calls := P.Calls ++ [Call.argument (P.desc id i).Opt v] } id i j
    (fun D => { D with NArgs := D.NArgs + 1 })
  have e' : (bind_value id i v P).desc id j =
      if id < P.SubCommandDescriptors.length ∧ i = j ∧
          j < (P.scope id).ArgumentDescriptors.length then
        { P.desc id j with NArgs := (P.desc id j).NArgs + 1 }
      else P.desc id j := e
  rw [e', if_neg (fun h3 => h h3.2.1)]

theorem NArgs_bind_value_self (id i : Nat) (v : Str) (P : ArgumentParser)
    (hid : id < P.SubCommandDescriptors.length)
    (hi : i < (P.scope id).ArgumentDescriptors.length) :
    ((bind_value id i v P).desc id i).NArgs = (P.desc id i).NArgs + 1 := by
  rw [desc_bind_value id i i v P hid]
  simp [hi]

theorem parse_tail_live (id c : Nat) (P : ArgumentParser) (h : (P.desc id c).NArgs ≠ 0) :
    parse_tail id (some c) P = parse_tail id none P := by
  simp only [parse_tail, pending_default, if_neg h]

theorem parse_value_live (conv : Conv) (id : Nat) (L : Locals) (P : ArgumentParser)
    (v : Str) (c : Nat) (hcur : L.CurrentDesc = some c)
    (hacc : conv (P.desc id c).Opt v = none) :
    parse_value conv id L P v =
      .next { L with
          CurrentDesc :=
            if ((bind_value id c v P).desc id c).NArgs ≥ ((bind_value id c v P).desc id c).MaxNArgs
              then none else some c }
        (bind_value id c v P) := by
  simp only [parse_value, hcur, consume_argument_accept conv id c v P hacc]

theorem slots_from_zero (maxN : Nat → Nat) (c : Nat) (ps : List Nat) (n : Nat) :
    slots_from maxN 0 c ps n = slots maxN ps n := by
  simp [slots_from]

theorem slots_from_succ (maxN : Nat → Nat) (r c : Nat) (ps : List Nat) (n : Nat) :
    slots_from maxN (r + 1) c ps (n + 1) = c :: slots_from maxN r c ps n := by
  simp only [slots_from, Nat.add_sub_add_right]
  rw [show min (n + 1) (r + 1) = min n r + 1 by omega, List.replicate_succ]
  rfl

theorem slots_cons_succ (maxN : Nat → Nat) (p : Nat) (ps : List Nat) (n : Nat) :
    slots maxN (p :: ps) (n + 1) = p :: slots_from maxN (max 1 (maxN p) - 1) p ps n := by
  have h : max 1 (maxN p) = (max 1 (maxN p) - 1) + 1 := by omega
  have e : slots maxN (p :: ps) (n + 1) =
      slots_from maxN (max 1 (maxN p)) p ps (n + 1) := rfl
  rw [e, h, slots_from_succ]
  simp

theorem Filling.step_positional {id : Nat} {L : Locals} {Q : ArgumentParser} {c p : Nat}
    {ps : List Nat} (t : Str) (F : Filling id L Q 0 c (p :: ps)) :
    Filling id
      { CurrentDesc :=
          if ((bind_value id p t Q).desc id p).NArgs ≥ ((bind_value id p t Q).desc id p).MaxNArgs
            then none else some p
        FirstNonOption := false
        Escaped := true
        PositionalIter := L.PositionalIter + 1 }
      (bind_value id p t Q) (max 1 (Q.desc id p).MaxNArgs - 1) p ps := by
  have hreg := sameRegistration_bind_value id p t Q
  have hp := F.fresh p (by simp)
  have hN : ((bind_value id p t Q).desc id p).NArgs = 1 := by
    rw [NArgs_bind_value_self id p t Q F.scope_lt hp.1, hp.2]
  have hnd := List.nodup_cons.1 F.nodup
  refine ⟨rfl, by rw [hreg.SubCommandMap]; exact F.no_subcommand,
    by rw [hreg.length]; exact F.scope_lt, ?_, hnd.2, ?_, ?_⟩
  · show ((bind_value id p t Q).scope id).PositionalList.drop (L.PositionalIter + 1) = ps
    rw [hreg.PositionalList, ← List.drop_drop, F.rest]
    rfl
  · intro q hq
    have hqp : p ≠ q := fun e => hnd.1 (e ▸ hq)
    have hq' := F.fresh q (by simp [hq])
    exact ⟨by rw [hreg.desc_length]; exact hq'.1, by rw [desc_bind_value_ne id p q t Q hqp]; exact hq'.2⟩
  · rw [hN, hreg.MaxNArgs]
    by_cases hm : 1 ≥ (Q.desc id p).MaxNArgs
    · left
      exact ⟨by simp [hm], by omega⟩
    · right
      refine ⟨by simp [hm], by omega, hnd.1, by rw [hreg.desc_length]; exact hp.1, by omega,
        by omega⟩

theorem Filling.step_live {id : Nat} {L : Locals} {Q : ArgumentParser} {r c : Nat}
    {ps : List Nat} (t : Str) (F : Filling id L Q (r + 1) c ps) :
    L.CurrentDesc = some c ∧
    Filling id
      { CurrentDesc :=
          if ((bind_value id c t Q).desc id c).NArgs ≥ ((bind_value id c t Q).desc id c).MaxNArgs
            then none else some c
        FirstNonOption := false
        Escaped := true
        PositionalIter := L.PositionalIter }
      (bind_value id c t Q) r c ps := by
  have hreg := sameRegistration_bind_value id c t Q
  rcases F.live with ⟨_, h0⟩ | ⟨hcur, _, hc, hlt, hne, hsum⟩
  · exact absurd h0 (Nat.succ_ne_zero r)
  · have hN : ((bind_value id c t Q).desc id c).NArgs = (Q.desc id c).NArgs + 1 :=
      NArgs_bind_value_self id c t Q F.scope_lt hlt
    refine ⟨hcur, rfl, by rw [hreg.SubCommandMap]; exact F.no_subcommand,
      by rw [hreg.length]; exact F.scope_lt, ?_, F.nodup, ?_, ?_⟩
    · show ((bind_value id c t Q).scope id).PositionalList.drop L.PositionalIter = ps
      rw [hreg.PositionalList, F.rest]
    · intro q hq
      have hqc : c ≠ q := fun e => hc (e ▸ hq)
      have hq' := F.fresh q hq
      exact ⟨by rw [hreg.desc_length]; exact hq'.1,
        by rw [desc_bind_value_ne id c q t Q hqc]; exact hq'.2⟩
    · rw [hN, hreg.MaxNArgs]
      by_cases hr : r = 0
      · left
        exact ⟨by simp; omega, hr⟩
      · right
        refine ⟨by simp; omega, hr, hc, by rw [hreg.desc_length]; exact hlt, by omega, by omega⟩

/-- The loop over escaped tokens of a scope without subcommands: as long as the slots
last and accept them, the tokens go to the slots in order. -/
theorem parse_loop_filling (conv : Conv) (id : Nat) (maxN : Nat → Nat) (ts : List Str) :
    ∀ (L : Locals) (Q : ArgumentParser) (r c : Nat) (ps : List Nat),
      Filling id L Q r c ps →
      (∀ p, (Q.desc id p).MaxNArgs = maxN p) →
      (slots_from maxN r c ps ts.length).length = ts.length →
      (∀ pt ∈ List.zip (slots_from maxN r c ps ts.length) ts,
        conv (Q.desc id pt.1).Opt pt.2 = none) →
      parse_loop conv id L Q ts =
        (parse_tail id none (bind_values id (slots_from maxN r c ps ts.length) ts Q)).map
          (fun r => (.ok r.1, r.2)) := by
  induction ts with
  | nil =>
    intro L Q r c ps F _ _ _
    simp only [parse_loop, bind_values_nil_right]
    rcases F.live with ⟨hcur, _⟩ | ⟨hcur, _, _, _, hne, _⟩
    · rw [hcur]
    · rw [hcur, parse_tail_live id c Q hne]
  | cons t ts ih =>
    intro L Q r c ps F hmaxN hcap hacc
    rw [parse_loop, parse_body_literal_no_subcommand conv id L Q t (Or.inl F.escaped)
      F.no_subcommand]
    cases r with
    | zero =>
      have hcur : L.CurrentDesc = none := by
        rcases F.live with ⟨h, _⟩ | ⟨_, h, _⟩
        · exact h
        · exact absurd rfl h
      cases ps with
      | nil => simp [slots_from, slots] at hcap
      | cons p ps =>
        have hsl : slots_from maxN 0 c (p :: ps) (t :: ts).length =
            p :: slots_from maxN (max 1 (maxN p) - 1) p ps ts.length := by
          rw [slots_from_zero]
          exact slots_cons_succ maxN p ps ts.length
        rw [hsl] at hcap hacc ⊢
        have haccp : conv (Q.desc id p).Opt t = none := hacc (p, t) (by simp)
        have hreg := sameRegistration_bind_value id p t Q
        rw [parse_value_positional conv id { L with FirstNonOption := false, Escaped := true }
          Q t p ps hcur F.rest haccp]
        simp only
        have F' := F.step_positional t
        rw [hmaxN p] at F'
        rw [ih _ (bind_value id p t Q) _ p ps F'
          (by intro q; rw [hreg.MaxNArgs]; exact hmaxN q)
          (by simpa using hcap)
          (by
            intro pt hpt
            rw [hreg.Opt]
            exact hacc pt (by simp [hpt]))]
        rfl
    | succ r =>
      have hsl : slots_from maxN (r + 1) c ps (t :: ts).length =
          c :: slots_from maxN r c ps ts.length := slots_from_succ maxN r c ps ts.length
      rw [hsl] at hcap hacc ⊢
      obtain ⟨hcur, F'⟩ := F.step_live t
      have haccc : conv (Q.desc id c).Opt t = none := hacc (c, t) (by simp)
      have hreg := sameRegistration_bind_value id c t Q
      rw [parse_value_live conv id { L with FirstNonOption := false, Escaped := true }
        Q t c hcur haccc]
      simp only
      rw [ih _ (bind_value id c t Q) r c ps F'
        (by intro q; rw [hreg.MaxNArgs]; exact hmaxN q)
        (by simpa using hcap)
        (by
          intro pt hpt
          rw [hreg.Opt]
          exact hacc pt (by simp [hpt]))]
      rfl

/-- C3.  For a scope with no registered subcommand whose positionals are distinct,
registered and have taken no value yet, and tokens `t1..tn` of any spelling that the
positional slots are able to take (there are at least `n` slots and the value operation
of the descriptor of the `i`-th slot accepts `ti`): the scan of `[prog, --, t1, ..., tn]`
consumes nothing for `--`, resolves no option alias and applies `t1..tn` verbatim, in
order, to the descriptors of the slots, then goes on to the validation. -/
theorem escape_then_positionals (conv : Conv) (id : Nat) (pre : List Str) (prog : Str)
    (P : ArgumentParser) (ts : List Str)
    (hsub : (P.scope id).SubCommandMap = [])
    (hid : id < P.SubCommandDescriptors.length)
    (hnodup : (P.scope id).PositionalList.Nodup)
    (hfresh : ∀ p ∈ (P.scope id).PositionalList,
      p < (P.scope id).ArgumentDescriptors.length ∧ (P.desc id p).NArgs = 0)
    (hcap : (slots (fun p => (P.desc id p).MaxNArgs) (P.scope id).PositionalList
      ts.length).length = ts.length)
    (hacc : ∀ pt ∈ List.zip
        (slots (fun p => (P.desc id p).MaxNArgs) (P.scope id).PositionalList ts.length) ts,
      conv (P.desc id pt.1).Opt pt.2 = none) :
    parse conv id pre prog (['-', '-'] :: ts) P =
        (parse_tail id none
          (bind_values id
            (slots (fun p => (P.desc id p).MaxNArgs) (P.scope id).PositionalList ts.length)
            ts (parse_enter id pre prog P))).map
          (fun r => (.ok r.1, r.2))
    ∧ (bind_values id
          (slots (fun p => (P.desc id p).MaxNArgs) (P.scope id).PositionalList ts.length)
          ts (parse_enter id pre prog P)).Calls =
        P.Calls ++ List.zipWith (fun p t => Call.argument (P.desc id p).Opt t)
          (slots (fun p => (P.desc id p).MaxNArgs) (P.scope id).PositionalList ts.length)
          ts
    ∧ (∀ r Q, parse conv id pre prog (['-', '-'] :: ts) P = some (r, Q) →
        r ≠ .error PositionalOverflow ∧
        Q.Calls = P.Calls ++ List.zipWith (fun p t => Call.argument (P.desc id p).Opt t)
          (slots (fun p => (P.desc id p).MaxNArgs) (P.scope id).PositionalList ts.length)
          ts) := by
  have hreg := sameRegistration_parse_enter id pre prog P
  have hCalls : (bind_values id
      (slots (fun p => (P.desc id p).MaxNArgs) (P.scope id).PositionalList ts.length)
      ts (parse_enter id pre prog P)).Calls =
      P.Calls ++ List.zipWith (fun p t => Call.argument (P.desc id p).Opt t)
        (slots (fun p => (P.desc id p).MaxNArgs) (P.scope id).PositionalList ts.length)
        ts := by
    rw [Calls_bind_values]
    have hC : (parse_enter id pre prog P).Calls = P.Calls := rfl
    have hf : (fun p t => Call.argument ((parse_enter id pre prog P).desc id p).Opt t) =
        (fun p t => Call.argument (P.desc id p).Opt t) := by
      funext p t
      rw [hreg.Opt]
    rw [hC, hf]
  have hloop : parse conv id pre prog (['-', '-'] :: ts) P =
      (parse_tail id none
        (bind_values id
          (slots (fun p => (P.desc id p).MaxNArgs) (P.scope id).PositionalList ts.length)
          ts (parse_enter id pre prog P))).map
        (fun r => (.ok r.1, r.2)) := by
    have F : Filling id { Locals.init with Escaped := true } (parse_enter id pre prog P) 0 0
        (P.scope id).PositionalList := by
      refine ⟨rfl, by rw [hreg.SubCommandMap]; exact hsub, by rw [hreg.length]; exact hid,
        by simp [Locals.init, hreg.PositionalList], hnodup, ?_, Or.inl ⟨rfl, rfl⟩⟩
      intro p hp
      have := hfresh p hp
      exact ⟨by rw [hreg.desc_length]; exact this.1, by rw [desc_parse_enter]; exact this.2⟩
    simp only [parse]
    rw [parse_loop, parse_body_escape conv id Locals.init _ rfl]
    simp only
    have key := parse_loop_filling conv id (fun p => (P.desc id p).MaxNArgs) ts _ _ 0 0 _ F
      (by intro q; rw [hreg.MaxNArgs])
      (by rw [slots_from_zero]; exact hcap)
      (by
        intro pt hpt
        rw [hreg.Opt]
        rw [slots_from_zero] at hpt
        exact hacc pt hpt)
    rw [slots_from_zero] at key
    exact key
  refine ⟨hloop, hCalls, ?_⟩
  intro r Q hres
  rw [hloop] at hres
  refine ⟨?_, by rw [(parse_tail_final id _ r Q hres).1, hCalls]⟩
  obtain ⟨⟨b, Q'⟩, _, he⟩ := Option.map_eq_some'.1 hres
  intro hr
  rw [hr] at he
  simp at he

/-- C3, witness: after `--` the token `--not-an-option` is the value of the first
positional, and the positional that takes up to three values takes the three tokens
that follow, among them `--help` and `--`. -/
theorem escape_then_positionals_witness :
    parse accept_all 0 [] "prog".data
        ["--".data, "--not-an-option".data, "--help".data, "--".data, "x".data]
        parser_multi_positional =
      (parse_tail 0 none
        (bind_values 0 [2, 3, 3, 3]
          ["--not-an-option".data, "--help".data, "--".data, "x".data]
          (parse_enter 0 [] "prog".data parser_multi_positional))).map
        (fun r => (.ok r.1, r.2))
    ∧ (bind_values 0 [2, 3, 3, 3]
          ["--not-an-option".data, "--help".data, "--".data, "x".data]
          (parse_enter 0 [] "prog".data parser_multi_positional)).Calls =
        [Call.argument (.user 1) "--not-an-option".data, Call.argument (.user 2) "--help".data,
          Call.argument (.user 2) "--".data, Call.argument (.user 2) "x".data]
    ∧ (∀ r Q, parse accept_all 0 [] "prog".data
          ["--".data, "--not-an-option".data, "--help".data, "--".data, "x".data]
          parser_multi_positional = some (r, Q) →
        r ≠ .error PositionalOverflow ∧
        Q.Calls =
          [Call.argument (.user 1) "--not-an-option".data, Call.argument (.user 2) "--help".data,
            Call.argument (.user 2) "--".data, Call.argument (.user 2) "x".data]) :=
  escape_then_positionals accept_all 0 [] "prog".data parser_multi_positional
    ["--not-an-option".data, "--help".data, "--".data, "x".data]
    (by decide) (by decide) (by decide) (by decide) (by decide) (by decide)

/-- C4 (amended).  For a scope with no registered subcommand whose positional list is
`p1..pk`, each taking at most one value, and plain tokens `t1..tn` such that the value
operation of `pi` accepts `ti` for every `i ≤ min n k`: the scan of `[prog, t1, ..., tn]`
applies `ti` to `pi` in registration order; when `n ≤ k` it goes on to the validation of
the state so reached and returns no error, and when `n > k` it returns the positional
overflow error with `t1..tk` applied. -/
theorem positionals_in_order (conv : Conv) (id : Nat) (pre : List Str) (prog : Str)
    (P : ArgumentParser) (ts : List Str)
    (hsub : (P.scope id).SubCommandMap = [])
    (hmax : ∀ p ∈ (P.scope id).PositionalList, (P.desc id p).MaxNArgs ≤ 1)
    (hplain : ∀ t ∈ ts, plain t)
    (hacc : ∀ pt ∈ List.zip (P.scope id).PositionalList ts,
      conv (P.desc id pt.1).Opt pt.2 = none) :
    (ts.length ≤ (P.scope id).PositionalList.length →
        parse conv id pre prog ts P =
          (parse_tail id none
            (bind_values id (P.scope id).PositionalList ts (parse_enter id pre prog P))).map
            (fun r => (.ok r.1, r.2))
        ∧ ∀ e Q, parse conv id pre prog ts P ≠ some (.error e, Q))
    ∧ ((P.scope id).PositionalList.length < ts.length →
        parse conv id pre prog ts P =
          some (.error PositionalOverflow,
            bind_values id (P.scope id).PositionalList ts (parse_enter id pre prog P)))
    ∧ (bind_values id (P.scope id).PositionalList ts (parse_enter id pre prog P)).Calls =
        P.Calls ++ List.zipWith (fun p t => Call.argument (P.desc id p).Opt t)
          (P.scope id).PositionalList ts
    ∧ (∀ r Q, parse conv id pre prog ts P = some (r, Q) →
        Q.Calls = P.Calls ++ List.zipWith (fun p t => Call.argument (P.desc id p).Opt t)
          (P.scope id).PositionalList ts) := by
  have hreg := sameRegistration_parse_enter id pre prog P
  have key := parse_loop_positionals conv id ts Locals.init (parse_enter id pre prog P) rfl
    (by rw [hreg.SubCommandMap]; exact hsub) (Or.inr hplain)
    (by intro q hq; rw [hreg.MaxNArgs]; exact hmax q (by rw [← hreg.PositionalList]; exact hq))
    (by
      intro pt hpt
      rw [hreg.Opt]
      apply hacc pt
      simpa [Locals.init, hreg.PositionalList] using hpt)
  simp only [Locals.init, List.drop_zero, hreg.PositionalList] at key
  have hCalls : (bind_values id (P.scope id).PositionalList ts
      (parse_enter id pre prog P)).Calls =
      P.Calls ++ List.zipWith (fun p t => Call.argument (P.desc id p).Opt t)
        (P.scope id).PositionalList ts := by
    rw [Calls_bind_values]
    have hC : (parse_enter id pre prog P).Calls = P.Calls := rfl
    rw [hC]
    congr 1
    congr 1
    funext p t
    rw [hreg.Opt]
  have e : parse conv id pre prog ts P = _ := key
  refine ⟨?_, ?_, hCalls, ?_⟩
  · intro hle
    rw [if_pos hle] at e
    refine ⟨e, ?_⟩
    intro err Q
    rw [e]
    cases parse_tail id none
      (bind_values id (P.scope id).PositionalList ts (parse_enter id pre prog P)) <;> simp
  · intro hlt
    rw [if_neg (by omega)] at e
    exact e
  · intro r Q hres
    rw [e] at hres
    by_cases hle : ts.length ≤ (P.scope id).PositionalList.length
    · rw [if_pos hle] at hres
      rw [(parse_tail_final id _ r Q hres).1, hCalls]
    · rw [if_neg hle] at hres
      simp only [Option.some.injEq, Prod.mk.injEq] at hres
      rw [← hres.2, hCalls]

/-- C4, witness: two single-valued positionals; two tokens fill them in order and no
error is returned, a third token overflows. -/
theorem positionals_in_order_witness :
    (parse accept_all 0 [] "prog".data ["in.wasm".data, "out".data] parser_two_positionals =
        (parse_tail 0 none
          (bind_values 0 [2, 3] ["in.wasm".data, "out".data]
            (parse_enter 0 [] "prog".data parser_two_positionals))).map
          (fun r => (.ok r.1, r.2))
      ∧ ∀ e Q, parse accept_all 0 [] "prog".data ["in.wasm".data, "out".data]
          parser_two_positionals ≠ some (.error e, Q))
    ∧ (parse accept_all 0 [] "prog".data ["in.wasm".data, "out".data, "extra".data]
          parser_two_positionals =
        some (.error PositionalOverflow,
          bind_values 0 [2, 3] ["in.wasm".data, "out".data, "extra".data]
            (parse_enter 0 [] "prog".data parser_two_positionals)))
    ∧ (bind_values 0 [2, 3] ["in.wasm".data, "out".data, "extra".data]
          (parse_enter 0 [] "prog".data parser_two_positionals)).Calls =
        [Call.argument (.user 1) "in.wasm".data, Call.argument (.user 2) "out".data] :=
  have h2 := positionals_in_order accept_all 0 [] "prog".data parser_two_positionals
    ["in.wasm".data, "out".data] (by decide) (by decide) (by decide) (by decide)
  have h3 := positionals_in_order accept_all 0 [] "prog".data parser_two_positionals
    ["in.wasm".data, "out".data, "extra".data] (by decide) (by decide) (by decide) (by decide)
  ⟨h2.1 (by decide), h3.2.1 (by decide), h3.2.2.1⟩

/-- C4, counterexample.  One token for two positionals, `n = 1 ≤ k = 2`, but the first
positional holds a number and its value operation rejects `abc`: the scan returns that
error. -/
theorem positionals_in_order_counterexample :
    (parser_two_positionals.scope 0).SubCommandMap = []
    ∧ (parser_two_positionals.scope 0).PositionalList = [2, 3]
    ∧ (parser_two_positionals.desc 0 2).MaxNArgs = 1
    ∧ (parser_two_positionals.desc 0 3).MaxNArgs = 1
    ∧ plain "abc".data
    ∧ ∃ Q, parse reject_abc 0 [] "prog".data ["abc".data] parser_two_positionals =
        some (.error ⟨.InvalidArgument, "invalid argument".data⟩, Q) := by
  refine ⟨by decide, by decide, by decide, by decide, by decide, ⟨_, rfl⟩⟩

/-! ## Dispatch to a child scope -/

theorem ProgramNames_parse_enter (id : Nat) (pre : List Str) (a : Str) (P : ArgumentParser)
    (hid : id < P.SubCommandDescriptors.length) :
    ((parse_enter id pre a P).scope id).ProgramNames = pre ++ [a] := by
  simp [parse_enter, hid]

theorem scope_select (c s : Nat) (P : ArgumentParser) : (select c P).scope s = P.scope s := by
  simp only [select]
  split <;> rfl

/-- C5 (amended).  For a scope `id` in which the plain token `s` is linked to the child at
offset `Offset`: the scan of `[prog, s] ++ rest` fires the selection callback of the child
once and returns exactly the result of the scan of `rest` in the child scope with the
program-name chain `[prog, s]`.  So a long option of `rest` that is not an alias of the
child is an unknown option, whatever the parent registers, and when the child is stored
after the parent no descriptor of the parent is changed by the scan of `rest`. -/
theorem dispatch_to_child (conv : Conv) (id : Nat) (pre : List Str) (prog : Str)
    (P : ArgumentParser) (s : Str) (rest : List Str) (Offset : Nat)
    (hid : id < P.SubCommandDescriptors.length) (hs : plain s)
    (hfind : map_find (P.scope id).SubCommandMap s = some Offset) :
    parse conv id pre prog (s :: rest) P =
        parse conv (id + Offset) (pre ++ [prog]) s rest
          (select (id + Offset) (parse_enter id pre prog P))
    ∧ (∀ sc, (P.scope (id + Offset)).SC = some sc →
        (select (id + Offset) (parse_enter id pre prog P)).Calls =
          P.Calls ++ [Call.select sc.addr])
    ∧ (∀ name more, name ≠ [] → '=' ∉ name →
        map_find (P.scope (id + Offset)).ArgumentMap name = none →
        rest = ('-' :: '-' :: name) :: more →
        parse conv id pre prog (s :: rest) P =
          some (.error ⟨.InvalidArgument, "unknown option: ".data ++ name⟩,
            parse_enter (id + Offset) (pre ++ [prog]) s
              (select (id + Offset) (parse_enter id pre prog P))))
    ∧ (0 < Offset → ∀ r Q, parse conv id pre prog (s :: rest) P = some (r, Q) →
        (Q.scope id).ArgumentDescriptors = (P.scope id).ArgumentDescriptors) := by
  have hreg := sameRegistration_parse_enter id pre prog P
  have hne : (P.scope id).SubCommandMap.isEmpty = false := by
    cases hm : (P.scope id).SubCommandMap with
    | nil => rw [hm] at hfind; simp [map_find] at hfind
    | cons a l => rfl
  have main : parse conv id pre prog (s :: rest) P =
      parse conv (id + Offset) (pre ++ [prog]) s rest
        (select (id + Offset) (parse_enter id pre prog P)) := by
    simp only [parse]
    rw [parse_loop, parse_body_literal conv id Locals.init _ s (Or.inr ⟨hs, rfl⟩)]
    simp only [Locals.init, hreg.SubCommandMap, hne, hfind, Bool.not_false, Bool.and_self,
      if_true]
    rw [scope_select, ProgramNames_parse_enter id pre prog P hid]
  refine ⟨main, ?_, ?_, ?_⟩
  · intro sc hsc
    have : ((parse_enter id pre prog P).scope (id + Offset)).SC = some sc := by
      rw [hreg.SC]; exact hsc
    simp only [select, this]
    rfl
  · intro name more hname heq hunk hrest
    rw [main, hrest]
    have hreg2 : SameRegistration
        (parse_enter (id + Offset) (pre ++ [prog]) s
          (select (id + Offset) (parse_enter id pre prog P))) P :=
      (sameRegistration_parse_enter _ _ _ _).trans ((sameRegistration_select _ _).trans hreg)
    simp only [parse]
    rw [parse_loop, parse_body_long conv _ Locals.init _ name rfl hname]
    simp only [Locals.init, pending_default]
    rw [consume_long_option_with_argument_plain conv _ name _ heq,
      consume_long_option_unknown _ name _ (by rw [hreg2.ArgumentMap]; exact hunk)]
  · intro hoff r Q hres
    rw [main] at hres
    simp only [parse] at hres
    have := parse_loop_frame conv id rest (id + Offset) Locals.init _ r Q (by omega) hres
    exact this.chain ((untouched_parse_enter id _ _ s _).chain
      ((untouched_select id _ _).chain (untouched_parse_enter id id pre prog P)))

/-- C5, witness: `[prog, build, --opt, 1]` fires the selection callback of `build` and
binds the `--opt` of `build`, not the one of the root; `--verbose`, registered in the
root only, is an unknown option after `build`. -/
theorem dispatch_to_child_witness :
    (∃ Q, parse accept_all 0 [] "prog".data ["build".data, "--opt".data, "1".data] parser_build
          = some (.ok true, Q)
        ∧ Q.Calls = [Call.select 10, Call.argument (.user 2) "1".data]
        ∧ (Q.scope 0).ArgumentDescriptors = (parser_build.scope 0).ArgumentDescriptors)
    ∧ parse accept_all 0 [] "prog".data ["build".data, "--verbose".data] parser_build =
        some (.error ⟨.InvalidArgument, "unknown option: verbose".data⟩,
          parse_enter 1 ["prog".data] "build".data
            (select 1 (parse_enter 0 [] "prog".data parser_build))) :=
  have h1 := dispatch_to_child accept_all 0 [] "prog".data parser_build "build".data
    ["--opt".data, "1".data] 1 (by decide) (by decide) (by decide)
  have h2 := dispatch_to_child accept_all 0 [] "prog".data parser_build "build".data
    ["--verbose".data] 1 (by decide) (by decide) (by decide)
  ⟨⟨_, rfl, by decide, h1.2.2.2 (by decide) _ _ rfl⟩,
    h2.2.2.1 "verbose".data [] (by decide) (by decide) (by decide) rfl⟩

/-- C5, counterexample.  A child linked under the alias `-b`: the token `-b` is read as
a short option, the scan of `[prog, -b]` returns an unknown-option error and no selection
callback is fired. -/
theorem dispatch_to_child_counterexample :
    map_find (parser_dash_subcommand.scope 0).SubCommandMap "-b".data = some 1
    ∧ ∃ Q, parse accept_all 0 [] "prog".data ["-b".data] parser_dash_subcommand =
          some (.error ⟨.InvalidArgument, "unknown option: b".data⟩, Q)
        ∧ Q.Calls = [] := by
  refine ⟨by decide, ⟨_, rfl, by decide⟩⟩

/-! ## The outcome -/

theorem parse_tail_pending (id : Nat) (cur : Option Nat) (P : ArgumentParser) :
    parse_tail id cur P = parse_tail id none (pending_default id cur P) := rfl

theorem Cout_parse_validate (id : Nat) (P : ArgumentParser) :
    (parse_validate id P).Cout = P.Cout := by
  simp only [parse_validate]
  split <;> rfl

/-- The scan stops with help when the version toggle is unset and the help toggle is
set or some descriptor lacks its minimum: `help` is called once on the scope, and when
it returns the result is `false`. -/
theorem parse_tail_help (id : Nat) (P : ArgumentParser)
    (hid : id < P.SubCommandDescriptors.length)
    (h : ¬ (P.VerOpt = true ∨ ((P.scope id).HelpOpt = false ∧
      ∀ D ∈ (P.scope id).ArgumentDescriptors, D.MinNArgs ≤ D.NArgs))) :
    parse_tail id none P =
      (help id (parse_validate id P)).map (fun out =>
        (false, { parse_validate id P with Cout := P.Cout ++ out })) := by
  have hV : ¬ P.VerOpt = true := fun e => h (Or.inl e)
  have hH : ((parse_validate id P).scope id).HelpOpt = true := by
    rw [HelpOpt_parse_validate id P hid]
    by_cases hh : (P.scope id).HelpOpt = true
    · simp [hh]
    · have hh' : (P.scope id).HelpOpt = false := by simpa using hh
      have : ¬ ∀ D ∈ (P.scope id).ArgumentDescriptors, D.MinNArgs ≤ D.NArgs :=
        fun e => h (Or.inr ⟨hh', e⟩)
      simp only [not_forall, not_le] at this
      obtain ⟨D, hD, hlt⟩ := this
      simp only [hh', Bool.false_or, List.any_eq_true, decide_eq_true_eq]
      exact ⟨D, hD, hlt⟩
  simp only [parse_tail, pending_default, if_neg hV, hH, if_true, Cout_parse_validate]

/-- C6, evaluated where the code fails.  A required option is omitted and the version
toggle is unset, so `parse` renders help; the description of the option is one word of
80 characters, `indent_output` finds no space to break at and loops forever: `parse`
never returns, hence no handled-stop. -/
theorem required_option_omitted_never_returns :
    (parser_long_word.desc 0 2).MinNArgs = 1
    ∧ indent_output kIndent 2 80 (parser_long_word.desc 0 2).Desc = none
    ∧ parse accept_all 0 [] "prog".data [] parser_long_word = none
    ∧ ArgumentParser.parse accept_all parser_long_word ["prog".data] = none := by
  refine ⟨by decide, by decide, rfl, rfl⟩

/-! ## Errors of the scanner -/

theorem sameRegistration_consume_long_option (id : Nat) (A : Str) (P : ArgumentParser) :
    SameRegistration (consume_long_option id A P).2 P := by
  simp only [consume_long_option]
  split
  · exact ⟨rfl⟩
  · split
    · exact sameRegistration_default_value _ _ _
    · exact ⟨rfl⟩

theorem consume_long_option_known (id : Nat) (A : Str) (P : ArgumentParser)
    (h : (map_find (P.scope id).ArgumentMap A).isSome) :
    ∃ d, consume_long_option id A P = (.ok d, (consume_long_option id A P).2) := by
  obtain ⟨i, hi⟩ := Option.isSome_iff_exists.1 h
  rw [consume_long_option_found id A P i hi]
  split
  · exact ⟨none, rfl⟩
  · exact ⟨some i, rfl⟩

/-- A short cluster stops at its first character that is not an alias of the scope. -/
theorem consume_short_options_loop_unknown (id : Nat) (c : Char) (post : Str) (known : Str) :
    ∀ (cur : Option Nat) (P : ArgumentParser),
      (∀ x ∈ known, (map_find (P.scope id).ArgumentMap [x]).isSome) →
      map_find (P.scope id).ArgumentMap [c] = none →
      ∃ P', consume_short_options_loop id (known ++ c :: post) cur P =
        (.error ⟨.InvalidArgument, "unknown option: ".data ++ [c]⟩, P') := by
  induction known with
  | nil =>
    intro cur P _ hc
    have hreg := sameRegistration_pending_default id cur P
    refine ⟨pending_default id cur P, ?_⟩
    simp only [List.nil_append, consume_short_options_loop, consume_short_option_eq]
    rw [consume_long_option_unknown id [c] _ (by rw [hreg.ArgumentMap]; exact hc)]
  | cons x known ih =>
    intro cur P hk hc
    have hreg := sameRegistration_pending_default id cur P
    have hx : (map_find ((pending_default id cur P).scope id).ArgumentMap [x]).isSome := by
      rw [hreg.ArgumentMap]; exact hk x (by simp)
    obtain ⟨d, hd⟩ := consume_long_option_known id [x] _ hx
    have hreg2 := (sameRegistration_consume_long_option id [x] (pending_default id cur P)).trans
      hreg
    obtain ⟨P', hP'⟩ := ih d (consume_long_option id [x] (pending_default id cur P)).2
      (by intro y hy; rw [hreg2.ArgumentMap]; exact hk y (by simp [hy]))
      (by rw [hreg2.ArgumentMap]; exact hc)
    refine ⟨P', ?_⟩
    simp only [List.cons_append, consume_short_options_loop, consume_short_option_eq]
    rw [hd]
    exact hP'

theorem exists_first_unknown (m : List (Str × Nat)) (l : Str)
    (h : ∃ x ∈ l, map_find m [x] = none) :
    ∃ known c post, l = known ++ c :: post ∧
      (∀ x ∈ known, (map_find m [x]).isSome) ∧ map_find m [c] = none := by
  induction l with
  | nil => simp at h
  | cons a l ih =>
    by_cases ha : map_find m [a] = none
    · exact ⟨[], a, l, rfl, by simp, ha⟩
    · obtain ⟨x, hx, hxn⟩ := h
      have hxl : x ∈ l := by
        rcases List.mem_cons.1 hx with e | e
        · exact absurd (e ▸ hxn) ha
        · exact e
      obtain ⟨known, c, post, hl, hk, hc⟩ := ih ⟨x, hxl, hxn⟩
      refine ⟨a :: known, c, post, by rw [hl]; rfl, ?_, hc⟩
      intro y hy
      rcases List.mem_cons.1 hy with e | e
      · rw [e]; exact Option.ne_none_iff_isSome.1 ha
      · exact hk y e

/-- C7.  While the scanner is not escaped: a long option `--name` or `--name=value` whose
name (the text between `--` and the first `=`) is not an alias of the scope, and a short
cluster `-x1...xn` some character of which is not an alias of the scope, make the scan
return the error `unknown option: ` followed by that name, or by such a character (the
first one of the cluster); the result is an error, not a handled-stop, and does not
depend on the tokens that follow, none of which is processed. -/
theorem unknown_option_error (conv : Conv) (id : Nat) (L : Locals) (P : ArgumentParser)
    (hE : L.Escaped = false) :
    (∀ name rest, name ≠ [] → '=' ∉ name →
      map_find (P.scope id).ArgumentMap name = none →
      parse_loop conv id L P (('-' :: '-' :: name) :: rest) =
        some (.error ⟨.InvalidArgument, "unknown option: ".data ++ name⟩,
          pending_default id L.CurrentDesc P))
    ∧ (∀ name value rest, '=' ∉ name →
      map_find (P.scope id).ArgumentMap name = none →
      parse_loop conv id L P (('-' :: '-' :: (name ++ '=' :: value)) :: rest) =
        some (.error ⟨.InvalidArgument, "unknown option: ".data ++ name⟩,
          pending_default id L.CurrentDesc P))
    ∧ (∀ x xs, x ≠ '-' →
      (∃ c ∈ x :: xs, map_find (P.scope id).ArgumentMap [c] = none) →
      ∃ c ∈ x :: xs, map_find (P.scope id).ArgumentMap [c] = none ∧
        ∃ P', ∀ rest, parse_loop conv id L P (('-' :: x :: xs) :: rest) =
          some (.error ⟨.InvalidArgument, "unknown option: ".data ++ [c]⟩, P')) := by
  have hreg := sameRegistration_pending_default id L.CurrentDesc P
  refine ⟨?_, ?_, ?_⟩
  · intro name rest hname heq hunk
    rw [parse_loop, parse_body_long conv id L P name hE hname,
      consume_long_option_with_argument_plain conv id name _ heq,
      consume_long_option_unknown id name _ (by rw [hreg.ArgumentMap]; exact hunk)]
  · intro name value rest heq hunk
    rw [parse_loop, parse_body_long conv id L P (name ++ '=' :: value) hE (by simp),
      consume_long_option_with_argument_eq conv id name value _ heq,
      consume_long_option_unknown id name _ (by rw [hreg.ArgumentMap]; exact hunk)]
  · intro x xs hx hex
    obtain ⟨known, c, post, hl, hk, hc⟩ := exists_first_unknown _ _ hex
    obtain ⟨P', hP'⟩ := consume_short_options_loop_unknown id c post known none
      (pending_default id L.CurrentDesc P)
      (by intro y hy; rw [hreg.ArgumentMap]; exact hk y hy)
      (by rw [hreg.ArgumentMap]; exact hc)
    refine ⟨c, by rw [hl]; simp, hc, P', ?_⟩
    intro rest
    rw [parse_loop, parse_body_short conv id L P x xs hE hx]
    simp only [consume_short_options, List.drop_succ_cons, List.drop_zero]
    rw [hl, hP']

/-- C7, witness: `--bogus`, `--bogus=1` and `-abx` on the parser with the aliases `a`,
`b` and `c`; the tokens after them are not read. -/
theorem unknown_option_error_witness :
    parse_loop accept_all 0 Locals.init parser_cluster ["--bogus".data, "file".data] =
        some (.error ⟨.InvalidArgument, "unknown option: bogus".data⟩, parser_cluster)
    ∧ parse_loop accept_all 0 Locals.init parser_cluster ["--bogus=1".data, "file".data] =
        some (.error ⟨.InvalidArgument, "unknown option: bogus".data⟩, parser_cluster)
    ∧ ∃ c ∈ "abx".data, map_find (parser_cluster.scope 0).ArgumentMap [c] = none ∧
        ∃ P', ∀ rest, parse_loop accept_all 0 Locals.init parser_cluster ("-abx".data :: rest) =
          some (.error ⟨.InvalidArgument, "unknown option: ".data ++ [c]⟩, P') :=
  have h := unknown_option_error accept_all 0 Locals.init parser_cluster rfl
  ⟨h.1 "bogus".data ["file".data] (by decide) (by decide) (by decide),
    h.2.1 "bogus".data "1".data ["file".data] (by decide) (by decide),
    h.2.2 'a' "bx".data (by decide) ⟨'x', by decide, by decide⟩⟩

/-! ## An option that takes no value -/

theorem Calls_pending_default (id : Nat) (cur : Option Nat) (P : ArgumentParser) :
    ∃ ds, (pending_default id cur P).Calls = P.Calls ++ ds ∧
      ∀ c ∈ ds, ∃ o, c = Call.default_argument o := by
  cases cur with
  | none => exact ⟨[], by simp [pending_default], by simp⟩
  | some i =>
    simp only [pending_default]
    split
    · exact ⟨[Call.default_argument (P.desc id i).Opt], Calls_default_value id i P,
        by simp⟩
    · exact ⟨[], by simp, by simp⟩

/-- C8.  While the scanner is not escaped, a token `--name=value` whose name resolves to
a descriptor with `max_nargs = 0` makes the scan return the error `option <name>doesn't
need arguments.`: the outcome is an error, the tokens that follow are not read, and the
only calls made on option objects are default operations, so no value operation is
invoked with `value`. -/
theorem option_takes_no_argument (conv : Conv) (id : Nat) (L : Locals) (P : ArgumentParser)
    (name value : Str) (rest : List Str) (i : Nat)
    (hE : L.Escaped = false) (hEq : '=' ∉ name)
    (hfind : map_find (P.scope id).ArgumentMap name = some i)
    (hmax : (P.desc id i).MaxNArgs = 0) :
    parse_loop conv id L P (('-' :: '-' :: (name ++ '=' :: value)) :: rest) =
        some (.error ⟨.InvalidArgument,
            "option ".data ++ name ++ "doesn't need arguments.".data⟩,
          default_value id i (pending_default id L.CurrentDesc P))
    ∧ ∃ ds, (default_value id i (pending_default id L.CurrentDesc P)).Calls = P.Calls ++ ds
        ∧ ∀ c ∈ ds, ∃ o, c = Call.default_argument o := by
  have hreg := sameRegistration_pending_default id L.CurrentDesc P
  refine ⟨?_, ?_⟩
  · rw [parse_loop, parse_body_long conv id L P (name ++ '=' :: value) hE (by simp),
      consume_long_option_with_argument_eq conv id name value _ hEq,
      consume_long_option_found id name _ i (by rw [hreg.ArgumentMap]; exact hfind),
      if_pos (by rw [hreg.MaxNArgs]; exact hmax)]
  · obtain ⟨ds, hds, hall⟩ := Calls_pending_default id L.CurrentDesc P
    refine ⟨ds ++ [Call.default_argument ((pending_default id L.CurrentDesc P).desc id i).Opt],
      ?_, ?_⟩
    · rw [Calls_default_value, hds, List.append_assoc]
    · intro c hc
      rcases List.mem_append.1 hc with h | h
      · exact hall c h
      · exact ⟨_, List.mem_singleton.1 h⟩

/-- C8, witness: `--a=1` for the flag `a` of the clustering parser. -/
theorem option_takes_no_argument_witness :
    parse_loop accept_all 0 Locals.init parser_cluster ["--a=1".data, "x".data] =
        some (.error ⟨.InvalidArgument, "option adoesn't need arguments.".data⟩,
          default_value 0 2 (pending_default 0 none parser_cluster))
    ∧ ∃ ds, (default_value 0 2 (pending_default 0 none parser_cluster)).Calls =
          parser_cluster.Calls ++ ds
        ∧ ∀ c ∈ ds, ∃ o, c = Call.default_argument o :=
  option_takes_no_argument accept_all 0 Locals.init parser_cluster "a".data "1".data
    ["x".data] 2 rfl (by decide) (by decide) (by decide)

/-! ## An option that may take several values -/

/-- C9 (amended).  For a scope in which the nonempty long alias `A`, without `=`, resolves
to a descriptor with `max_nargs ≥ 2`, and a plain token `v1`: the scan of
`[prog, --A, v1] ++ vs` invokes the value operation of that descriptor with `v1` and is
then back at the start, with no live descriptor: the tokens `vs` are scanned as if they
came first (the first of them may dispatch to a subcommand, the plain ones are
positional values), and none of them is fed to `A` unless `--A` is given again. -/
theorem long_option_takes_one_value (conv : Conv) (id : Nat) (pre : List Str) (prog : Str)
    (P : ArgumentParser) (A v1 : Str) (vs : List Str) (i : Nat)
    (hA : A ≠ []) (hEq : '=' ∉ A)
    (hFind : map_find (P.scope id).ArgumentMap A = some i)
    (hMax : 2 ≤ (P.desc id i).MaxNArgs) (hv : plain v1) :
    parse conv id pre prog (('-' :: '-' :: A) :: v1 :: vs) P =
        parse_loop conv id Locals.init
          (consume_argument conv id i v1 (parse_enter id pre prog P)).2 vs
    ∧ (consume_argument conv id i v1 (parse_enter id pre prog P)).2.Calls =
        P.Calls ++ [Call.argument (P.desc id i).Opt v1] := by
  have hreg := sameRegistration_parse_enter id pre prog P
  refine ⟨?_, ?_⟩
  · simp only [parse]
    exact (parse_loop_long_value conv id Locals.init (parse_enter id pre prog P) A v1 i vs rfl
      hA hEq (by rw [hreg.ArgumentMap]; exact hFind) (by rw [hreg.MaxNArgs]; omega) hv).1
  · rw [Calls_consume_argument, hreg.Opt]
    rfl

/-- C9, witness: `--dir a b` with `--dir` taking up to three values: after `a` the scan
goes on from the start with `b`. -/
theorem long_option_takes_one_value_witness :
    parse accept_all 0 [] "prog".data ["--dir".data, "a".data, "b".data] parser_dir =
        parse_loop accept_all 0 Locals.init
          (consume_argument accept_all 0 2 "a".data (parse_enter 0 [] "prog".data parser_dir)).2
          ["b".data]
    ∧ (consume_argument accept_all 0 2 "a".data (parse_enter 0 [] "prog".data parser_dir)).2.Calls =
        parser_dir.Calls ++ [Call.argument (.user 1) "a".data] :=
  long_option_takes_one_value accept_all 0 [] "prog".data parser_dir "dir".data "a".data
    ["b".data] 2 (by decide) (by decide) (by decide) (by decide) (by decide)

/-- C9, counterexample.  `--dir` takes up to three values, yet in `[prog, --dir, a, b]`
only `a` is applied to it: `b` is consumed as the positional, and the consumed count of
`--dir` is 1, not 2. -/
theorem long_option_takes_one_value_counterexample :
    map_find (parser_dir.scope 0).ArgumentMap "dir".data = some 2
    ∧ (parser_dir.desc 0 2).MaxNArgs = 3
    ∧ (parser_dir.scope 0).PositionalList = [3]
    ∧ ∃ Q, parse accept_all 0 [] "prog".data ["--dir".data, "a".data, "b".data] parser_dir =
          some (.ok true, Q)
        ∧ Q.Calls = [Call.argument (.user 1) "a".data, Call.argument (.user 2) "b".data]
        ∧ (Q.desc 0 2).NArgs = 1 ∧ (Q.desc 0 3).NArgs = 1 := by
  refine ⟨by decide, by decide, by decide, ⟨_, rfl, by decide, by decide, by decide⟩⟩

/-! ## Conversion errors -/

/-- C10, evaluated where the code fails.  The value operation of the option `-n`,
`--number` rejects `abc`.  Given as `--number=abc`, after `--number` or after `-n`, the
token is passed to the value operation, the error it returns is dropped and the scan
ends as if the option had not been given (here with help, the option being required);
the facade writes nothing to `std::cerr`, and for an option that is not required
(`--out`) it reports proceed.  Given as a positional the same rejection is returned as
the error of the scan. -/
theorem conversion_error_dropped :
    (reject_abc (.user 1) "abc".data = some ⟨.InvalidArgument, "invalid argument".data⟩)
    ∧ (∃ Q, parse reject_abc 0 [] "prog".data ["--number=abc".data] parser_number =
          some (.ok false, Q)
        ∧ Q.Calls = [Call.argument (.user 1) "abc".data] ∧ (Q.desc 0 2).NArgs = 0)
    ∧ (∃ Q, parse reject_abc 0 [] "prog".data ["--number".data, "abc".data] parser_number =
          some (.ok false, Q)
        ∧ Q.Calls = [Call.argument (.user 1) "abc".data] ∧ (Q.desc 0 2).NArgs = 0)
    ∧ (∃ Q, parse reject_abc 0 [] "prog".data ["-n".data, "abc".data] parser_number =
          some (.ok false, Q)
        ∧ Q.Calls = [Call.argument (.user 1) "abc".data] ∧ (Q.desc 0 2).NArgs = 0)
    ∧ (∃ Q, ArgumentParser.parse reject_abc parser_number ["prog".data, "--number=abc".data] =
          some (false, Q) ∧ Q.Cerr = [])
    ∧ (∃ Q, ArgumentParser.parse reject_abc parser_out ["prog".data, "--out=abc".data] =
          some (true, Q) ∧ Q.Cerr = [] ∧ (Q.desc 0 2).NArgs = 0)
    ∧ (∃ Q, parse reject_abc 0 [] "prog".data ["abc".data] parser_two_positionals =
          some (.error ⟨.InvalidArgument, "invalid argument".data⟩, Q)) := by
  refine ⟨by decide, ⟨_, rfl, by decide, by decide⟩, ⟨_, rfl, by decide, by decide⟩,
    ⟨_, rfl, by decide, by decide⟩, ⟨_, rfl, by decide⟩, ⟨_, rfl, by decide, by decide⟩,
    ⟨_, rfl⟩⟩

/-! ## What a scan adds to the state -/

theorem within_refl (P : ArgumentParser) : Within 0 P P :=
  ⟨⟨List.prefix_refl _, fun _ _ => Nat.le_refl _, fun _ h => h, fun h => h⟩,
    fun _ _ => Nat.le_refl _, fun _ _ => rfl⟩

theorem within_trans {m n : Nat} {R Q P : ArgumentParser} (h1 : Within m R Q)
    (h2 : Within n Q P) : Within (m + n) R P :=
  ⟨⟨h2.ext.calls.trans h1.ext.calls,
      fun s i => Nat.le_trans (h2.ext.counts s i) (h1.ext.counts s i),
      fun s h => h1.ext.help s (h2.ext.help s h), fun h => h1.ext.version (h2.ext.version h)⟩,
    fun s i => by have a := h1.grow s i; have b := h2.grow s i; omega,
    fun s i => (h1.max s i).trans (h2.max s i)⟩

theorem within_mono {m n : Nat} {Q P : ArgumentParser} (h : Within m Q P) (hmn : m ≤ n) :
    Within n Q P :=
  ⟨h.ext, fun s i => Nat.le_trans (h.grow s i) (Nat.add_le_add_left hmn _), h.max⟩

theorem within_of_untouched {Q P : ArgumentParser} (hd : ∀ j, untouched j Q P)
    (hc : P.Calls <+: Q.Calls)
    (hh : ∀ s, (P.scope s).HelpOpt = true → (Q.scope s).HelpOpt = true)
    (hv : P.VerOpt = true → Q.VerOpt = true) : Within 0 Q P :=
  ⟨⟨hc, fun s i => by rw [(hd s).desc_eq i], hh, hv⟩,
    fun s i => by rw [(hd s).desc_eq i]; exact Nat.le_refl _,
    fun s i => by rw [(hd s).desc_eq i]⟩

theorem within_default_argument (o : OptRef) (P : ArgumentParser) :
    Within 0 (default_argument o P) P := by
  refine within_of_untouched (fun j => untouched_default_argument j o P) ?_ ?_ ?_
  · rw [Calls_default_argument]; exact List.prefix_append _ _
  · intro s h
    cases o with
    | help s1 =>
      simp only [default_argument, scope_modify_scope]
      split
      · rfl
      · exact h
    | version => exact h
    | user a => exact h
  · intro h
    cases o with
    | help s1 => exact h
    | version => rfl
    | user a => exact h

theorem within_pending_default (id : Nat) (cur : Option Nat) (P : ArgumentParser) :
    Within 0 (pending_default id cur P) P := by
  cases cur with
  | none => exact within_refl P
  | some i =>
    simp only [pending_default, default_value]
    split
    · exact within_default_argument _ _
    · exact within_refl P

theorem within_bind_value (id i : Nat) (v : Str) (P : ArgumentParser) :
    Within 1 (bind_value id i v P) P := by
  have key : ∀ s j, (bind_value id i v P).desc s j = P.desc s j ∨
      (bind_value id i v P).desc s j = { P.desc s j with NArgs := (P.desc s j).NArgs + 1 } := by
    intro s j
    by_cases hs : s = id
    · subst hs
      have e : (bind_value s i v P).desc s j =
          if s < P.SubCommandDescriptors.length ∧ i = j ∧
              j < (P.scope s).ArgumentDescriptors.length then
            { P.desc s j with NArgs := (P.desc s j).NArgs + 1 }
          else P.desc s j :=
        desc_modify_desc_gen { P with Calls := P.Calls ++ [Call.argument (P.desc s i).Opt v] }
          s i j (fun D => { D with NArgs := D.NArgs + 1 })
      rw [e]
      split
      · exact Or.inr rfl
      · exact Or.inl rfl
    · left
      simp only [ArgumentParser.desc]
      rw [scope_bind_value_ne id i s v P hs]
  refine ⟨⟨?_, ?_, ?_, ?_⟩, ?_, ?_⟩
  · rw [Calls_bind_value]; exact List.prefix_append _ _
  · intro s j
    rcases key s j with h | h <;> rw [h]
    exact Nat.le_succ _
  · intro s h; rw [HelpOpt_bind_value]; exact h
  · intro h; exact h
  · intro s j
    rcases key s j with h | h <;> rw [h]
    exact Nat.le_succ _
  · intro s j
    rcases key s j with h | h <;> rw [h]

theorem within_consume_argument (conv : Conv) (id i : Nat) (v : Str) (P : ArgumentParser) :
    Within 1 (consume_argument conv id i v P).2 P := by
  cases hc : conv (P.desc id i).Opt v with
  | none =>
    rw [consume_argument_accept _ _ _ _ _ hc]
    exact within_bind_value id i v P
  | some e =>
    rw [consume_argument_reject _ _ _ _ _ _ hc]
    exact within_mono (within_of_untouched (fun _ => rfl) (List.prefix_append _ _)
      (fun _ h => h) (fun h => h)) (Nat.zero_le 1)

theorem within_consume_long_option (id : Nat) (A : Str) (P : ArgumentParser) :
    Within 0 (consume_long_option id A P).2 P := by
  simp only [consume_long_option]
  split
  · exact within_refl P
  · split
    · exact within_default_argument _ _
    · exact within_refl P

theorem within_consume_short_options_loop (id : Nat) (cs : Str) :
    ∀ (cur : Option Nat) (P : ArgumentParser),
      Within 0 (consume_short_options_loop id cs cur P).2 P := by
  induction cs with
  | nil => intro cur P; exact within_refl P
  | cons c cs ih =>
    intro cur P
    have h1 := within_pending_default id cur P
    have h2 := within_consume_long_option id [c] (pending_default id cur P)
    simp only [consume_short_options_loop, consume_short_option_eq]
    cases hr : consume_long_option id [c] (pending_default id cur P) with
    | mk r P1 =>
      rw [hr] at h2
      cases r with
      | error e => exact within_trans h2 h1
      | ok d => exact within_trans (ih d P1) (within_trans h2 h1)

theorem within_consume_long_option_with_argument (conv : Conv) (id : Nat) (Arg : Str)
    (P : ArgumentParser) : Within 1 (consume_long_option_with_argument conv id Arg P).2 P := by
  simp only [consume_long_option_with_argument]
  split
  · rename_i Pos _
    have h2 := within_consume_long_option id (substr Arg 2 (Pos - 2)) P
    cases hr : consume_long_option id (substr Arg 2 (Pos - 2)) P with
    | mk r P1 =>
      rw [hr] at h2
      cases r with
      | error e => exact within_mono h2 (Nat.zero_le 1)
      | ok d =>
        cases d with
        | none => exact within_mono h2 (Nat.zero_le 1)
        | some i => exact within_trans (within_consume_argument conv id i _ P1) h2
  · exact within_mono (within_consume_long_option _ _ _) (Nat.zero_le 1)

theorem within_select (c : Nat) (P : ArgumentParser) : Within 0 (select c P) P := by
  refine within_of_untouched (fun j => untouched_select j c P) ?_ ?_ ?_
  · simp only [select]
    split
    · exact List.prefix_append _ _
    · exact List.prefix_refl _
  · intro s h; rw [scope_select]; exact h
  · intro h
    simp only [select]
    split <;> exact h

theorem within_parse_enter (id : Nat) (pre : List Str) (a : Str) (P : ArgumentParser) :
    Within 0 (parse_enter id pre a P) P :=
  within_of_untouched (fun j => untouched_parse_enter j id pre a P) (List.prefix_refl _)
    (fun s h => by rw [HelpOpt_parse_enter]; exact h) (fun h => h)

theorem within_parse_value (conv : Conv) (id : Nat) (L : Locals) (P : ArgumentParser)
    (Arg : Str) : Within 1 (parse_value conv id L P Arg).state P := by
  simp only [parse_value]
  split
  · rename_i i _
    have h2 := within_consume_argument conv id i Arg P
    cases hr : consume_argument conv id i Arg P with
    | mk r P1 =>
      rw [hr] at h2
      cases r <;> exact h2
  · split
    · exact within_mono (within_refl P) (Nat.zero_le 1)
    · rename_i Index _
      have h2 := within_consume_argument conv id Index Arg P
      cases hr : consume_argument conv id Index Arg P with
      | mk r P1 =>
        rw [hr] at h2
        cases r <;> exact h2

/-- A step of the loop extends the state it starts from, by at most one accepted
value. -/
theorem within_parse_body (conv : Conv) (id : Nat) (L : Locals) (P : ArgumentParser)
    (Arg : Str) : Within 1 (parse_body conv id L P Arg).state P := by
  simp only [parse_body]
  split
  · split
    · split
      · exact within_mono (within_refl P) (Nat.zero_le 1)
      · have h1 := within_pending_default id L.CurrentDesc P
        have h2 := within_consume_long_option_with_argument conv id Arg
          (pending_default id L.CurrentDesc P)
        cases hr : consume_long_option_with_argument conv id Arg
            (pending_default id L.CurrentDesc P) with
        | mk r P1 =>
          rw [hr] at h2
          cases r <;> exact within_trans h2 h1
    · have h1 := within_pending_default id L.CurrentDesc P
      have h2 := within_consume_short_options_loop id (Arg.drop 1) none
        (pending_default id L.CurrentDesc P)
      simp only [consume_short_options]
      cases hr : consume_short_options_loop id (Arg.drop 1) none
          (pending_default id L.CurrentDesc P) with
      | mk r P1 =>
        rw [hr] at h2
        cases r <;> exact within_mono (within_trans h2 h1) (Nat.zero_le 1)
  · split
    · exact within_consume_argument conv id _ Arg P
    · split
      · exact within_mono (within_select _ _) (Nat.zero_le 1)
      · exact within_parse_value conv id _ P Arg

/-- The tokens scanned so far extend the state the scan started from, by at most one
accepted value each. -/
theorem within_scan (conv : Conv) (ts : List Str) :
    ∀ (id : Nat) (L : Locals) (P : ArgumentParser) (id1 : Nat) (L1 : Locals)
      (P1 : ArgumentParser),
      scan conv id L P ts = some (id1, L1, P1) → Within ts.length P1 P := by
  induction ts with
  | nil =>
    intro id L P id1 L1 P1 h
    simp only [scan, Option.some.injEq, Prod.mk.injEq] at h
    rw [← h.2.2]
    exact within_refl P
  | cons t ts ih =>
    intro id L P id1 L1 P1 h
    have hb := within_parse_body conv id L P t
    rw [scan] at h
    cases hs : parse_body conv id L P t with
    | next L2 P2 =>
      rw [hs] at h hb
      exact within_trans (ih id L2 P2 id1 L1 P1 h) hb
    | fail e P2 =>
      rw [hs] at h
      cases h
    | dispatch Child P2 =>
      rw [hs] at h hb
      have h3 := ih Child Locals.init _ id1 L1 P1 h
      have h4 := within_trans h3 (within_trans (within_parse_enter Child _ t P2) hb)
      simpa using h4

/-- The loop over `pre ++ rest` is the loop over `rest` from where the scan of `pre`
arrives. -/
theorem parse_loop_append (conv : Conv) (pre rest : List Str) :
    ∀ (id : Nat) (L : Locals) (P : ArgumentParser) (id1 : Nat) (L1 : Locals)
      (P1 : ArgumentParser),
      scan conv id L P pre = some (id1, L1, P1) →
      parse_loop conv id L P (pre ++ rest) = parse_loop conv id1 L1 P1 rest := by
  induction pre with
  | nil =>
    intro id L P id1 L1 P1 h
    simp only [scan, Option.some.injEq, Prod.mk.injEq] at h
    obtain ⟨rfl, rfl, rfl⟩ := h
    rfl
  | cons t ts ih =>
    intro id L P id1 L1 P1 h
    rw [scan] at h
    rw [List.cons_append, parse_loop]
    cases hs : parse_body conv id L P t with
    | next L2 P2 =>
      rw [hs] at h
      exact ih id L2 P2 id1 L1 P1 h
    | fail e P2 =>
      rw [hs] at h
      cases h
    | dispatch Child P2 =>
      rw [hs] at h
      exact ih Child Locals.init _ id1 L1 P1 h

/-! ## An error ends the scan and nothing is rolled back -/

/-- C11.  When the scan of `pre` arrives, without returning, in scope `id1` with the
locals `L1` and the state `P1`, and the step of the loop at the token `t` fails there
with the error `e` in the state `Pf`: the scan of `pre ++ [t] ++ post` returns `e` with
the final state `Pf` for every `post`, and nothing is rolled back: `P1` extends the
state the scan started from and `Pf` extends `P1` (the calls recorded are still there
in order, no consumed count is lower, a toggle that was set is still set). -/
theorem error_aborts_without_rollback (conv : Conv) (id : Nat) (L : Locals)
    (P : ArgumentParser) (pre : List Str) (t : Str) (id1 : Nat) (L1 : Locals)
    (P1 : ArgumentParser) (e : Error) (Pf : ArgumentParser)
    (hpre : scan conv id L P pre = some (id1, L1, P1))
    (hfail : parse_body conv id1 L1 P1 t = .fail e Pf) :
    (∀ post, parse_loop conv id L P (pre ++ t :: post) = some (.error e, Pf))
    ∧ Extends P1 P ∧ Extends Pf P1 := by
  refine ⟨?_, (within_scan conv pre id L P id1 L1 P1 hpre).ext, ?_⟩
  · intro post
    rw [parse_loop_append conv pre (t :: post) id L P id1 L1 P1 hpre, parse_loop, hfail]
  · have h := within_parse_body conv id1 L1 P1 t
    rw [hfail] at h
    exact h.ext

/-- C11, witness: `[prog, -a, --bogus] ++ post` on the clustering parser:
the flag `a` is fired, the scan stops at the unknown `--bogus` whatever follows, and the
call on `a` is still recorded in the final state. -/
theorem error_aborts_without_rollback_witness :
    (∀ post, parse_loop accept_all 0 Locals.init (parse_enter 0 [] "prog".data parser_cluster)
        (["-a".data] ++ "--bogus".data :: post) =
      some (.error ⟨.InvalidArgument, "unknown option: bogus".data⟩,
        default_value 0 2 (parse_enter 0 [] "prog".data parser_cluster)))
    ∧ Extends (default_value 0 2 (parse_enter 0 [] "prog".data parser_cluster))
        (parse_enter 0 [] "prog".data parser_cluster)
    ∧ Extends (default_value 0 2 (parse_enter 0 [] "prog".data parser_cluster))
        (default_value 0 2 (parse_enter 0 [] "prog".data parser_cluster)) :=
  error_aborts_without_rollback accept_all 0 Locals.init
    (parse_enter 0 [] "prog".data parser_cluster) ["-a".data] "--bogus".data 0 Locals.init
    (default_value 0 2 (parse_enter 0 [] "prog".data parser_cluster))
    ⟨.InvalidArgument, "unknown option: bogus".data⟩
    (default_value 0 2 (parse_enter 0 [] "prog".data parser_cluster)) rfl rfl

/-! ## Only the first token that is not an option may dispatch -/

theorem selections_append (P : ArgumentParser) (c : Call) (Q : ArgumentParser)
    (h : Q.Calls = P.Calls ++ [c]) (hc : ∀ sc, c ≠ Call.select sc) :
    selections Q = selections P := by
  simp only [selections, h, List.filterMap_append]
  cases c with
  | select sc => exact absurd rfl (hc sc)
  | argument o s => simp
  | default_argument o => simp

theorem selections_default_argument (o : OptRef) (P : ArgumentParser) :
    selections (default_argument o P) = selections P :=
  selections_append P _ _ (Calls_default_argument o P) (fun _ h => by cases h)

theorem selections_pending_default (id : Nat) (cur : Option Nat) (P : ArgumentParser) :
    selections (pending_default id cur P) = selections P := by
  cases cur with
  | none => rfl
  | some i =>
    simp only [pending_default, default_value]
    split
    · exact selections_default_argument _ _
    · rfl

theorem selections_consume_argument (conv : Conv) (id i : Nat) (v : Str)
    (P : ArgumentParser) : selections (consume_argument conv id i v P).2 = selections P :=
  selections_append P _ _ (Calls_consume_argument conv id i v P) (fun _ h => by cases h)

theorem selections_consume_long_option (id : Nat) (A : Str) (P : ArgumentParser) :
    selections (consume_long_option id A P).2 = selections P := by
  simp only [consume_long_option]
  split
  · rfl
  · split
    · exact selections_default_argument _ _
    · rfl

theorem selections_consume_short_options_loop (id : Nat) (cs : Str) :
    ∀ (cur : Option Nat) (P : ArgumentParser),
      selections (consume_short_options_loop id cs cur P).2 = selections P := by
  induction cs with
  | nil => intro cur P; rfl
  | cons c cs ih =>
    intro cur P
    have h1 := selections_pending_default id cur P
    have h2 := selections_consume_long_option id [c] (pending_default id cur P)
    simp only [consume_short_options_loop, consume_short_option_eq]
    cases hr : consume_long_option id [c] (pending_default id cur P) with
    | mk r P1 =>
      rw [hr] at h2
      cases r with
      | error e => exact h2.trans h1
      | ok d => exact (ih d P1).trans (h2.trans h1)

theorem selections_consume_long_option_with_argument (conv : Conv) (id : Nat) (Arg : Str)
    (P : ArgumentParser) :
    selections (consume_long_option_with_argument conv id Arg P).2 = selections P := by
  simp only [consume_long_option_with_argument]
  split
  · rename_i Pos _
    have h2 := selections_consume_long_option id (substr Arg 2 (Pos - 2)) P
    cases hr : consume_long_option id (substr Arg 2 (Pos - 2)) P with
    | mk r P1 =>
      rw [hr] at h2
      cases r with
      | error e => exact h2
      | ok d =>
        cases d with
        | none => exact h2
        | some i => exact (selections_consume_argument conv id i _ P1).trans h2
  · exact selections_consume_long_option _ _ _

theorem selections_parse_value (conv : Conv) (id : Nat) (L : Locals) (P : ArgumentParser)
    (Arg : Str) : selections (parse_value conv id L P Arg).state = selections P := by
  simp only [parse_value]
  split
  · rename_i i _
    have h2 := selections_consume_argument conv id i Arg P
    cases hr : consume_argument conv id i Arg P with
    | mk r P1 =>
      rw [hr] at h2
      cases r <;> exact h2
  · split
    · rfl
    · rename_i Index _
      have h2 := selections_consume_argument conv id Index Arg P
      cases hr : consume_argument conv id Index Arg P with
      | mk r P1 =>
        rw [hr] at h2
        cases r <;> exact h2

theorem parse_value_stays (conv : Conv) (id : Nat) (L : Locals) (P : ArgumentParser)
    (Arg : Str) (hF : L.FirstNonOption = false) : (parse_value conv id L P Arg).stays := by
  simp only [parse_value]
  split
  · rename_i i _
    cases hr : consume_argument conv id i Arg P with
    | mk r P1 =>
      cases r with
      | error e => trivial
      | ok d => exact hF
  · split
    · trivial
    · rename_i Index _
      cases hr : consume_argument conv id Index Arg P with
      | mk r P1 =>
        cases r with
        | error e => trivial
        | ok d => exact hF

/-- Once `FirstNonOption` is false a step of the loop is never a dispatch, leaves it
false and fires no selection callback. -/
theorem parse_body_stays (conv : Conv) (id : Nat) (L : Locals) (P : ArgumentParser)
    (Arg : Str) (hF : L.FirstNonOption = false) :
    (parse_body conv id L P Arg).stays
    ∧ selections (parse_body conv id L P Arg).state = selections P := by
  simp only [parse_body]
  split
  · split
    · split
      · exact ⟨hF, rfl⟩
      · have h1 := selections_pending_default id L.CurrentDesc P
        have h2 := selections_consume_long_option_with_argument conv id Arg
          (pending_default id L.CurrentDesc P)
        cases hr : consume_long_option_with_argument conv id Arg
            (pending_default id L.CurrentDesc P) with
        | mk r P1 =>
          rw [hr] at h2
          cases r with
          | error e => exact ⟨trivial, h2.trans h1⟩
          | ok d => exact ⟨hF, h2.trans h1⟩
    · have h1 := selections_pending_default id L.CurrentDesc P
      have h2 := selections_consume_short_options_loop id (Arg.drop 1) none
        (pending_default id L.CurrentDesc P)
      simp only [consume_short_options]
      cases hr : consume_short_options_loop id (Arg.drop 1) none
          (pending_default id L.CurrentDesc P) with
      | mk r P1 =>
        rw [hr] at h2
        cases r with
        | error e => exact ⟨trivial, h2.trans h1⟩
        | ok d => exact ⟨hF, h2.trans h1⟩
  · split
    · exact ⟨hF, selections_consume_argument conv id _ Arg P⟩
    · simp only [hF, Bool.false_and, Bool.false_eq_true, if_false]
      exact ⟨parse_value_stays conv id _ P Arg rfl, selections_parse_value conv id _ P Arg⟩

theorem selections_parse_tail (id : Nat) (cur : Option Nat) (P : ArgumentParser)
    (b : Bool) (Q : ArgumentParser) (h : parse_tail id cur P = some (b, Q)) :
    selections Q = selections P := by
  have h1 := Calls_parse_tail id cur P b Q h
  have h2 := selections_pending_default id cur P
  simp only [selections] at h2 ⊢
  rw [h1, h2]

theorem scan_stays (conv : Conv) (id : Nat) (ts : List Str) :
    ∀ (L : Locals) (P : ArgumentParser) (id1 : Nat) (L1 : Locals) (P1 : ArgumentParser),
      L.FirstNonOption = false → scan conv id L P ts = some (id1, L1, P1) →
      id1 = id ∧ L1.FirstNonOption = false ∧ selections P1 = selections P := by
  induction ts with
  | nil =>
    intro L P id1 L1 P1 hF h
    simp only [scan, Option.some.injEq, Prod.mk.injEq] at h
    obtain ⟨rfl, rfl, rfl⟩ := h
    exact ⟨rfl, hF, rfl⟩
  | cons t ts ih =>
    intro L P id1 L1 P1 hF h
    have hb := parse_body_stays conv id L P t hF
    rw [scan] at h
    cases hs : parse_body conv id L P t with
    | next L2 P2 =>
      rw [hs] at h hb
      obtain ⟨h1, h2, h3⟩ := ih L2 P2 id1 L1 P1 hb.1 h
      exact ⟨h1, h2, h3.trans hb.2⟩
    | fail e P2 =>
      rw [hs] at h
      cases h
    | dispatch Child P2 =>
      rw [hs] at hb
      exact absurd hb.1 (fun h => h)

theorem parse_loop_stays (conv : Conv) (id : Nat) (ts : List Str) :
    ∀ (L : Locals) (P : ArgumentParser) (r : Except Error Bool) (Q : ArgumentParser),
      L.FirstNonOption = false → parse_loop conv id L P ts = some (r, Q) →
      selections Q = selections P := by
  induction ts with
  | nil =>
    intro L P r Q _ h
    simp only [parse_loop, Option.map_eq_some'] at h
    obtain ⟨⟨b, Q1⟩, hb, he⟩ := h
    cases he
    exact selections_parse_tail id _ P b Q1 hb
  | cons t ts ih =>
    intro L P r Q hF h
    have hb := parse_body_stays conv id L P t hF
    rw [parse_loop] at h
    cases hs : parse_body conv id L P t with
    | next L2 P2 =>
      rw [hs] at h hb
      exact (ih L2 P2 r Q hb.1 h).trans hb.2
    | fail e P2 =>
      rw [hs] at h hb
      simp only [Option.some.injEq, Prod.mk.injEq] at h
      rw [← h.2]
      exact hb.2
    | dispatch Child P2 =>
      rw [hs] at hb
      exact absurd hb.1 (fun h => h)

/-- C12.  In the scan of a scope `id`: while no token has been taken as a positional
(`FirstNonOption` is true, no positional is started) and no descriptor is live, a token
that is not read as an option (it is plain, or the scan is escaped) and is no alias of
a subcommand of the scope is consumed as the first positional: the value goes to the
first entry of the positional list, or the scan fails when the list is empty; and the
loop goes on with `FirstNonOption` false.  From a state in which `FirstNonOption` is
false no token is a dispatch, whatever it is equal to: the scan stays in scope `id`,
`FirstNonOption` stays false, and no selection callback is fired up to the end of the
scan. -/
theorem dispatch_only_first_non_option (conv : Conv) (id : Nat) :
    (∀ (L : Locals) (P : ArgumentParser) (t : Str), L.FirstNonOption = true →
      L.CurrentDesc = none → L.PositionalIter = 0 → (L.Escaped = true ∨ plain t) →
      map_find (P.scope id).SubCommandMap t = none →
      parse_body conv id L P t =
        match (P.scope id).PositionalList with
        | [] => .fail PositionalOverflow P
        | p :: _ =>
          match consume_argument conv id p t P with
          | (.error e, P1) => .fail e P1
          | (.ok d, P1) => .next ⟨d, false, true, 1⟩ P1)
    ∧ (∀ (L : Locals) (P : ArgumentParser) (t : Str), L.FirstNonOption = false →
      ∀ Child P1, parse_body conv id L P t ≠ .dispatch Child P1)
    ∧ (∀ (ts : List Str) (L : Locals) (P : ArgumentParser), L.FirstNonOption = false →
      (∀ id1 L1 P1, scan conv id L P ts = some (id1, L1, P1) →
        id1 = id ∧ L1.FirstNonOption = false ∧ selections P1 = selections P)
      ∧ (∀ r Q, parse_loop conv id L P ts = some (r, Q) → selections Q = selections P)) := by
  refine ⟨?_, ?_, ?_⟩
  · intro L P t hF hC hI hlit hfind
    have hlit1 : L.Escaped = true ∨ (plain t ∧ L.CurrentDesc = none) :=
      hlit.imp (fun h => h) (fun h => ⟨h, hC⟩)
    rw [parse_body_literal conv id L P t hlit1]
    have : (if L.FirstNonOption && !(P.scope id).SubCommandMap.isEmpty then
        map_find (P.scope id).SubCommandMap t else none) = none := by
      split
      · exact hfind
      · rfl
    rw [this]
    simp only [parse_value, hC, hI]
    cases hp : (P.scope id).PositionalList with
    | nil => rfl
    | cons p ps => rfl
  · intro L P t hF Child P1 h
    have := (parse_body_stays conv id L P t hF).1
    rw [h] at this
    exact this
  · intro ts L P hF
    exact ⟨fun id1 L1 P1 h => scan_stays conv id ts L P id1 L1 P1 hF h,
      fun r Q h => parse_loop_stays conv id ts L P r Q hF h⟩

/-- C12, witness: `[prog, file, build]` with the child `build` and one positional in
the root: `file` is consumed as the positional, after which `build` is no dispatch: the
scan stays in the root, no selection callback is fired, and `build` overflows the
positionals. -/
theorem dispatch_only_first_non_option_witness :
    parse_body accept_all 0 Locals.init (parse_enter 0 [] "prog".data parser_build_file)
        "file".data =
      .next ⟨none, false, true, 1⟩
        (bind_value 0 2 "file".data (parse_enter 0 [] "prog".data parser_build_file))
    ∧ (∀ Child P1, parse_body accept_all 0 ⟨none, false, true, 1⟩
        (bind_value 0 2 "file".data (parse_enter 0 [] "prog".data parser_build_file))
        "build".data ≠ .dispatch Child P1)
    ∧ (∀ r Q, parse_loop accept_all 0 ⟨none, false, true, 1⟩
        (bind_value 0 2 "file".data (parse_enter 0 [] "prog".data parser_build_file))
        ["build".data] = some (r, Q) →
        selections Q = selections
          (bind_value 0 2 "file".data (parse_enter 0 [] "prog".data parser_build_file)))
    ∧ ∃ Q, parse accept_all 0 [] "prog".data ["file".data, "build".data] parser_build_file =
          some (.error PositionalOverflow, Q)
        ∧ Q.Calls = [Call.argument (.user 1) "file".data] :=
  have h := dispatch_only_first_non_option accept_all 0
  ⟨h.1 Locals.init (parse_enter 0 [] "prog".data parser_build_file) "file".data rfl rfl rfl
      (Or.inr (by decide)) (by decide),
    h.2.1 ⟨none, false, true, 1⟩ _ "build".data rfl,
    (h.2.2 ["build".data] ⟨none, false, true, 1⟩ _ rfl).2,
    ⟨_, rfl, by decide⟩⟩

/-! ## The consumed count and `max_nargs` -/

/-- C15 (amended).  In a single scan each token leaves every consumed count as it is
or raises it by one, and leaves `max_nargs` as it is; so a consumed count exceeds
`max_nargs` after a step only if it had reached `max_nargs` before the step, and after
`n` tokens it is at most `n` above the count at the start.  The count is not compared
with `max_nargs` before a value is fed: a token `--A=v` for a value-taking `A` whose
value is accepted raises the count of `A` by one whatever it was, so that an option
given more often than `max_nargs` ends with a consumed count above `max_nargs`. -/
theorem consumed_count_step (conv : Conv) (id : Nat) (L : Locals) (P : ArgumentParser) :
    (∀ t s j, (P.desc s j).NArgs ≤ ((parse_body conv id L P t).state.desc s j).NArgs
      ∧ ((parse_body conv id L P t).state.desc s j).NArgs ≤ (P.desc s j).NArgs + 1
      ∧ ((parse_body conv id L P t).state.desc s j).MaxNArgs = (P.desc s j).MaxNArgs
      ∧ ((P.desc s j).MaxNArgs < ((parse_body conv id L P t).state.desc s j).NArgs →
          (P.desc s j).MaxNArgs ≤ (P.desc s j).NArgs))
    ∧ (∀ ts id1 L1 P1, scan conv id L P ts = some (id1, L1, P1) →
        ∀ s j, (P1.desc s j).NArgs ≤ (P.desc s j).NArgs + ts.length)
    ∧ (∀ A v i, L.Escaped = false → L.CurrentDesc = none → A ≠ [] → '=' ∉ A →
        map_find (P.scope id).ArgumentMap A = some i → (P.desc id i).MaxNArgs ≠ 0 →
        conv (P.desc id i).Opt v = none → id < P.SubCommandDescriptors.length →
        i < (P.scope id).ArgumentDescriptors.length →
        ((parse_body conv id L P ('-' :: '-' :: (A ++ '=' :: v))).state.desc id i).NArgs =
          (P.desc id i).NArgs + 1) := by
  refine ⟨?_, ?_, ?_⟩
  · intro t s j
    have h := within_parse_body conv id L P t
    have h1 := h.ext.counts s j
    have h2 := h.grow s j
    exact ⟨h1, h2, h.max s j, fun h3 => by omega⟩
  · intro ts id1 L1 P1 h s j
    exact (within_scan conv ts id L P id1 L1 P1 h).grow s j
  · intro A v i hE hC hA hEq hFind hMax hacc hid hi
    rw [parse_body_long conv id L P (A ++ '=' :: v) hE (by simp), hC]
    simp only [pending_default]
    rw [consume_long_option_with_argument_eq conv id A v P hEq,
      consume_long_option_found id A P i hFind, if_neg hMax]
    simp only [Step.state]
    rw [consume_argument_accept conv id i v P hacc]
    exact NArgs_bind_value_self id i v P hid hi

/-- C15, witness: on the parser with the single-valued `--out`, after `--out=v` has
been scanned the token `--out=w` raises the consumed count of `--out` from 1 to 2. -/
theorem consumed_count_step_witness :
    ((parse_body accept_all 0 Locals.init parser_out "--out=v".data).state.desc 0 2).NArgs ≤
        (parser_out.desc 0 2).NArgs + 1
    ∧ (∀ s j, ((bind_value 0 2 "v".data parser_out).desc s j).NArgs ≤
        (parser_out.desc s j).NArgs + ["--out=v".data].length)
    ∧ ((parse_body accept_all 0 Locals.init (bind_value 0 2 "v".data parser_out)
          ('-' :: '-' :: ("out".data ++ '=' :: "w".data))).state.desc 0 2).NArgs =
        ((bind_value 0 2 "v".data parser_out).desc 0 2).NArgs + 1
    ∧ ((bind_value 0 2 "v".data parser_out).desc 0 2).NArgs = 1 :=
  have h := consumed_count_step accept_all 0 Locals.init parser_out
  have h1 := consumed_count_step accept_all 0 Locals.init (bind_value 0 2 "v".data parser_out)
  ⟨(h.1 "--out=v".data 0 2).2.1,
    h.2.1 ["--out=v".data] 0 Locals.init (bind_value 0 2 "v".data parser_out) rfl,
    h1.2.2 "out".data "w".data 2 rfl rfl (by decide) (by decide) (by decide) (by decide) rfl
      (by decide) (by decide),
    by decide⟩

/-- C15, counterexample.  The option `--out` takes at most one value; after
`[prog, --out, v, --out, w]`, and after `[prog, --out=v, --out=w]`, the scan returns
normally and the consumed count of `--out` is 2. -/
theorem consumed_count_step_counterexample :
    (parser_out.desc 0 2).MaxNArgs = 1 ∧ (parser_out.desc 0 2).NArgs = 0
    ∧ (∃ Q, parse accept_all 0 [] "prog".data
          ["--out".data, "v".data, "--out".data, "w".data] parser_out = some (.ok true, Q)
        ∧ (Q.desc 0 2).NArgs = 2 ∧ (Q.desc 0 2).MaxNArgs = 1)
    ∧ (∃ Q, parse accept_all 0 [] "prog".data ["--out=v".data, "--out=w".data] parser_out =
          some (.ok true, Q)
        ∧ (Q.desc 0 2).NArgs = 2 ∧ (Q.desc 0 2).MaxNArgs = 1) := by
  refine ⟨by decide, by decide, ⟨_, rfl, by decide, by decide⟩, ⟨_, rfl, by decide, by decide⟩⟩

/-! ## Registration: one descriptor for each target -/

theorem map_find_append {κ : Type} [DecidableEq κ] (m m1 : List (κ × Nat)) (k : κ) :
    map_find (m ++ m1) k = (map_find m k).or (map_find m1 k) := by
  induction m with
  | nil => simp [map_find]
  | cons a m ih =>
    obtain ⟨k1, v⟩ := a
    simp only [List.cons_append, map_find]
    split
    · rfl
    · exact ih

theorem map_find_emplace {κ : Type} [DecidableEq κ] (m : List (κ × Nat)) (k : κ) (v : Nat)
    (k1 : κ) :
    map_find (map_emplace m k v) k1 =
      (map_find m k1).or (if k = k1 then some v else none) := by
  simp only [map_emplace]
  cases h : map_find m k with
  | some x =>
    simp only
    by_cases hk : k = k1
    · subst hk; rw [h]; rfl
    · rw [if_neg hk]; cases map_find m k1 <;> rfl
  | none =>
    simp only [map_find_append, map_find]

theorem map_find_emplace_self {κ : Type} [DecidableEq κ] (m : List (κ × Nat)) (k : κ)
    (v : Nat) (h : map_find m k = none) : map_find (map_emplace m k v) k = some v := by
  rw [map_find_emplace, h]; simp

theorem map_find_emplace_of_some {κ : Type} [DecidableEq κ] (m : List (κ × Nat)) (k : κ)
    (v : Nat) (k1 : κ) (x : Nat) (h : map_find m k1 = some x) :
    map_find (map_emplace m k v) k1 = some x := by
  rw [map_find_emplace, h]; rfl

theorem add_option_of_new (S : SubCommandDescriptor) (A : Str) (o : OptObj)
    (h : map_find S.OptionMap o.ref = none) :
    S.add_option A o =
      { S with
        OptionMap := map_emplace S.OptionMap o.ref S.ArgumentDescriptors.length
        ArgumentMap := map_emplace S.ArgumentMap A S.ArgumentDescriptors.length
        NonpositionalList := S.NonpositionalList ++ [S.ArgumentDescriptors.length]
        ArgumentDescriptors :=
          S.ArgumentDescriptors ++ [{ ArgumentDescriptor.new o with Options := [A] }] } := by
  simp only [SubCommandDescriptor.add_option, h]

theorem add_option_of_known (S : SubCommandDescriptor) (A : Str) (o : OptObj) (i : Nat)
    (h : map_find S.OptionMap o.ref = some i) :
    S.add_option A o =
      { S with
        ArgumentMap := map_emplace S.ArgumentMap A i
        ArgumentDescriptors :=
          S.ArgumentDescriptors.modify (fun D => { D with Options := D.Options ++ [A] }) i } := by
  simp only [SubCommandDescriptor.add_option, h]

theorem add_options_cons (S : SubCommandDescriptor) (c : Str × OptObj)
    (cs : List (Str × OptObj)) : add_options S (c :: cs) = add_options (S.add_option c.1 c.2) cs :=
  rfl

theorem card_toFinset_cons_filter (r : OptRef) (l : List OptRef) :
    (r :: l).dedup.length = (l.filter (fun x => decide (x ≠ r))).dedup.length + 1 := by
  rw [← List.card_toFinset, ← List.card_toFinset]
  have h : (r :: l).toFinset = insert r (l.filter (fun x => decide (x ≠ r))).toFinset := by
    ext x
    simp only [List.toFinset_cons, Finset.mem_insert, List.mem_toFinset, List.mem_filter,
      decide_eq_true_eq]
    by_cases hx : x = r
    · simp [hx]
    · simp [hx]
  rw [h, Finset.card_insert_of_not_mem]
  simp [List.mem_filter]

/-- The number of descriptors, and of entries of the nonpositional list, that a sequence
of calls creates is the number of distinct targets that were not registered before. -/
theorem add_options_length (calls : List (Str × OptObj)) :
    ∀ S : SubCommandDescriptor,
      (add_options S calls).ArgumentDescriptors.length =
        S.ArgumentDescriptors.length + (new_targets S calls).length
      ∧ (add_options S calls).NonpositionalList.length =
        S.NonpositionalList.length + (new_targets S calls).length := by
  induction calls with
  | nil => intro S; simp [add_options, new_targets]
  | cons c cs ih =>
    intro S
    rw [add_options_cons]
    cases h : map_find S.OptionMap c.2.ref with
    | some i =>
      have e := add_option_of_known S c.1 c.2 i h
      have hn : new_targets S (c :: cs) = new_targets (S.add_option c.1 c.2) cs := by
        simp only [new_targets, List.map_cons, List.filter_cons, h, Option.isNone_some,
          Bool.false_eq_true, if_false]
        rw [e]
      rw [hn]
      have := ih (S.add_option c.1 c.2)
      rw [this.1, this.2, e]
      simp
    | none =>
      have e := add_option_of_new S c.1 c.2 h
      have hf : ∀ r, (map_find (S.add_option c.1 c.2).OptionMap r).isNone =
          ((map_find S.OptionMap r).isNone && decide (r ≠ c.2.ref)) := by
        intro r
        rw [e]
        simp only [map_find_emplace]
        by_cases hr : c.2.ref = r
        · subst hr; simp [h]
        · have hr1 : r ≠ c.2.ref := fun x => hr x.symm
          cases map_find S.OptionMap r <;> simp [hr, hr1]
      have hn : (new_targets S (c :: cs)).length =
          (new_targets (S.add_option c.1 c.2) cs).length + 1 := by
        simp only [new_targets, List.map_cons, List.filter_cons, h, Option.isNone_none, if_true]
        rw [card_toFinset_cons_filter, List.filter_filter]
        have hfun : (fun r => (map_find (S.add_option c.1 c.2).OptionMap r).isNone) =
            (fun a => decide (a ≠ c.2.ref) && (map_find S.OptionMap a).isNone) := by
          funext r
          rw [hf r, Bool.and_comm]
        rw [hfun]
      rw [hn]
      have := ih (S.add_option c.1 c.2)
      rw [this.1, this.2, e]
      simp only [List.length_append, List.length_singleton]
      omega

theorem modify_append_singleton {α : Type} (f : α → α) (pre : List α) (D : α) :
    (pre ++ [D]).modify f pre.length = pre ++ [f D] := by
  induction pre with
  | nil => rfl
  | cons a l ih => simpa using ih

theorem add_options_known (o : OptObj) (aliases : List Str) :
    ∀ (S : SubCommandDescriptor) (pre : List ArgumentDescriptor) (D : ArgumentDescriptor),
      S.ArgumentDescriptors = pre ++ [D] → map_find S.OptionMap o.ref = some pre.length →
      (add_options S (aliases.map (fun a => (a, o)))).ArgumentDescriptors =
          pre ++ [{ D with Options := D.Options ++ aliases }]
      ∧ (add_options S (aliases.map (fun a => (a, o)))).NonpositionalList = S.NonpositionalList
      ∧ (∀ a, map_find S.ArgumentMap a = some pre.length →
          map_find (add_options S (aliases.map (fun a => (a, o)))).ArgumentMap a =
            some pre.length)
      ∧ (∀ a ∈ aliases, map_find S.ArgumentMap a = none →
          map_find (add_options S (aliases.map (fun a => (a, o)))).ArgumentMap a =
            some pre.length) := by
  induction aliases with
  | nil =>
    intro S pre D hS _
    simp [add_options, hS]
  | cons a0 as ih =>
    intro S pre D hS hO
    rw [List.map_cons, add_options_cons]
    have e := add_option_of_known S a0 o pre.length hO
    have hD : (S.add_option a0 o).ArgumentDescriptors =
        pre ++ [{ D with Options := D.Options ++ [a0] }] := by
      rw [e, hS]
      exact modify_append_singleton _ pre D
    have hO1 : map_find (S.add_option a0 o).OptionMap o.ref = some pre.length := by
      rw [e]; exact hO
    have hA : (S.add_option a0 o).ArgumentMap = map_emplace S.ArgumentMap a0 pre.length := by
      rw [e]
    have hN : (S.add_option a0 o).NonpositionalList = S.NonpositionalList := by rw [e]
    obtain ⟨h1, h2, h3, h4⟩ := ih (S.add_option a0 o) pre _ hD hO1
    refine ⟨?_, ?_, ?_, ?_⟩
    · rw [h1]; simp
    · rw [h2, hN]
    · intro a ha
      exact h3 a (by rw [hA]; exact map_find_emplace_of_some _ _ _ _ _ ha)
    · intro a ha hnone
      by_cases haa : a = a0
      · subst haa
        exact h3 a (by rw [hA]; exact map_find_emplace_self _ _ _ hnone)
      · have hmem : a ∈ as := by
          rcases List.mem_cons.1 ha with x | x
          · exact absurd x haa
          · exact x
        refine h4 a hmem ?_
        have hne : ¬ a0 = a := fun x => haa x.symm
        rw [hA, map_find_emplace, hnone, if_neg hne]
        rfl

/-- C14.  For every scope and every sequence of calls `add_option(alias, target)` on
it, the number of descriptors created, and of entries added to the nonpositional list,
is the number of distinct targets of the sequence that had no descriptor before, not
the number of aliases.  Registering one target that has no descriptor yet under the
aliases `a1..ak`, none of them bound before, creates exactly one descriptor, the last
one, and one entry of the nonpositional list; the alias list of the descriptor is
`a1..ak` in registration order and every `ai` resolves to the index of the
descriptor. -/
theorem one_descriptor_per_target (S : SubCommandDescriptor) :
    (∀ calls : List (Str × OptObj),
      (add_options S calls).ArgumentDescriptors.length =
        S.ArgumentDescriptors.length + (new_targets S calls).length
      ∧ (add_options S calls).NonpositionalList.length =
        S.NonpositionalList.length + (new_targets S calls).length)
    ∧ (∀ (o : OptObj) (aliases : List Str), aliases ≠ [] →
      map_find S.OptionMap o.ref = none →
      (∀ a ∈ aliases, map_find S.ArgumentMap a = none) →
      (add_options S (aliases.map (fun a => (a, o)))).ArgumentDescriptors =
          S.ArgumentDescriptors ++ [{ ArgumentDescriptor.new o with Options := aliases }]
      ∧ (add_options S (aliases.map (fun a => (a, o)))).NonpositionalList =
          S.NonpositionalList ++ [S.ArgumentDescriptors.length]
      ∧ (∀ a ∈ aliases,
          map_find (add_options S (aliases.map (fun a => (a, o)))).ArgumentMap a =
            some S.ArgumentDescriptors.length)) := by
  refine ⟨fun calls => add_options_length calls S, ?_⟩
  intro o aliases hne hO hA
  obtain ⟨a1, as, rfl⟩ : ∃ a1 as, aliases = a1 :: as := by
    cases aliases with
    | nil => exact absurd rfl hne
    | cons a1 as => exact ⟨a1, as, rfl⟩
  rw [List.map_cons, add_options_cons]
  have e := add_option_of_new S a1 o hO
  have hD : (S.add_option a1 o).ArgumentDescriptors =
      S.ArgumentDescriptors ++ [{ ArgumentDescriptor.new o with Options := [a1] }] := by rw [e]
  have hO1 : map_find (S.add_option a1 o).OptionMap o.ref =
      some S.ArgumentDescriptors.length := by
    rw [e]; exact map_find_emplace_self _ _ _ hO
  have hM : (S.add_option a1 o).ArgumentMap =
      map_emplace S.ArgumentMap a1 S.ArgumentDescriptors.length := by rw [e]
  have hN : (S.add_option a1 o).NonpositionalList =
      S.NonpositionalList ++ [S.ArgumentDescriptors.length] := by rw [e]
  obtain ⟨h1, h2, h3, h4⟩ := add_options_known o as (S.add_option a1 o) S.ArgumentDescriptors _
    hD hO1
  have hfirst : map_find (S.add_option a1 o).ArgumentMap a1 =
      some S.ArgumentDescriptors.length := by
    rw [hM]; exact map_find_emplace_self _ _ _ (hA a1 (List.mem_cons_self _ _))
  refine ⟨?_, ?_, ?_⟩
  · rw [h1]; rfl
  · rw [h2, hN]
  · intro a ha
    by_cases haa : a = a1
    · subst haa
      exact h3 a hfirst
    · have hmem : a ∈ as := by
        rcases List.mem_cons.1 ha with x | x
        · exact absurd x haa
        · exact x
      refine h4 a hmem ?_
      have hne1 : ¬ a1 = a := fun x => haa x.symm
      rw [hM, map_find_emplace, hA a ha, if_neg hne1]
      rfl

/-- C14, witness: on a fresh root scope the option at address 1 registered under `o`,
`out` and `output` gets one descriptor, at index 1, with the three aliases. -/
theorem one_descriptor_per_target_witness :
    (add_options (SubCommandDescriptor.new 0 none)
        (["o".data, "out".data, "output".data].map
          (fun a => (a, example_option 1 0 1)))).ArgumentDescriptors =
      (SubCommandDescriptor.new 0 none).ArgumentDescriptors ++
        [{ ArgumentDescriptor.new (example_option 1 0 1) with
            Options := ["o".data, "out".data, "output".data] }]
    ∧ (add_options (SubCommandDescriptor.new 0 none)
        (["o".data, "out".data, "output".data].map
          (fun a => (a, example_option 1 0 1)))).NonpositionalList =
      (SubCommandDescriptor.new 0 none).NonpositionalList ++
        [(SubCommandDescriptor.new 0 none).ArgumentDescriptors.length]
    ∧ (∀ a ∈ ["o".data, "out".data, "output".data],
        map_find (add_options (SubCommandDescriptor.new 0 none)
          (["o".data, "out".data, "output".data].map
            (fun a => (a, example_option 1 0 1)))).ArgumentMap a =
          some (SubCommandDescriptor.new 0 none).ArgumentDescriptors.length) :=
  (one_descriptor_per_target (SubCommandDescriptor.new 0 none)).2 (example_option 1 0 1)
    ["o".data, "out".data, "output".data] (by decide) (by decide) (by decide)

/-! ## The built-in aliases of a tree built through the facade -/

theorem builtin_mono {S : SubCommandDescriptor} {id : Nat} {K K1 : Str → Prop}
    (h : Builtin S id K) (hK : ∀ A, K A → K1 A) : Builtin S id K1 :=
  ⟨h.short, h.long, h.own, h.first, h.root, h.sub, fun A hA => by
    rcases h.keys A hA with x | x | x | x
    · exact Or.inl x
    · exact Or.inr (Or.inl x)
    · exact Or.inr (Or.inr (Or.inl x))
    · exact Or.inr (Or.inr (Or.inr (hK A x)))⟩

theorem builtin_congr {S S1 : SubCommandDescriptor} {id : Nat} {K : Str → Prop}
    (h : Builtin S id K) (hM : S1.ArgumentMap = S.ArgumentMap)
    (hD : S1.ArgumentDescriptors = S.ArgumentDescriptors) : Builtin S1 id K := by
  have hd : ∀ i, S1.desc i = S.desc i := fun i => by
    simp only [SubCommandDescriptor.desc, hD]
  exact ⟨by rw [hM]; exact h.short, by rw [hM]; exact h.long, by rw [hd]; exact h.own,
    by rw [hD]; exact h.first, fun e => by rw [hM, hd, hD]; exact h.root e,
    fun e i => by rw [hd]; exact h.sub e i, fun A hA => h.keys A (by rw [← hM]; exact hA)⟩

theorem desc_append_of_lt (l : List ArgumentDescriptor) (D : ArgumentDescriptor) (i : Nat)
    (h : i < l.length) : (l ++ [D]).getD i default = l.getD i default := by
  simp [List.getD_eq_getElem?_getD, List.getElem?_append_left h]

theorem Opt_append (l : List ArgumentDescriptor) (D : ArgumentDescriptor) (i : Nat) :
    ((l ++ [D]).getD i default).Opt = (l.getD i default).Opt ∨
      ((l ++ [D]).getD i default).Opt = D.Opt := by
  by_cases h : i < l.length
  · left; rw [desc_append_of_lt l D i h]
  · by_cases h1 : i = l.length
    · right
      subst h1
      simp [List.getD_eq_getElem?_getD]
    · left
      have h2 : l.length + 1 ≤ i := by omega
      simp [List.getD_eq_getElem?_getD, List.getElem?_eq_none, h2, Nat.le_of_succ_le h2]

theorem Opt_modify_options (l : List ArgumentDescriptor) (A : Str) (n i : Nat) :
    ((l.modify (fun D => { D with Options := D.Options ++ [A] }) n).getD i default).Opt =
      (l.getD i default).Opt := by
  simp only [List.getD_eq_getElem?_getD, getD_modify]
  split <;> rfl

theorem Opt_add_option (S : SubCommandDescriptor) (A : Str) (o : OptObj) (i : Nat) :
    (((S.add_option A o).desc i).Opt = (S.desc i).Opt ∨ ((S.add_option A o).desc i).Opt = o.ref)
    ∧ (i < S.ArgumentDescriptors.length → ((S.add_option A o).desc i).Opt = (S.desc i).Opt)
    ∧ S.ArgumentDescriptors.length ≤ (S.add_option A o).ArgumentDescriptors.length := by
  cases h : map_find S.OptionMap o.ref with
  | none =>
    rw [add_option_of_new S A o h]
    simp only [SubCommandDescriptor.desc]
    exact ⟨Opt_append _ _ i, fun hi => by rw [desc_append_of_lt _ _ i hi], by simp⟩
  | some n =>
    rw [add_option_of_known S A o n h]
    simp only [SubCommandDescriptor.desc]
    exact ⟨Or.inl (Opt_modify_options _ A n i), fun _ => Opt_modify_options _ A n i, by simp⟩

theorem Opt_add_option_positional (S : SubCommandDescriptor) (o : OptObj) (i : Nat) :
    (((S.add_option_positional o).desc i).Opt = (S.desc i).Opt ∨
      ((S.add_option_positional o).desc i).Opt = o.ref)
    ∧ (i < S.ArgumentDescriptors.length →
        ((S.add_option_positional o).desc i).Opt = (S.desc i).Opt)
    ∧ S.ArgumentDescriptors.length ≤ (S.add_option_positional o).ArgumentDescriptors.length
    ∧ (S.add_option_positional o).ArgumentMap = S.ArgumentMap := by
  cases h : map_find S.OptionMap o.ref with
  | none =>
    have e : S.add_option_positional o =
        { S with
          OptionMap := map_emplace S.OptionMap o.ref S.ArgumentDescriptors.length
          PositionalList := S.PositionalList ++ [S.ArgumentDescriptors.length]
          ArgumentDescriptors := S.ArgumentDescriptors ++ [ArgumentDescriptor.new o] } := by
      simp only [SubCommandDescriptor.add_option_positional, h]
    rw [e]
    simp only [SubCommandDescriptor.desc]
    exact ⟨Opt_append _ (ArgumentDescriptor.new o) i,
      fun hi => by rw [desc_append_of_lt _ _ i hi], by simp, trivial⟩
  | some n =>
    have e : S.add_option_positional o =
        { S with PositionalList := S.PositionalList ++ [n] } := by
      simp only [SubCommandDescriptor.add_option_positional, h]
    rw [e]
    exact ⟨Or.inl rfl, fun _ => rfl, Nat.le_refl _, rfl⟩

theorem ArgumentMap_add_option (S : SubCommandDescriptor) (A : Str) (o : OptObj) :
    ∃ n, (S.add_option A o).ArgumentMap = map_emplace S.ArgumentMap A n := by
  cases h : map_find S.OptionMap o.ref with
  | none => exact ⟨_, by rw [add_option_of_new S A o h]⟩
  | some n => exact ⟨n, by rw [add_option_of_known S A o n h]⟩

theorem of_caller_ne_version (r : OptRef) (h : r.of_caller = true) : r ≠ .version := by
  intro e; subst e; cases h

theorem builtin_add_option {S : SubCommandDescriptor} {id : Nat} {K : Str → Prop}
    (h : Builtin S id K) (A : Str) (o : OptObj) (ho : o.ref.of_caller = true) :
    Builtin (S.add_option A o) id (fun B => K B ∨ A = B) := by
  obtain ⟨n, hM⟩ := ArgumentMap_add_option S A o
  have hO := Opt_add_option S A o
  refine ⟨?_, ?_, ?_, ?_, ?_, ?_, ?_⟩
  · rw [hM]; exact map_find_emplace_of_some _ _ _ _ _ h.short
  · rw [hM]; exact map_find_emplace_of_some _ _ _ _ _ h.long
  · rw [(hO 0).2.1 h.first]; exact h.own
  · exact Nat.lt_of_lt_of_le h.first (hO 0).2.2
  · intro e
    obtain ⟨h1, h2, h3, h4⟩ := h.root e
    refine ⟨?_, ?_, ?_, Nat.lt_of_lt_of_le h4 (hO 0).2.2⟩
    · rw [hM]; exact map_find_emplace_of_some _ _ _ _ _ h1
    · rw [hM]; exact map_find_emplace_of_some _ _ _ _ _ h2
    · rw [(hO 1).2.1 h4]; exact h3
  · intro e i
    rcases (hO i).1 with x | x
    · rw [x]; exact h.sub e i
    · rw [x]; exact of_caller_ne_version _ ho
  · intro B hB
    rw [hM, map_find_emplace] at hB
    cases hf : map_find S.ArgumentMap B with
    | some x =>
      rcases h.keys B (by rw [hf]; simp) with y | y | y | y
      · exact Or.inl y
      · exact Or.inr (Or.inl y)
      · exact Or.inr (Or.inr (Or.inl y))
      · exact Or.inr (Or.inr (Or.inr (Or.inl y)))
    | none =>
      rw [hf] at hB
      by_cases hAB : A = B
      · exact Or.inr (Or.inr (Or.inr (Or.inr hAB)))
      · rw [if_neg hAB] at hB
        exact absurd rfl hB

theorem builtin_add_option_positional {S : SubCommandDescriptor} {id : Nat} {K : Str → Prop}
    (h : Builtin S id K) (o : OptObj) (ho : o.ref.of_caller = true) :
    Builtin (S.add_option_positional o) id K := by
  have hO := Opt_add_option_positional S o
  have hM := (hO 0).2.2.2
  refine ⟨?_, ?_, ?_, ?_, ?_, ?_, ?_⟩
  · rw [hM]; exact h.short
  · rw [hM]; exact h.long
  · rw [(hO 0).2.1 h.first]; exact h.own
  · exact Nat.lt_of_lt_of_le h.first (hO 0).2.2.1
  · intro e
    obtain ⟨h1, h2, h3, h4⟩ := h.root e
    refine ⟨?_, ?_, ?_, Nat.lt_of_lt_of_le h4 (hO 0).2.2.1⟩
    · rw [hM]; exact h1
    · rw [hM]; exact h2
    · rw [(hO 1).2.1 h4]; exact h3
  · intro e i
    rcases (hO i).1 with x | x
    · rw [x]; exact h.sub e i
    · rw [x]; exact of_caller_ne_version _ ho
  · intro B hB
    rw [hM] at hB
    exact h.keys B hB

theorem add_help_eq (S : SubCommandDescriptor) (id : Nat) (hO : S.OptionMap = [])
    (hM : S.ArgumentMap = []) (hD : S.ArgumentDescriptors = []) :
    ((S.add_option "h".data (Toggle (.help id) "Show this help messages".data)).add_option
        "help".data (Toggle (.help id) "Show this help messages".data)).ArgumentMap =
      [("h".data, 0), ("help".data, 0)]
    ∧ ((S.add_option "h".data (Toggle (.help id) "Show this help messages".data)).add_option
        "help".data (Toggle (.help id) "Show this help messages".data)).ArgumentDescriptors =
      [{ ArgumentDescriptor.new (Toggle (.help id) "Show this help messages".data) with
          Options := ["h".data, "help".data] }] := by
  have h1 : map_find ([] : List (OptRef × Nat)) (.help id) = none := rfl
  have h2 : map_find (map_emplace ([] : List (OptRef × Nat)) (.help id) 0) (.help id) =
      some 0 := map_find_emplace_self _ _ _ h1
  have e1 := add_option_of_new S "h".data
    (Toggle (.help id) "Show this help messages".data) (by rw [hO]; exact h1)
  rw [e1, hO, hM, hD]
  rw [add_option_of_known _ "help".data (Toggle (.help id) "Show this help messages".data) 0
    (by exact h2)]
  exact ⟨rfl, rfl⟩

theorem new_scope_eq (id : Nat) (SC : Option SubCommand) :
    (SubCommandDescriptor.new id SC).ArgumentMap = [("h".data, 0), ("help".data, 0)]
    ∧ (SubCommandDescriptor.new id SC).ArgumentDescriptors =
        [{ ArgumentDescriptor.new (Toggle (.help id) "Show this help messages".data) with
            Options := ["h".data, "help".data] }] :=
  add_help_eq _ id rfl rfl rfl

theorem builtin_new_scope (id : Nat) (SC : Option SubCommand) (hid : id ≠ 0) :
    Builtin (SubCommandDescriptor.new id SC) id (fun _ => False) := by
  obtain ⟨hM, hD⟩ := new_scope_eq id SC
  refine ⟨?_, ?_, ?_, ?_, ?_, ?_, ?_⟩
  · rw [hM]; rfl
  · rw [hM]; rfl
  · simp only [SubCommandDescriptor.desc, hD]; rfl
  · rw [hD]; exact Nat.zero_lt_one
  · intro e; exact absurd e hid
  · intro _ i
    simp only [SubCommandDescriptor.desc, hD]
    cases i with
    | zero => intro h; cases h
    | succ i => intro h; cases h
  · intro A hA
    rw [hM] at hA
    simp only [map_find] at hA
    by_cases h1 : "h".data = A
    · exact Or.inl h1.symm
    · by_cases h2 : "help".data = A
      · exact Or.inr (Or.inl h2.symm)
      · rw [if_neg h1, if_neg h2] at hA
        exact absurd rfl hA

theorem facadeInv_new : FacadeInv ArgumentParser.new (fun _ _ => False) := by
  refine ⟨by decide, ?_⟩
  intro id hid
  have hid0 : id = 0 := by
    have : ArgumentParser.new.SubCommandDescriptors.length = 1 := rfl
    omega
  subst hid0
  have hM : (ArgumentParser.new.scope 0).ArgumentMap =
      [("h".data, 0), ("help".data, 0), ("v".data, 1), ("version".data, 1)] := by decide
  refine ⟨by decide, by decide, by decide, by decide, fun _ => by decide,
    fun e => absurd rfl e, ?_⟩
  intro A hA
  rw [hM] at hA
  simp only [map_find] at hA
  by_cases h1 : "h".data = A
  · exact Or.inl h1.symm
  · by_cases h2 : "help".data = A
    · exact Or.inr (Or.inl h2.symm)
    · by_cases h3 : "v".data = A
      · exact Or.inr (Or.inr (Or.inl ⟨rfl, Or.inl h3.symm⟩))
      · by_cases h4 : "version".data = A
        · exact Or.inr (Or.inr (Or.inl ⟨rfl, Or.inr h4.symm⟩))
        · rw [if_neg h1, if_neg h2, if_neg h3, if_neg h4] at hA
          exact absurd rfl hA

theorem getD_append_singleton {α : Type} (l : List α) (x d : α) (i : Nat) :
    (l ++ [x]).getD i d =
      if i < l.length then l.getD i d else if i = l.length then x else d := by
  by_cases h : i < l.length
  · simp [List.getD_eq_getElem?_getD, List.getElem?_append_left h, h]
  · by_cases h1 : i = l.length
    · subst h1
      simp [List.getD_eq_getElem?_getD]
    · have h2 : l.length + 1 ≤ i := by omega
      simp [List.getD_eq_getElem?_getD, List.getElem?_eq_none, h2, h, h1]

theorem scope_add_child (p c : Nat) (Args : List Str) (Q : ArgumentParser) (id : Nat) :
    ((add_child p c Args Q).scope id).ArgumentMap = (Q.scope id).ArgumentMap
    ∧ ((add_child p c Args Q).scope id).ArgumentDescriptors =
        (Q.scope id).ArgumentDescriptors := by
  simp only [add_child, scope_modify_scope]
  constructor <;> (repeat' split) <;> rfl

theorem scope_begin_subcommand (P : ArgumentParser) (SC : SubCommand) (Args : List Str)
    (id : Nat) :
    (P.begin_subcommand SC Args).SubCommandDescriptors.length =
        P.SubCommandDescriptors.length + 1
    ∧ ((P.begin_subcommand SC Args).scope id).ArgumentMap =
        (if id < P.SubCommandDescriptors.length then P.scope id
          else if id = P.SubCommandDescriptors.length then
            SubCommandDescriptor.new P.SubCommandDescriptors.length (some SC)
          else default).ArgumentMap
    ∧ ((P.begin_subcommand SC Args).scope id).ArgumentDescriptors =
        (if id < P.SubCommandDescriptors.length then P.scope id
          else if id = P.SubCommandDescriptors.length then
            SubCommandDescriptor.new P.SubCommandDescriptors.length (some SC)
          else default).ArgumentDescriptors := by
  refine ⟨?_, ?_, ?_⟩
  · simp [ArgumentParser.begin_subcommand, add_child]
  · unfold ArgumentParser.begin_subcommand
    simp only
    rw [(scope_add_child _ _ Args _ id).1]
    simp only [ArgumentParser.scope]
    rw [getD_append_singleton]
  · unfold ArgumentParser.begin_subcommand
    simp only
    rw [(scope_add_child _ _ Args _ id).2]
    simp only [ArgumentParser.scope]
    rw [getD_append_singleton]

theorem scope_end_subcommand (P : ArgumentParser) :
    P.end_subcommand.SubCommandDescriptors = P.SubCommandDescriptors := by
  simp only [ArgumentParser.end_subcommand]
  split <;> rfl

theorem facadeInv_apply (P : ArgumentParser) (K : Str → Nat → Prop) (op : FacadeOp)
    (h : FacadeInv P K) (ho : op.of_caller = true) :
    FacadeInv (op.apply P)
      (fun A id => K A id ∨ (P.CurrentSubCommandId = id ∧ op.registers_alias A = true)) := by
  cases op with
  | add_option A o =>
    refine ⟨by simpa [FacadeOp.apply, ArgumentParser.add_option] using h.pos, ?_⟩
    intro id hid
    have hid1 : id < P.SubCommandDescriptors.length := by
      simpa [FacadeOp.apply, ArgumentParser.add_option] using hid
    simp only [FacadeOp.apply, ArgumentParser.add_option, scope_modify_scope]
    split
    · rename_i hc
      refine builtin_mono (builtin_add_option (h.scopes id hid1) A o ho) ?_
      intro B hB
      rcases hB with x | x
      · exact Or.inl x
      · exact Or.inr ⟨hc.1, by simp [FacadeOp.registers_alias, x]⟩
    · exact builtin_mono (h.scopes id hid1) (fun _ x => Or.inl x)
  | add_option_positional o =>
    refine ⟨by simpa [FacadeOp.apply, ArgumentParser.add_option_positional] using h.pos, ?_⟩
    intro id hid
    have hid1 : id < P.SubCommandDescriptors.length := by
      simpa [FacadeOp.apply, ArgumentParser.add_option_positional] using hid
    simp only [FacadeOp.apply, ArgumentParser.add_option_positional, scope_modify_scope]
    split
    · exact builtin_mono (builtin_add_option_positional (h.scopes id hid1) o ho)
        (fun _ x => Or.inl x)
    · exact builtin_mono (h.scopes id hid1) (fun _ x => Or.inl x)
  | begin_subcommand SC Args =>
    have hb := scope_begin_subcommand P SC Args
    refine ⟨by simp only [FacadeOp.apply]; rw [(hb 0).1]; exact Nat.succ_pos _, ?_⟩
    intro id hid
    simp only [FacadeOp.apply] at hid ⊢
    rw [(hb id).1] at hid
    by_cases hlt : id < P.SubCommandDescriptors.length
    · refine builtin_congr (builtin_mono (h.scopes id hlt) (fun _ x => Or.inl x)) ?_ ?_
      · rw [(hb id).2.1, if_pos hlt]
      · rw [(hb id).2.2, if_pos hlt]
    · have heq : id = P.SubCommandDescriptors.length := by omega
      have hne : id ≠ 0 := by have := h.pos; omega
      have hn := builtin_new_scope id (some SC) hne
      refine builtin_congr (builtin_mono hn (fun _ x => absurd x (fun y => y))) ?_ ?_
      · rw [(hb id).2.1, if_neg hlt, if_pos heq, ← heq]
      · rw [(hb id).2.2, if_neg hlt, if_pos heq, ← heq]
  | end_subcommand =>
    have he := scope_end_subcommand P
    refine ⟨by simp only [FacadeOp.apply]; rw [he]; exact h.pos, ?_⟩
    intro id hid
    simp only [FacadeOp.apply] at hid ⊢
    rw [he] at hid
    have hsc : P.end_subcommand.scope id = P.scope id := by
      simp only [ArgumentParser.scope, he]
    rw [hsc]
    exact builtin_mono (h.scopes id hid) (fun _ x => Or.inl x)

theorem facadeInv_build_from (ops : List FacadeOp) :
    ∀ (P : ArgumentParser) (K : Str → Nat → Prop), FacadeInv P K →
      (∀ op ∈ ops, op.of_caller = true) →
      FacadeInv (build_from P ops) (fun A id => K A id ∨ registers A id P ops = true) := by
  induction ops with
  | nil =>
    intro P K h _
    exact ⟨h.pos, fun id hid => builtin_mono (h.scopes id hid) (fun _ x => Or.inl x)⟩
  | cons op ops ih =>
    intro P K h hops
    have h1 := facadeInv_apply P K op h (hops op (List.mem_cons_self _ _))
    have h2 := ih (op.apply P) _ h1 (fun x hx => hops x (List.mem_cons_of_mem _ hx))
    refine ⟨h2.pos, fun id hid => builtin_mono (h2.scopes id hid) ?_⟩
    intro A hA
    rcases hA with (x | ⟨x, y⟩) | x
    · exact Or.inl x
    · right
      simp [registers, x, y]
    · right
      simp [registers, x]

/-- C13.  For every tree built through the facade, the constructor followed by any
sequence of `add_option`, `begin_subcommand` and `end_subcommand` calls with option
objects of the caller, and every scope `id` of it: the aliases `h` and `help` resolve
to the first descriptor of the scope, whose option is the help toggle of that scope;
in the root `v` and `version` resolve to the descriptor of the version toggle; in a
subcommand scope no descriptor is the version toggle, the aliases `v` and `version`
are bound only if a call registered them in that scope, and so, when none did, the scan
of `[prog, sub, -v]` for a plain alias `sub` of the subcommand returns the error
`unknown option: v`. -/
theorem builtin_aliases (ops : List FacadeOp) (hops : ∀ op ∈ ops, op.of_caller = true)
    (id : Nat) (hid : id < (build ops).SubCommandDescriptors.length) :
    map_find ((build ops).scope id).ArgumentMap "h".data = some 0
    ∧ map_find ((build ops).scope id).ArgumentMap "help".data = some 0
    ∧ ((build ops).desc id 0).Opt = .help id
    ∧ (id = 0 → map_find ((build ops).scope id).ArgumentMap "v".data = some 1
        ∧ map_find ((build ops).scope id).ArgumentMap "version".data = some 1
        ∧ ((build ops).desc id 1).Opt = .version)
    ∧ (id ≠ 0 → ∀ i, ((build ops).desc id i).Opt ≠ .version)
    ∧ (id ≠ 0 → ∀ A ∈ ["v".data, "version".data],
        registers A id ArgumentParser.new ops = false →
        map_find ((build ops).scope id).ArgumentMap A = none)
    ∧ (id ≠ 0 → registers "v".data id ArgumentParser.new ops = false →
        ∀ (conv : Conv) (prog s : Str), plain s →
        map_find ((build ops).scope 0).SubCommandMap s = some id →
        parse conv 0 [] prog [s, "-v".data] (build ops) =
          some (.error ⟨.InvalidArgument, "unknown option: v".data⟩,
            parse_enter id [prog] s (select id (parse_enter 0 [] prog (build ops))))) := by
  have inv := facadeInv_build_from ops ArgumentParser.new _ facadeInv_new hops
  have hb := inv.scopes id hid
  have hkeys : id ≠ 0 → ∀ A ∈ ["v".data, "version".data],
      registers A id ArgumentParser.new ops = false →
      map_find ((build ops).scope id).ArgumentMap A = none := by
    intro hne A hA hreg
    by_contra hsome
    rcases hb.keys A hsome with x | x | x | x
    · subst x; simp at hA
    · subst x; revert hA; decide
    · exact hne x.1
    · rcases x with x | x
      · exact x
      · rw [hreg] at x; cases x
  refine ⟨hb.short, hb.long, hb.own, ?_, hb.sub, hkeys, ?_⟩
  · intro e
    obtain ⟨h1, h2, h3, _⟩ := hb.root e
    exact ⟨h1, h2, h3⟩
  · intro hne hreg conv prog s hs hfind
    have hv := hkeys hne "v".data (by simp) hreg
    have hreg0 := sameRegistration_parse_enter 0 [] prog (build ops)
    have hnemp : ((build ops).scope 0).SubCommandMap.isEmpty = false := by
      cases hm : ((build ops).scope 0).SubCommandMap with
      | nil => rw [hm] at hfind; simp [map_find] at hfind
      | cons a l => rfl
    have hreg2 : SameRegistration
        (parse_enter id [prog] s (select id (parse_enter 0 [] prog (build ops)))) (build ops) :=
      (sameRegistration_parse_enter _ _ _ _).trans ((sameRegistration_select _ _).trans hreg0)
    simp only [parse]
    rw [parse_loop, parse_body_literal conv 0 Locals.init _ s (Or.inr ⟨hs, rfl⟩)]
    simp only [Locals.init, hreg0.SubCommandMap, hnemp, hfind, Bool.not_false, Bool.and_self,
      if_true, Nat.zero_add]
    rw [scope_select, ProgramNames_parse_enter 0 [] prog (build ops) inv.pos]
    rw [parse_loop, parse_body_short conv id _ _ 'v' [] rfl (by decide)]
    simp only [consume_short_options, List.drop_succ_cons, List.drop_zero,
      consume_short_options_loop, pending_default, consume_short_option_eq]
    rw [consume_long_option_unknown id ['v'] _
      (by rw [List.nil_append, hreg2.ArgumentMap]; exact hv)]
    rfl

/-- C13, witness: the tree of the dispatch example, with a `-v` of the caller in the
subcommand `run` and none in `build`, whose scope is stored at index 1. -/
theorem builtin_aliases_witness :
    map_find ((build example_calls).scope 1).ArgumentMap "h".data = some 0
    ∧ map_find ((build example_calls).scope 1).ArgumentMap "help".data = some 0
    ∧ ((build example_calls).desc 1 0).Opt = .help 1
    ∧ (∀ i, ((build example_calls).desc 1 i).Opt ≠ .version)
    ∧ map_find ((build example_calls).scope 1).ArgumentMap "v".data = none
    ∧ parse accept_all 0 [] "prog".data ["build".data, "-v".data] (build example_calls) =
        some (.error ⟨.InvalidArgument, "unknown option: v".data⟩,
          parse_enter 1 ["prog".data] "build".data
            (select 1 (parse_enter 0 [] "prog".data (build example_calls)))) :=
  have h := builtin_aliases example_calls (by decide) 1 (by decide)
  ⟨h.1, h.2.1, h.2.2.1, h.2.2.2.2.1 (by decide),
    h.2.2.2.2.2.1 (by decide) "v".data (by decide) (by decide),
    h.2.2.2.2.2.2 (by decide) (by decide) accept_all "prog".data "build".data (by decide)
      (by decide)⟩

/-! ## A value-taking option inside a short cluster -/

/-- C16 (amended).  In a short cluster `-c a1...ak` (`k ≥ 1`) in which `c` resolves to a
value-taking descriptor and `a1..ak` to zero-arg flags, the descriptor of `c` does not
stay the live target: as `a1` is read the pending default of `c` is run (its default
operation is invoked when its count is 0), the defaults of the flags are invoked, and
after the cluster no descriptor is live, so the tokens that follow are scanned as if
they came first and a plain token `v` is not applied to the descriptor of `c`. -/
theorem cluster_value_option_not_last (conv : Conv) (id : Nat) (pre : List Str) (prog : Str)
    (P : ArgumentParser) (c : Char) (flags : Str) (rest : List Str) (jc : Nat)
    (hc : map_find (P.scope id).ArgumentMap [c] = some jc)
    (hcmax : (P.desc id jc).MaxNArgs ≠ 0) (hdash : c ≠ '-') (hne : flags ≠ [])
    (hflags : ∀ a ∈ flags, ∃ j, map_find (P.scope id).ArgumentMap [a] = some j ∧
      (P.desc id j).MaxNArgs = 0) :
    parse conv id pre prog (('-' :: c :: flags) :: rest) P =
        parse_loop conv id Locals.init
          (fire_flags id flags (pending_default id (some jc) (parse_enter id pre prog P))) rest
    ∧ ((P.desc id jc).NArgs = 0 →
        (fire_flags id flags (pending_default id (some jc) (parse_enter id pre prog P))).Calls =
          P.Calls ++ Call.default_argument (P.desc id jc).Opt ::
            flags.map (fun a => Call.default_argument
              (P.desc id ((map_find (P.scope id).ArgumentMap [a]).getD 0)).Opt)) := by
  have hreg := sameRegistration_parse_enter id pre prog P
  have hreg1 := (sameRegistration_pending_default id (some jc) (parse_enter id pre prog P)).trans
    hreg
  refine ⟨?_, ?_⟩
  · obtain ⟨a, as, rfl⟩ : ∃ a as, flags = a :: as := by
      cases flags with
      | nil => exact absurd rfl hne
      | cons a as => exact ⟨a, as, rfl⟩
    have hflags1 : ∀ x ∈ a :: as, ∃ j,
        map_find ((pending_default id (some jc) (parse_enter id pre prog P)).scope id).ArgumentMap
          [x] = some j ∧
        ((pending_default id (some jc) (parse_enter id pre prog P)).desc id j).MaxNArgs = 0 := by
      intro x hx
      obtain ⟨j, hj, hm⟩ := hflags x hx
      exact ⟨j, by rw [hreg1.ArgumentMap]; exact hj, by rw [hreg1.MaxNArgs]; exact hm⟩
    have key := consume_short_options_loop_flags id (a :: as) []
      (pending_default id (some jc) (parse_enter id pre prog P)) hflags1
    simp only [parse]
    rw [parse_loop, parse_body_short conv id Locals.init _ c (a :: as) rfl hdash]
    simp only [consume_short_options, List.drop_succ_cons, List.drop_zero, Locals.init]
    rw [consume_short_options_loop]
    simp only [pending_default, consume_short_option_eq]
    rw [consume_long_option_found id [c] _ jc (by rw [hreg.ArgumentMap]; exact hc),
      if_neg (by rw [hreg.MaxNArgs]; exact hcmax)]
    simp only
    have step : consume_short_options_loop id (a :: as) (some jc) (parse_enter id pre prog P) =
        consume_short_options_loop id ((a :: as) ++ []) none
          (pending_default id (some jc) (parse_enter id pre prog P)) := by
      simp only [List.append_nil]
      rw [consume_short_options_loop, consume_short_options_loop]
      rfl
    rw [step, key]
    simp only [consume_short_options_loop]
    rfl
  · intro hN
    have hN0 : ((parse_enter id pre prog P).desc id jc).NArgs = 0 := by
      rw [desc_parse_enter]; exact hN
    have hpd : pending_default id (some jc) (parse_enter id pre prog P) =
        default_value id jc (parse_enter id pre prog P) := by
      simp only [pending_default, hN0, if_true]
    rw [Calls_fire_flags, hpd, Calls_default_value]
    have hregd := (sameRegistration_default_value id jc (parse_enter id pre prog P)).trans hreg
    have hC : (parse_enter id pre prog P).Calls = P.Calls := rfl
    rw [hC, hreg.Opt, List.append_assoc, List.singleton_append]
    congr 2
    apply List.map_congr_left
    intro a _
    rw [hregd.ArgumentMap, hregd.Opt]

/-- C16, witness: `-cab` on the clustering parser, `c` taking a value: the defaults of
`c`, `a` and `b` are invoked and the scan goes on with no live descriptor. -/
theorem cluster_value_option_not_last_witness :
    parse accept_all 0 [] "prog".data ["-cab".data, "file.txt".data] parser_cluster =
        parse_loop accept_all 0 Locals.init
          (fire_flags 0 "ab".data
            (pending_default 0 (some 4) (parse_enter 0 [] "prog".data parser_cluster)))
          ["file.txt".data]
    ∧ (fire_flags 0 "ab".data
          (pending_default 0 (some 4) (parse_enter 0 [] "prog".data parser_cluster))).Calls =
        [Call.default_argument (.user 3), Call.default_argument (.user 1),
          Call.default_argument (.user 2)] :=
  have h := cluster_value_option_not_last accept_all 0 [] "prog".data parser_cluster 'c'
    "ab".data ["file.txt".data] 4 (by decide) (by decide) (by decide) (by decide) (by decide)
  ⟨h.1, h.2 (by decide)⟩

/-- C16, counterexample.  `[prog, -ca, file.txt]` with `c` taking one value and `a` a
flag: the value operation of `c` is never invoked; the default operations of `c` and
of `a` are, and `file.txt` is scanned as a positional, of which there is none. -/
theorem cluster_value_option_not_last_counterexample :
    (∃ j, map_find (parser_cluster.scope 0).ArgumentMap ['c'] = some j ∧
        (parser_cluster.desc 0 j).MaxNArgs = 1 ∧ (parser_cluster.desc 0 j).Opt = .user 3)
    ∧ (∃ j, map_find (parser_cluster.scope 0).ArgumentMap ['a'] = some j ∧
        (parser_cluster.desc 0 j).MaxNArgs = 0 ∧ (parser_cluster.desc 0 j).Opt = .user 1)
    ∧ ∃ Q, parse accept_all 0 [] "prog".data ["-ca".data, "file.txt".data] parser_cluster =
          some (.error PositionalOverflow, Q)
        ∧ Q.Calls = [Call.default_argument (.user 3), Call.default_argument (.user 1)] := by
  refine ⟨⟨4, by decide, by decide, by decide⟩, ⟨2, by decide, by decide, by decide⟩,
    ⟨_, rfl, by decide⟩⟩

/-! ## Dispatch after the escape marker -/

/-- C17 (amended).  The escape marker `--` ends the reading of options, not the
dispatch: for a scope in which the token `s`, of any spelling, is linked to a child,
the scan of `[prog, --, s] ++ rest` fires the selection callback of the child and
returns what the scan of `rest` in the child scope returns, from a fresh state that is
not escaped, exactly as `[prog, s] ++ rest` does for a plain `s`. -/
theorem dispatch_after_escape (conv : Conv) (id : Nat) (pre : List Str) (prog : Str)
    (P : ArgumentParser) (s : Str) (rest : List Str) (Offset : Nat)
    (hid : id < P.SubCommandDescriptors.length)
    (hfind : map_find (P.scope id).SubCommandMap s = some Offset) :
    parse conv id pre prog (['-', '-'] :: s :: rest) P =
        parse conv (id + Offset) (pre ++ [prog]) s rest
          (select (id + Offset) (parse_enter id pre prog P))
    ∧ (∀ sc, (P.scope (id + Offset)).SC = some sc →
        (select (id + Offset) (parse_enter id pre prog P)).Calls =
          P.Calls ++ [Call.select sc.addr]) := by
  have hreg := sameRegistration_parse_enter id pre prog P
  have hne : (P.scope id).SubCommandMap.isEmpty = false := by
    cases hm : (P.scope id).SubCommandMap with
    | nil => rw [hm] at hfind; simp [map_find] at hfind
    | cons a l => rfl
  refine ⟨?_, ?_⟩
  · simp only [parse]
    rw [parse_loop, parse_body_escape conv id Locals.init _ rfl]
    simp only
    rw [parse_loop, parse_body_literal conv id _ _ s (Or.inl rfl)]
    simp only [Locals.init, hreg.SubCommandMap, hne, hfind, Bool.not_false, Bool.and_self,
      if_true]
    rw [scope_select, ProgramNames_parse_enter id pre prog P hid]
  · intro sc hsc
    have : ((parse_enter id pre prog P).scope (id + Offset)).SC = some sc := by
      rw [hreg.SC]; exact hsc
    simp only [select, this]
    rfl

/-- C17, witness: `[prog, --, build, --opt, 1]` dispatches to `build` and binds its
`--opt`. -/
theorem dispatch_after_escape_witness :
    parse accept_all 0 [] "prog".data ["--".data, "build".data, "--opt".data, "1".data]
        parser_build =
      parse accept_all 1 ["prog".data] "build".data ["--opt".data, "1".data]
        (select 1 (parse_enter 0 [] "prog".data parser_build))
    ∧ (∀ sc, (parser_build.scope 1).SC = some sc →
        (select 1 (parse_enter 0 [] "prog".data parser_build)).Calls =
          parser_build.Calls ++ [Call.select sc.addr]) :=
  dispatch_after_escape accept_all 0 [] "prog".data parser_build "build".data
    ["--opt".data, "1".data] 1 (by decide) (by decide)

/-- C17, counterexample.  The root has a positional and the child `build`: in
`[prog, --, build]` the token `build` is not consumed as the positional, the selection
callback of the child is fired and the scan ends in the child scope. -/
theorem dispatch_after_escape_counterexample :
    map_find (parser_build_file.scope 0).SubCommandMap "build".data = some 1
    ∧ (parser_build_file.scope 0).PositionalList = [2]
    ∧ ∃ Q, parse accept_all 0 [] "prog".data ["--".data, "build".data] parser_build_file =
          some (.ok true, Q)
        ∧ Q.Calls = [Call.select 10]
        ∧ (Q.desc 0 2).NArgs = 0
        ∧ (Q.scope 1).ProgramNames = ["prog".data, "build".data] := by
  refine ⟨by decide, by decide, ⟨_, rfl, by decide, by decide, by decide⟩⟩

/-! ## The pending default at the end of the input -/

/-- C18 (amended).  At the end of the input a descriptor `d` that is still the live
target has its default operation invoked, once and before the outcome is decided,
exactly when its consumed count is 0, whatever its `min_nargs` is; with a count that
is not 0, also one below `min_nargs`, no default operation is invoked.  So the scan of
`[prog, --A]` for a value-taking `A` whose count is 0 invokes the default of `A`. -/
theorem pending_default_at_end (conv : Conv) (id : Nat) (L : Locals) (P : ArgumentParser)
    (d : Nat) (hL : L.CurrentDesc = some d) :
    parse_loop conv id L P [] = (parse_tail id (some d) P).map (fun r => (.ok r.1, r.2))
    ∧ ((P.desc id d).NArgs = 0 →
        parse_tail id (some d) P = parse_tail id none (default_value id d P)
        ∧ (default_value id d P).Calls = P.Calls ++ [Call.default_argument (P.desc id d).Opt])
    ∧ ((P.desc id d).NArgs ≠ 0 → parse_tail id (some d) P = parse_tail id none P)
    ∧ (∀ pre prog A, A ≠ [] → '=' ∉ A →
        map_find (P.scope id).ArgumentMap A = some d → (P.desc id d).MaxNArgs ≠ 0 →
        (P.desc id d).NArgs = 0 →
        parse conv id pre prog ['-' :: '-' :: A] P =
          (parse_tail id none (default_value id d (parse_enter id pre prog P))).map
            (fun r => (.ok r.1, r.2))) := by
  refine ⟨?_, ?_, ?_, ?_⟩
  · simp only [parse_loop, hL]
  · intro h
    refine ⟨?_, Calls_default_value id d P⟩
    simp only [parse_tail, pending_default, h, if_true]
  · intro h
    exact parse_tail_live id d P h
  · intro pre prog A hA hEq hFind hMax hN
    have hreg := sameRegistration_parse_enter id pre prog P
    simp only [parse]
    rw [parse_loop, parse_body_long conv id Locals.init _ A rfl hA]
    simp only [Locals.init, pending_default]
    rw [consume_long_option_with_argument_plain conv id A _ hEq,
      consume_long_option_found id A _ d (by rw [hreg.ArgumentMap]; exact hFind),
      if_neg (by rw [hreg.MaxNArgs]; exact hMax)]
    simp only [parse_loop, parse_tail, pending_default, desc_parse_enter, hN, if_true]

/-- C18, witness: `[prog, --out]` on the parser with the single-valued `--out`. -/
theorem pending_default_at_end_witness :
    parse_loop accept_all 0 { Locals.init with CurrentDesc := some 2 } parser_out [] =
        (parse_tail 0 (some 2) parser_out).map (fun r => (.ok r.1, r.2))
    ∧ (parse_tail 0 (some 2) parser_out = parse_tail 0 none (default_value 0 2 parser_out)
        ∧ (default_value 0 2 parser_out).Calls =
            parser_out.Calls ++ [Call.default_argument (.user 1)])
    ∧ parse accept_all 0 [] "prog".data ["--out".data] parser_out =
        (parse_tail 0 none (default_value 0 2 (parse_enter 0 [] "prog".data parser_out))).map
          (fun r => (.ok r.1, r.2)) :=
  have h := pending_default_at_end accept_all 0 { Locals.init with CurrentDesc := some 2 }
    parser_out 2 rfl
  ⟨h.1, h.2.1 (by decide),
    h.2.2.2 [] "prog".data "out".data (by decide) (by decide) (by decide) (by decide)
      (by decide)⟩

/-- C18, counterexample.  The positional takes between two and three values; after
`[prog, x]` it is the live target with a consumed count of 1, below its `min_nargs` of
2, and at the end of the input its default operation is not invoked: the only call is
the value operation on `x`, and the outcome is the help. -/
theorem pending_default_at_end_counterexample :
    (∃ L1 P1, scan accept_all 0 Locals.init (parse_enter 0 [] "prog".data parser_min_two)
          ["x".data] = some (0, L1, P1)
        ∧ L1.CurrentDesc = some 2 ∧ (P1.desc 0 2).NArgs = 1 ∧ (P1.desc 0 2).MinNArgs = 2
        ∧ (P1.desc 0 2).Opt = .user 1)
    ∧ ∃ Q, parse accept_all 0 [] "prog".data ["x".data] parser_min_two = some (.ok false, Q)
        ∧ Q.Calls = [Call.argument (.user 1) "x".data] := by
  refine ⟨⟨_, _, rfl, by decide, by decide, by decide, by decide⟩, ⟨_, rfl, by decide⟩⟩

/-! ## Word wrap -/

theorem last_index_none (p : Char → Bool) (s : Str) (h : last_index p s = none) :
    ∀ x ∈ s, p x = false := by
  induction s with
  | nil => intro x hx; cases hx
  | cons c cs ih =>
    simp only [last_index] at h
    cases h1 : last_index p cs with
    | some j => rw [h1] at h; cases h
    | none =>
      rw [h1] at h
      have hc : p c = false := by
        cases hp : p c with
        | true => rw [hp] at h; simp at h
        | false => rfl
      intro x hx
      rcases List.mem_cons.1 hx with e | e
      · rw [e]; exact hc
      · exact ih h1 x e

theorem last_index_some (p : Char → Bool) (s : Str) :
    ∀ i, last_index p s = some i →
      ∃ a c b, s = a ++ c :: b ∧ a.length = i ∧ p c = true ∧ ∀ x ∈ b, p x = false := by
  induction s with
  | nil => intro i h; cases h
  | cons c cs ih =>
    intro i h
    simp only [last_index] at h
    cases h1 : last_index p cs with
    | some j =>
      rw [h1] at h
      simp only [Option.some.injEq] at h
      obtain ⟨a, c1, b, hs, ha, hc, hb⟩ := ih j h1
      exact ⟨c :: a, c1, b, by rw [hs]; rfl, by rw [← h, ← ha]; rfl, hc, hb⟩
    | none =>
      rw [h1] at h
      cases hp : p c with
      | true =>
        rw [hp] at h
        simp only [if_true, Option.some.injEq] at h
        exact ⟨[], c, cs, rfl, h, hp, last_index_none p cs h1⟩
      | false => rw [hp] at h; simp at h

theorem first_index_none (p : Char → Bool) (s : Str) (h : first_index p s = none) :
    ∀ x ∈ s, p x = false := by
  induction s with
  | nil => intro x hx; cases hx
  | cons c cs ih =>
    simp only [first_index] at h
    cases hp : p c with
    | true => rw [hp] at h; simp at h
    | false =>
      rw [hp] at h
      simp only [Bool.false_eq_true, if_false, Option.map_eq_none'] at h
      intro x hx
      rcases List.mem_cons.1 hx with e | e
      · rw [e]; exact hp
      · exact ih h x e

theorem first_index_some (p : Char → Bool) (s : Str) :
    ∀ i, first_index p s = some i →
      ∃ a c b, s = a ++ c :: b ∧ a.length = i ∧ p c = true ∧ ∀ x ∈ a, p x = false := by
  induction s with
  | nil => intro i h; cases h
  | cons c cs ih =>
    intro i h
    simp only [first_index] at h
    cases hp : p c with
    | true =>
      rw [hp] at h
      simp only [if_true, Option.some.injEq] at h
      exact ⟨[], c, cs, rfl, h, hp, by intro x hx; cases hx⟩
    | false =>
      rw [hp] at h
      simp only [Bool.false_eq_true, if_false, Option.map_eq_some'] at h
      obtain ⟨j, hj, hji⟩ := h
      obtain ⟨a, c1, b, hs, ha, hc, hb⟩ := ih j hj
      refine ⟨c :: a, c1, b, by rw [hs]; rfl, by rw [← hji, ← ha]; rfl, hc, ?_⟩
      intro x hx
      rcases List.mem_cons.1 hx with e | e
      · rw [e]; exact hp
      · exact hb x e

theorem words_space (cs : Str) : words (' ' :: cs) = words cs := by
  simp [words]

theorem words_ne_nil (c : Char) (cs : Str) (hc : c ≠ ' ') : words (c :: cs) ≠ [] := by
  cases cs with
  | nil => simp [words, hc]
  | cons d ds =>
    simp only [words, hc, if_false]
    split
    · simp
    · split <;> simp

theorem words_append_space (a b : Str) : words (a ++ ' ' :: b) = words a ++ words b := by
  induction a with
  | nil => simp [words]
  | cons c a ih =>
    by_cases hc : c = ' '
    · subst hc
      simp only [List.cons_append, words_space]
      exact ih
    · cases a with
      | nil => simp [words, hc]
      | cons d a1 =>
        by_cases hd : d = ' '
        · subst hd
          simp only [List.cons_append] at ih ⊢
          simp only [words, hc, if_false, if_true] at ih ⊢
          rw [ih]
          rfl
        · have hne := words_ne_nil d a1 hd
          simp only [List.cons_append] at ih ⊢
          rw [words]
          simp only [hc, hd, if_false]
          rw [ih]
          conv_rhs => rw [words]
          simp only [hc, hd, if_false]
          cases hw : words (d :: a1) with
          | nil => exact absurd hw hne
          | cons w ws => rfl

theorem words_spaces_append (g r : Str) (hg : ∀ c ∈ g, c = ' ') : words (g ++ r) = words r := by
  induction g with
  | nil => rfl
  | cons c g ih =>
    have hc : c = ' ' := hg c (List.mem_cons_self _ _)
    subst hc
    simp only [List.cons_append, words_space]
    exact ih (fun x hx => hg x (List.mem_cons_of_mem _ hx))

theorem words_spaces (g : Str) (hg : ∀ c ∈ g, c = ' ') : words g = [] := by
  have := words_spaces_append g [] hg
  simpa [words] using this

/-- A run of characters other than the space at the start of a text lies within its
first word. -/
theorem words_run (a : Str) :
    ∀ b : Str, a ≠ [] → (∀ c ∈ a, c ≠ ' ') →
      ∃ w ws, words (a ++ b) = w :: ws ∧ a.length ≤ w.length := by
  induction a with
  | nil => intro b h; exact absurd rfl h
  | cons c a ih =>
    intro b _ hall
    have hc : c ≠ ' ' := hall c (List.mem_cons_self _ _)
    cases a with
    | nil =>
      cases b with
      | nil => exact ⟨[c], [], by simp [words, hc], Nat.le_refl _⟩
      | cons d b1 =>
        by_cases hd : d = ' '
        · exact ⟨[c], words (d :: b1), by simp [words, hc, hd], Nat.le_refl _⟩
        · have hne := words_ne_nil d b1 hd
          cases hw : words (d :: b1) with
          | nil => exact absurd hw hne
          | cons w ws =>
            refine ⟨c :: w, ws, ?_, by simp⟩
            simp only [List.cons_append, List.nil_append]
            rw [words]
            simp only [hc, hd, if_false, hw]
    | cons d a1 =>
      have hd : d ≠ ' ' := hall d (by simp)
      obtain ⟨w, ws, hw, hlen⟩ := ih b (by simp)
        (fun x hx => hall x (List.mem_cons_of_mem _ hx))
      refine ⟨c :: w, ws, ?_, by simpa using hlen⟩
      simp only [List.cons_append] at hw ⊢
      rw [words]
      simp only [hc, hd, if_false, hw]

theorem length_le_of_mem_words (s : Str) : ∀ w ∈ words s, w.length ≤ s.length := by
  induction s with
  | nil => intro w hw; simp [words] at hw
  | cons c cs ih =>
    intro w hw
    by_cases hc : c = ' '
    · subst hc
      rw [words_space] at hw
      exact Nat.le_succ_of_le (ih w hw)
    · cases cs with
      | nil =>
        simp only [words, hc, if_false, List.mem_singleton] at hw
        rw [hw]
      | cons d ds =>
        rw [words] at hw
        simp only [hc, if_false] at hw
        by_cases hd : d = ' '
        · simp only [hd, if_true] at hw
          rcases List.mem_cons.1 hw with e | e
          · rw [e]; simp
          · exact Nat.le_succ_of_le (ih w (by rw [hd]; exact e))
        · simp only [hd, if_false] at hw
          cases hws : words (d :: ds) with
          | nil =>
            rw [hws] at hw
            simp only [List.mem_singleton] at hw
            rw [hw]; simp
          | cons w1 ws =>
            rw [hws] at hw
            rcases List.mem_cons.1 hw with e | e
            · rw [e]
              have := ih w1 (by rw [hws]; simp)
              simpa using this
            · exact Nat.le_succ_of_le (ih w (by rw [hws]; exact List.mem_cons_of_mem _ e))

/-- An iteration of the loop of `indent_output` that finds a space: the text is
`a ++ ' ' :: gap ++ rest`, where the space after `a` is the last one at or before index
`W`, the line written is `a`, and the loop goes on with `rest`, the text from the first
character after that space that is not a space. -/
theorem wrap_step (W : Nat) (Desc : Str) (p : Nat) (hlen : W < Desc.length)
    (hp : find_last_of Desc ' ' W = some p) :
    ∃ a gap rest, Desc = a ++ ' ' :: (gap ++ rest) ∧ a.length = p ∧ p ≤ W
      ∧ substr Desc 0 p = a ∧ (∀ c ∈ gap, c = ' ') ∧ rest.head? ≠ some ' '
      ∧ (∀ c ∈ (gap ++ rest).take (W - p), c ≠ ' ')
      ∧ (match find_first_not_of Desc ' ' p with
          | some q => substr_from Desc q
          | none => []) = rest := by
  have hTU : Desc.take (W + 1) ++ Desc.drop (W + 1) = Desc := List.take_append_drop _ _
  have hTlen : (Desc.take (W + 1)).length = W + 1 := by
    rw [List.length_take]; omega
  obtain ⟨a, c, b, hT, ha, hc, hb⟩ := last_index_some _ _ p hp
  have hc1 : c = ' ' := by simpa using hc
  subst hc1
  have hb1 : ∀ x ∈ b, x ≠ ' ' := fun x hx => by simpa using hb x hx
  have hblen : b.length = W - p := by
    rw [hT] at hTlen
    simp only [List.length_append, List.length_cons] at hTlen
    omega
  have hpW : p ≤ W := by
    rw [hT] at hTlen
    simp only [List.length_append, List.length_cons] at hTlen
    omega
  have hD : Desc = a ++ ' ' :: (b ++ Desc.drop (W + 1)) := by
    conv_lhs => rw [← hTU, hT]
    simp
  have hdrop : Desc.drop p = ' ' :: (b ++ Desc.drop (W + 1)) := by
    conv_lhs => rw [hD, ← ha]
    exact List.drop_left _ _
  have hsub : substr Desc 0 p = a := by
    simp only [substr, List.drop_zero]
    conv_lhs => rw [hD, ← ha]
    exact List.take_left _ _
  have htake : (b ++ Desc.drop (W + 1)).take (W - p) = b := by
    rw [← hblen]; exact List.take_left _ _
  simp only [find_first_not_of, hdrop]
  cases hf : first_index (fun x => x != ' ') (' ' :: (b ++ Desc.drop (W + 1))) with
  | none =>
    have hall := first_index_none _ _ hf
    have hall1 : ∀ x ∈ b ++ Desc.drop (W + 1), x = ' ' := fun x hx => by
      simpa using hall x (List.mem_cons_of_mem _ hx)
    refine ⟨a, b ++ Desc.drop (W + 1), [], ?_, ha, hpW, hsub, hall1, by simp, ?_, rfl⟩
    · simpa using hD
    · rw [List.append_nil, htake]; exact hb1
  | some i =>
    obtain ⟨sp, d, e, hs, hsl, hd, hsp⟩ := first_index_some _ _ i hf
    have hd1 : d ≠ ' ' := by simpa using hd
    have hsp1 : ∀ x ∈ sp, x = ' ' := fun x hx => by simpa using hsp x hx
    cases sp with
    | nil =>
      simp only [List.nil_append, List.cons.injEq] at hs
      exact absurd hs.1.symm hd1
    | cons s0 sp1 =>
      simp only [List.cons_append, List.cons.injEq] at hs
      refine ⟨a, sp1, d :: e, ?_, ha, hpW, hsub,
        fun x hx => hsp1 x (List.mem_cons_of_mem _ hx), ?_, ?_, ?_⟩
      · rw [← hs.2]; exact hD
      · simp only [List.head?_cons, ne_eq, Option.some.injEq]; exact hd1
      · rw [← hs.2, htake]; exact hb1
      · simp only [Option.map_some', substr_from]
        rw [Nat.add_comm, ← List.drop_drop, hdrop, ← hsl]
        have : ' ' :: (b ++ Desc.drop (W + 1)) = (s0 :: sp1) ++ d :: e := by
          rw [hs.2]
          simp [hsp1 s0 (List.mem_cons_self _ _)]
        rw [this]
        exact List.drop_left _ _

/-- An iteration that finds no space: the first `W + 1` characters are a run without
a space, so the text has a word of more than `W` characters. -/
theorem no_space_step (W : Nat) (Desc : Str) (hlen : W < Desc.length)
    (hp : find_last_of Desc ' ' W = none) : ∃ w ∈ words Desc, W < w.length := by
  have hTU : Desc.take (W + 1) ++ Desc.drop (W + 1) = Desc := List.take_append_drop _ _
  have hTlen : (Desc.take (W + 1)).length = W + 1 := by
    rw [List.length_take]; omega
  have hall : ∀ x ∈ Desc.take (W + 1), x ≠ ' ' := fun x hx => by
    simpa using last_index_none _ _ hp x hx
  have hne : Desc.take (W + 1) ≠ [] := by
    intro e; rw [e] at hTlen; cases hTlen
  obtain ⟨w, ws, hw, hl⟩ := words_run (Desc.take (W + 1)) (Desc.drop (W + 1)) hne hall
  rw [hTU] at hw
  exact ⟨w, by rw [hw]; exact List.mem_cons_self _ _, by omega⟩

theorem words_step (a gap rest : Str) (hg : ∀ c ∈ gap, c = ' ') :
    words (a ++ ' ' :: (gap ++ rest)) = words a ++ words rest := by
  rw [words_append_space, words_spaces_append gap rest hg]

/-- With words of at most `W` characters the loop of `indent_output` ends, and what it
writes is a greedy wrap of the text that keeps its words. -/
theorem indent_output_loop_wraps (k : Str) (n W : Nat) :
    ∀ (fuel : Nat) (Desc : Str), Desc.length < fuel → (∀ w ∈ words Desc, w.length ≤ W) →
      ∃ ls last, indent_output_loop k n W fuel Desc = some (render_lines k n ls last)
        ∧ (∀ l ∈ ls, l.length ≤ W) ∧ last.length ≤ W ∧ Greedy W Desc ls last
        ∧ words_of ls ++ words last = words Desc := by
  intro fuel
  induction fuel with
  | zero => intro Desc h; exact absurd h (Nat.not_lt_zero _)
  | succ fuel ih =>
    intro Desc hfuel hwords
    rw [indent_output_loop]
    by_cases hlen : Desc.length > W
    · rw [if_pos hlen]
      cases hp : find_last_of Desc ' ' W with
      | none =>
        obtain ⟨w, hw, hl⟩ := no_space_step W Desc hlen hp
        exact absurd (hwords w hw) (by omega)
      | some p =>
        obtain ⟨a, gap, rest, hD, ha, hpW, hsub, hg, hhead, hgreedy, hrest⟩ :=
          wrap_step W Desc p hlen hp
        have hw := words_step a gap rest hg
        have hrl : rest.length < fuel := by
          have : Desc.length = a.length + 1 + (gap.length + rest.length) := by
            conv_lhs => rw [hD]
            simp only [List.length_append, List.length_cons]
            omega
          omega
        obtain ⟨ls, last, hout, hls, hlast, hgr, hws⟩ := ih rest hrl
          (fun w hwm => hwords w (by rw [hD, hw]; exact List.mem_append_right _ hwm))
        refine ⟨a :: ls, last, ?_, ?_, hlast, ?_, ?_⟩
        · simp only [hrest, hout, hsub, Option.map_some']
          rfl
        · intro l hl
          rcases List.mem_cons.1 hl with e | e
          · rw [e, ha]; exact hpW
          · exact hls l e
        · rw [hD]
          exact Greedy.line a gap rest ls last (by rw [← hD]; exact hlen) (by rw [ha]; exact hpW)
            hg hhead (by rw [ha]; exact hgreedy) hgr
        · rw [hD, hw]
          simp only [words_of, List.foldr_cons, List.append_assoc]
          exact congrArg _ hws
    · rw [if_neg hlen]
      refine ⟨[], Desc, ?_, fun l hl => absurd hl (List.not_mem_nil l), by omega,
        Greedy.done Desc (by omega), rfl⟩
      simp only [render_lines, List.foldr_nil]
      split <;> rfl

/-- With a word of more than `W` characters the loop of `indent_output` never ends. -/
theorem indent_output_loop_none (k : Str) (n W : Nat) :
    ∀ (fuel : Nat) (Desc : Str), (∃ w ∈ words Desc, W < w.length) →
      indent_output_loop k n W fuel Desc = none := by
  intro fuel
  induction fuel with
  | zero => intro Desc _; rfl
  | succ fuel ih =>
    intro Desc hlong
    obtain ⟨w, hw, hl⟩ := hlong
    have hlen : Desc.length > W := Nat.lt_of_lt_of_le hl (length_le_of_mem_words Desc w hw)
    rw [indent_output_loop, if_pos hlen]
    cases hp : find_last_of Desc ' ' W with
    | none => rfl
    | some p =>
      obtain ⟨a, gap, rest, hD, ha, hpW, hsub, hg, hhead, hgreedy, hrest⟩ :=
        wrap_step W Desc p hlen hp
      have hws := words_step a gap rest hg
      rw [hD, hws] at hw
      have hwr : w ∈ words rest := by
        rcases List.mem_append.1 hw with e | e
        · have := length_le_of_mem_words a w e
          omega
        · exact e
      simp only [hrest, ih rest ⟨w, hwr, hl⟩, Option.map_none']

theorem help_width : (80 + 2 ^ 64 - (kIndent.length * 2) % 2 ^ 64) % 2 ^ 64 = 78 := by
  decide

/-- C19.  For every description all of whose words (maximal runs of characters other
than the space) have at most 78 characters, `indent_output` with the parameters of
`help` (indent `kIndent` twice, 80 columns) terminates; what it writes is a sequence
of lines, each after its indent and followed by a line break, and a last line; every
line has at most 78 characters; the lines are a greedy wrap of the description (every
line break replaces a run of spaces that starts at the last space at or before index
78 of the remaining text); and the words of the lines, read in order, are the words of
the description. -/
theorem indent_output_wraps (Desc : Str) (h : ∀ w ∈ words Desc, w.length ≤ 78) :
    ∃ ls last, indent_output kIndent 2 80 Desc = some (render_lines kIndent 2 ls last)
      ∧ (∀ l ∈ ls, l.length ≤ 78) ∧ last.length ≤ 78
      ∧ Greedy 78 Desc ls last
      ∧ words_of ls ++ words last = words Desc := by
  simp only [indent_output, help_width]
  exact indent_output_loop_wraps kIndent 2 78 (Desc.length + 1) Desc (Nat.lt_succ_self _) h

/-- C19, witness: a description of 98 characters is written on two lines, broken at
the last space at or before index 78. -/
theorem indent_output_wraps_witness :
    (∃ ls last, indent_output kIndent 2 80 example_description =
        some (render_lines kIndent 2 ls last)
      ∧ (∀ l ∈ ls, l.length ≤ 78) ∧ last.length ≤ 78
      ∧ Greedy 78 example_description ls last
      ∧ words_of ls ++ words last = words example_description)
    ∧ indent_output kIndent 2 80 example_description =
        some (render_lines kIndent 2
          ["Enable the gas metering of the runtime and print the gas used by every call".data]
          "when the run has ended".data) :=
  ⟨indent_output_wraps example_description (by decide), rfl⟩

/-! ## A word longer than the line -/

/-- C20 (what the code does instead).  For every description that holds a word of more
than 78 characters, `indent_output` with the parameters of `help` never returns: once
the text that remains starts with that word, `find_last_of` finds no space in its first
79 characters, nothing is written and the text is left as it is, so the loop does not
end.  The word is not written on a line of its own. -/
theorem indent_output_over_long_word (Desc : Str) (h : ∃ w ∈ words Desc, 78 < w.length) :
    indent_output kIndent 2 80 Desc = none := by
  simp only [indent_output, help_width]
  exact indent_output_loop_none kIndent 2 78 (Desc.length + 1) Desc h

/-- C20, witness: the description `see also ` followed by a word of 80 characters. -/
theorem indent_output_over_long_word_witness :
    (∃ w ∈ words example_long_word, 78 < w.length)
    ∧ indent_output kIndent 2 80 example_long_word = none :=
  ⟨⟨List.replicate 80 'x', by decide, by decide⟩,
    indent_output_over_long_word example_long_word
      ⟨List.replicate 80 'x', by decide, by decide⟩⟩

/-! ## The usage line -/

theorem foldl_chain (names : List Str) :
    ∀ acc : Str, names.foldl (fun out Part => out ++ '\t' :: Part) acc =
      acc ++ names.foldr (fun Part out => '\t' :: Part ++ out) [] := by
  induction names with
  | nil => intro acc; simp
  | cons n ns ih =>
    intro acc
    simp only [List.foldl_cons, List.foldr_cons, ih]
    simp

theorem usage_positional_hidden (S : SubCommandDescriptor) (acc : Str × Bool) (i : Nat)
    (h : (S.desc i).Hidden = true) : usage_positional S acc i = acc := by
  simp only [usage_positional, h, if_true]

theorem usage_positional_shown (S : SubCommandDescriptor) (acc : Str) (b : Bool) (i : Nat)
    (h : (S.desc i).Hidden = false) :
    usage_positional S (acc, b) i =
      (acc ++ (if b then " [--]".data else []) ++ usage_entry (S.desc i), false) := by
  simp only [usage_positional, h, Bool.false_eq_true, if_false, usage_entry]
  cases hm : (S.desc i).MaxNArgs with
  | zero => cases b <;> simp
  | succ n =>
    cases n with
    | zero => cases b <;> simp
    | succ k => cases b <;> simp

theorem foldl_usage_positional (S : SubCommandDescriptor) (l : List Nat) :
    ∀ (acc : Str) (b : Bool),
      l.foldl (usage_positional S) (acc, b) =
        (acc ++ (if b && !((l.map S.desc).filter (fun D => !D.Hidden)).isEmpty
            then " [--]".data else [])
          ++ ((l.map S.desc).filter (fun D => !D.Hidden)).foldr
              (fun D out => usage_entry D ++ out) [],
         b && ((l.map S.desc).filter (fun D => !D.Hidden)).isEmpty) := by
  induction l with
  | nil => intro acc b; simp
  | cons i l ih =>
    intro acc b
    cases hh : (S.desc i).Hidden with
    | true =>
      simp only [List.foldl_cons, usage_positional_hidden S _ i hh, ih, List.map_cons,
        List.filter_cons, hh, Bool.not_true, Bool.false_eq_true, if_false]
    | false =>
      simp only [List.foldl_cons, usage_positional_shown S acc b i hh, ih, List.map_cons,
        List.filter_cons, hh, Bool.not_false, if_true, Bool.false_and, Bool.false_eq_true,
        if_false, List.isEmpty_cons, Bool.and_true, List.foldr_cons, List.append_nil,
        List.append_assoc, Bool.and_false]

/-- The text `usage` writes: the heading, then on one line the chain, ` [OPTIONS]` when
the nonpositional list is not empty, and the positional part. -/
theorem usage_eq (id : Nat) (P : ArgumentParser) :
    usage id P = usage_heading ++ usage_chain (P.scope id)
      ++ (if (P.scope id).NonpositionalList ≠ [] then " [OPTIONS]".data else [])
      ++ usage_positionals (P.scope id) ++ ['\n'] := by
  simp only [usage, usage_heading, usage_chain, usage_positionals, visible_positionals,
    foldl_chain, foldl_usage_positional, List.nil_append, Bool.true_and]
  cases hv : (List.filter (fun D => !D.Hidden)
      (List.map (P.scope id).desc (P.scope id).PositionalList)).isEmpty with
  | true =>
    have he : List.filter (fun D => !D.Hidden)
        (List.map (P.scope id).desc (P.scope id).PositionalList) = [] := by
      simpa using hv
    simp only [he, Bool.not_true, Bool.false_eq_true, if_false, if_true, List.foldr_nil,
      List.append_nil, List.nil_append]
    by_cases hn : (P.scope id).NonpositionalList = []
    · simp [hn]
    · simp [hn]
  | false =>
    simp only [Bool.not_false, if_true, Bool.false_eq_true, if_false]
    by_cases hn : (P.scope id).NonpositionalList = []
    · simp [hn]
    · simp [hn]

theorem Hidden_modify_options (l : List ArgumentDescriptor) (A : Str) (n i : Nat) :
    ((l.modify (fun D => { D with Options := D.Options ++ [A] }) n).getD i default).Hidden =
      (l.getD i default).Hidden := by
  simp only [List.getD_eq_getElem?_getD, getD_modify]
  split <;> rfl

theorem help_listed_add_option (S : SubCommandDescriptor) (A : Str) (o : OptObj)
    (h : help_listed S) : help_listed (S.add_option A o) := by
  obtain ⟨h1, h2, h3⟩ := h
  cases hf : map_find S.OptionMap o.ref with
  | none =>
    rw [add_option_of_new S A o hf]
    refine ⟨List.mem_append_left _ h1, ?_, by simp⟩
    simp only [SubCommandDescriptor.desc]
    rw [desc_append_of_lt _ _ 0 h3]
    exact h2
  | some n =>
    rw [add_option_of_known S A o n hf]
    refine ⟨h1, ?_, by simpa using h3⟩
    simp only [SubCommandDescriptor.desc]
    rw [Hidden_modify_options]
    exact h2

theorem help_listed_add_option_positional (S : SubCommandDescriptor) (o : OptObj)
    (h : help_listed S) : help_listed (S.add_option_positional o) := by
  obtain ⟨h1, h2, h3⟩ := h
  cases hf : map_find S.OptionMap o.ref with
  | none =>
    have e : S.add_option_positional o =
        { S with
          OptionMap := map_emplace S.OptionMap o.ref S.ArgumentDescriptors.length
          PositionalList := S.PositionalList ++ [S.ArgumentDescriptors.length]
          ArgumentDescriptors := S.ArgumentDescriptors ++ [ArgumentDescriptor.new o] } := by
      simp only [SubCommandDescriptor.add_option_positional, hf]
    rw [e]
    refine ⟨h1, ?_, by simp⟩
    simp only [SubCommandDescriptor.desc]
    rw [desc_append_of_lt _ _ 0 h3]
    exact h2
  | some n =>
    have e : S.add_option_positional o =
        { S with PositionalList := S.PositionalList ++ [n] } := by
      simp only [SubCommandDescriptor.add_option_positional, hf]
    rw [e]
    exact ⟨h1, h2, h3⟩

theorem help_listed_new_scope (id : Nat) (SC : Option SubCommand) :
    help_listed (SubCommandDescriptor.new id SC) := by
  have h1 : map_find ([] : List (OptRef × Nat)) (.help id) = none := rfl
  have h0 : help_listed
      (({ SC := SC, SubCommandNames := [], ProgramNames := [], ArgumentDescriptors := [],
          OptionMap := [], ArgumentMap := [], SubCommandMap := [], SubCommandList := [],
          NonpositionalList := [], PositionalList := [],
          HelpOpt := false } : SubCommandDescriptor).add_option "h".data
        (Toggle (.help id) "Show this help messages".data)) := by
    rw [add_option_of_new _ _ _ h1]
    exact ⟨by simp, rfl, by simp⟩
  exact help_listed_add_option _ _ _ h0

theorem scope_add_child_eq (p c : Nat) (Args : List Str) (Q : ArgumentParser) (id : Nat) :
    ∃ a b m, (add_child p c Args Q).scope id =
      { Q.scope id with SubCommandList := a, SubCommandNames := b, SubCommandMap := m } := by
  simp only [add_child, scope_modify_scope]
  (repeat' split) <;> exact ⟨_, _, _, rfl⟩

theorem help_listed_begin_subcommand (P : ArgumentParser) (SC : SubCommand) (Args : List Str)
    (h : ∀ id, id < P.SubCommandDescriptors.length → help_listed (P.scope id)) :
    ∀ id, id < (P.begin_subcommand SC Args).SubCommandDescriptors.length →
      help_listed ((P.begin_subcommand SC Args).scope id) := by
  intro id hid
  rw [(scope_begin_subcommand P SC Args id).1] at hid
  unfold ArgumentParser.begin_subcommand
  simp only
  obtain ⟨a, b, m, e⟩ := scope_add_child_eq P.CurrentSubCommandId P.SubCommandDescriptors.length
    Args { P with
      SubCommandStack := P.SubCommandStack ++ [P.CurrentSubCommandId]
      CurrentSubCommandId := P.SubCommandDescriptors.length
      SubCommandDescriptors := P.SubCommandDescriptors ++
        [SubCommandDescriptor.new P.SubCommandDescriptors.length (some SC)] } id
  rw [e]
  have hs : ArgumentParser.scope { P with
      SubCommandStack := P.SubCommandStack ++ [P.CurrentSubCommandId]
      CurrentSubCommandId := P.SubCommandDescriptors.length
      SubCommandDescriptors := P.SubCommandDescriptors ++
        [SubCommandDescriptor.new P.SubCommandDescriptors.length (some SC)] } id =
      if id < P.SubCommandDescriptors.length then P.scope id
      else if id = P.SubCommandDescriptors.length then
        SubCommandDescriptor.new P.SubCommandDescriptors.length (some SC)
      else default := by
    simp only [ArgumentParser.scope]
    rw [getD_append_singleton]
  rw [hs]
  by_cases hlt : id < P.SubCommandDescriptors.length
  · rw [if_pos hlt]
    exact h id hlt
  · have heq : id = P.SubCommandDescriptors.length := by omega
    rw [if_neg hlt, if_pos heq]
    exact help_listed_new_scope _ _

theorem help_listed_apply (P : ArgumentParser) (op : FacadeOp)
    (h : ∀ id, id < P.SubCommandDescriptors.length → help_listed (P.scope id)) :
    ∀ id, id < (op.apply P).SubCommandDescriptors.length →
      help_listed ((op.apply P).scope id) := by
  cases op with
  | add_option A o =>
    intro id hid
    have hid1 : id < P.SubCommandDescriptors.length := by
      simpa [FacadeOp.apply, ArgumentParser.add_option] using hid
    simp only [FacadeOp.apply, ArgumentParser.add_option, scope_modify_scope]
    split
    · exact help_listed_add_option _ A o (h id hid1)
    · exact h id hid1
  | add_option_positional o =>
    intro id hid
    have hid1 : id < P.SubCommandDescriptors.length := by
      simpa [FacadeOp.apply, ArgumentParser.add_option_positional] using hid
    simp only [FacadeOp.apply, ArgumentParser.add_option_positional, scope_modify_scope]
    split
    · exact help_listed_add_option_positional _ o (h id hid1)
    · exact h id hid1
  | begin_subcommand SC Args => exact help_listed_begin_subcommand P SC Args h
  | end_subcommand =>
    intro id hid
    have he := scope_end_subcommand P
    simp only [FacadeOp.apply] at hid ⊢
    rw [he] at hid
    have hsc : P.end_subcommand.scope id = P.scope id := by
      simp only [ArgumentParser.scope, he]
    rw [hsc]
    exact h id hid

/-- In every scope of a tree built through the facade the help toggle is listed as a
nonpositional and is not hidden. -/
theorem help_listed_build (ops : List FacadeOp) :
    ∀ id, id < (build ops).SubCommandDescriptors.length → help_listed ((build ops).scope id) := by
  have key : ∀ (ops : List FacadeOp) (P : ArgumentParser),
      (∀ id, id < P.SubCommandDescriptors.length → help_listed (P.scope id)) →
      ∀ id, id < (build_from P ops).SubCommandDescriptors.length →
        help_listed ((build_from P ops).scope id) := by
    intro ops
    induction ops with
    | nil => intro P h; exact h
    | cons op ops ih =>
      intro P h
      exact ih (op.apply P) (help_listed_apply P op h)
  refine key ops ArgumentParser.new ?_
  intro id hid
  have hid0 : id = 0 := by
    have : ArgumentParser.new.SubCommandDescriptors.length = 1 := rfl
    omega
  subst hid0
  exact ⟨by decide, by decide, by decide⟩

/-- C21 (amended).  For every scope the text of `usage()` is the heading and one line
that consists of exactly: the program-name chain, every name after a tab; then
` [OPTIONS]` if and only if the nonpositional list is not empty; then, if some
positional is not hidden, ` [--]`; then, for each positional that is not hidden, in
registration order, and for no hidden one, a space and its metavar, left out when
`max_nargs = 0`, followed by ` ...` exactly when `max_nargs > 1`, and enclosed in
square brackets exactly when `min_nargs = 0`.  In every scope of a tree built through
the facade, before or during a scan, a nonpositional that is not hidden exists, the
help toggle, so there ` [OPTIONS]` is shown, as it is by the condition of the
specification. -/
theorem usage_line_rendered (id : Nat) (P : ArgumentParser) :
    usage id P = usage_heading ++ usage_chain (P.scope id)
      ++ (if (P.scope id).NonpositionalList ≠ [] then " [OPTIONS]".data else [])
      ++ usage_positionals (P.scope id) ++ ['\n']
    ∧ (∀ ops, SameRegistration P (build ops) → id < P.SubCommandDescriptors.length →
        has_visible_option (P.scope id) = true
        ∧ usage id P = usage_heading ++ usage_line (P.scope id) ++ ['\n']) := by
  refine ⟨usage_eq id P, ?_⟩
  intro ops hreg hid
  have hb := help_listed_build ops id (by rw [← hreg.length]; exact hid)
  have hs := hreg.scope id
  have hN : (P.scope id).NonpositionalList = ((build ops).scope id).NonpositionalList := by
    have := congrArg SubCommandDescriptor.NonpositionalList hs
    exact this
  have hH : (P.desc id 0).Hidden = ((build ops).desc id 0).Hidden := by
    have := congrArg ArgumentDescriptor.Hidden (hreg.desc id 0)
    exact this
  have hmem : 0 ∈ (P.scope id).NonpositionalList := by rw [hN]; exact hb.1
  have hvis : has_visible_option (P.scope id) = true := by
    simp only [has_visible_option, List.any_eq_true]
    refine ⟨0, hmem, ?_⟩
    have h0 : ((P.scope id).desc 0).Hidden = false := by
      have := hb.2.1
      rw [← ArgumentParser.desc, hH]
      exact this
    simp [h0]
  have hne : (P.scope id).NonpositionalList ≠ [] := fun e => by
    rw [e] at hmem; cases hmem
  refine ⟨hvis, ?_⟩
  rw [usage_eq, if_pos hne]
  simp only [usage_line, hvis, if_true, List.append_assoc]

/-- C21, witness: the parser with the required positional `FILE`, a hidden positional
and the optional positional `ARGS` of up to three values, during a scan started as
`prog`. -/
theorem usage_line_rendered_witness :
    (has_visible_option ((parse_enter 0 [] "prog".data (build usage_calls)).scope 0) = true
      ∧ usage 0 (parse_enter 0 [] "prog".data (build usage_calls)) =
          usage_heading ++ usage_line ((parse_enter 0 [] "prog".data (build usage_calls)).scope 0)
            ++ ['\n'])
    ∧ usage 0 (parse_enter 0 [] "prog".data (build usage_calls)) =
        usage_heading ++ "\tprog [OPTIONS] [--] FILE [ARGS ...]\n".data :=
  ⟨(usage_line_rendered 0 (parse_enter 0 [] "prog".data (build usage_calls))).2 usage_calls
      (sameRegistration_parse_enter 0 [] "prog".data (build usage_calls)) (by decide),
    by decide⟩

/-- C21, counterexample.  On the same parser the line of the specification is
`prog [OPTIONS] FILE [ARGS ...]`, and `usage()` writes ` [--]` before `FILE`.  For a
positional with `max_nargs = 0` and the metavar `ARG` the line of the specification
shows `[ARG]`, and `usage()` writes `[]`. -/
theorem usage_line_rendered_counterexample :
    usage_line_claimed ((parse_enter 0 [] "prog".data parser_usage).scope 0) =
        "\tprog [OPTIONS] FILE [ARGS ...]".data
    ∧ usage 0 (parse_enter 0 [] "prog".data parser_usage) =
        usage_heading ++ "\tprog [OPTIONS] [--] FILE [ARGS ...]".data ++ ['\n']
    ∧ usage 0 (parse_enter 0 [] "prog".data parser_usage) ≠
        usage_heading ++ usage_line_claimed ((parse_enter 0 [] "prog".data parser_usage).scope 0)
          ++ ['\n']
    ∧ usage_line_claimed ((parse_enter 0 [] "prog".data parser_zero_positional).scope 0) =
        "\tprog [OPTIONS] [ARG]".data
    ∧ usage 0 (parse_enter 0 [] "prog".data parser_zero_positional) =
        usage_heading ++ "\tprog [OPTIONS] [--] []".data ++ ['\n'] := by
  refine ⟨by decide, by decide, by decide, by decide, by decide⟩

/-! ## After the first positional every token is a literal value -/

theorem parse_value_locals (conv : Conv) (id : Nat) (L : Locals) (P : ArgumentParser)
    (t : Str) (L1 : Locals) (P1 : ArgumentParser)
    (h : parse_value conv id L P t = .next L1 P1) :
    L1.Escaped = L.Escaped ∧ L1.FirstNonOption = L.FirstNonOption := by
  cases hC : L.CurrentDesc with
  | some c =>
    simp only [parse_value, hC] at h
    cases hr : consume_argument conv id c t P with
    | mk r P2 =>
      rw [hr] at h
      cases r with
      | error e => cases h
      | ok d =>
        simp only [Step.next.injEq] at h
        rw [← h.1]
        exact ⟨rfl, rfl⟩
  | none =>
    simp only [parse_value, hC] at h
    cases hp : (P.scope id).PositionalList.get? L.PositionalIter with
    | none => rw [hp] at h; cases h
    | some p =>
      rw [hp] at h
      simp only at h
      cases hr : consume_argument conv id p t P with
      | mk r P2 =>
        rw [hr] at h
        cases r with
        | error e => cases h
        | ok d =>
          simp only [Step.next.injEq] at h
          rw [← h.1]
          exact ⟨rfl, rfl⟩

theorem HelpOpt_consume_argument (conv : Conv) (id i : Nat) (v : Str) (P : ArgumentParser)
    (s : Nat) :
    ((consume_argument conv id i v P).2.scope s).HelpOpt = (P.scope s).HelpOpt
    ∧ (consume_argument conv id i v P).2.VerOpt = P.VerOpt
    ∧ (∀ e, (consume_argument conv id i v P).1 = .error e → conv (P.desc id i).Opt v = some e) := by
  cases hc : conv (P.desc id i).Opt v with
  | none =>
    rw [consume_argument_accept _ _ _ _ _ hc]
    exact ⟨HelpOpt_bind_value id i s v P, rfl, fun e h => by cases h⟩
  | some e =>
    rw [consume_argument_reject _ _ _ _ _ _ hc]
    exact ⟨rfl, rfl, fun e1 h => by cases h; rfl⟩

/-- What the value part of the loop does to the toggles and which errors it returns. -/
theorem parse_value_effect (conv : Conv) (id : Nat) (L : Locals) (P : ArgumentParser)
    (t : Str) :
    (∀ s, ((parse_value conv id L P t).state.scope s).HelpOpt = (P.scope s).HelpOpt)
    ∧ (parse_value conv id L P t).state.VerOpt = P.VerOpt
    ∧ (∀ c ∈ (parse_value conv id L P t).state.Calls, c ∈ P.Calls ∨ ∃ o, c = Call.argument o t)
    ∧ (∀ e Pf, parse_value conv id L P t = .fail e Pf →
        e = PositionalOverflow ∨ ∃ o, conv o t = some e) := by
  have key : ∀ i, (∀ s, ((consume_argument conv id i t P).2.scope s).HelpOpt =
        (P.scope s).HelpOpt)
      ∧ (consume_argument conv id i t P).2.VerOpt = P.VerOpt
      ∧ (∀ c ∈ (consume_argument conv id i t P).2.Calls,
          c ∈ P.Calls ∨ ∃ o, c = Call.argument o t)
      ∧ (∀ e, (consume_argument conv id i t P).1 = .error e → ∃ o, conv o t = some e) := by
    intro i
    refine ⟨fun s => (HelpOpt_consume_argument conv id i t P s).1,
      (HelpOpt_consume_argument conv id i t P 0).2.1, ?_, ?_⟩
    · intro c hc
      rw [Calls_consume_argument] at hc
      rcases List.mem_append.1 hc with x | x
      · exact Or.inl x
      · exact Or.inr ⟨_, List.mem_singleton.1 x⟩
    · intro e he
      exact ⟨_, (HelpOpt_consume_argument conv id i t P 0).2.2 e he⟩
  cases hC : L.CurrentDesc with
  | some c =>
    obtain ⟨k1, k2, k3, k4⟩ := key c
    simp only [parse_value, hC]
    cases hr : consume_argument conv id c t P with
    | mk r P2 =>
      rw [hr] at k1 k2 k3 k4
      cases r with
      | error e =>
        refine ⟨k1, k2, k3, ?_⟩
        intro e1 Pf h
        simp only [Step.fail.injEq] at h
        exact Or.inr (by rw [← h.1]; exact k4 e rfl)
      | ok d => exact ⟨k1, k2, k3, fun e1 Pf h => by cases h⟩
  | none =>
    simp only [parse_value, hC]
    cases hp : (P.scope id).PositionalList.get? L.PositionalIter with
    | none =>
      refine ⟨fun s => rfl, rfl, fun c hc => Or.inl hc, ?_⟩
      intro e Pf h
      simp only [Step.fail.injEq] at h
      exact Or.inl h.1.symm
    | some p =>
      obtain ⟨k1, k2, k3, k4⟩ := key p
      simp only
      cases hr : consume_argument conv id p t P with
      | mk r P2 =>
        rw [hr] at k1 k2 k3 k4
        cases r with
        | error e =>
          refine ⟨k1, k2, k3, ?_⟩
          intro e1 Pf h
          simp only [Step.fail.injEq] at h
          exact Or.inr (by rw [← h.1]; exact k4 e rfl)
        | ok d => exact ⟨k1, k2, k3, fun e1 Pf h => by cases h⟩

theorem parse_body_escaped (conv : Conv) (id : Nat) (L : Locals) (P : ArgumentParser)
    (t : Str) (hE : L.Escaped = true) (hF : L.FirstNonOption = false) :
    parse_body conv id L P t = parse_value conv id L P t := by
  rw [parse_body_literal conv id L P t (Or.inl hE)]
  have hL : { L with FirstNonOption := false, Escaped := true } = L := by
    cases L
    simp only at hE hF
    subst hE hF
    rfl
  simp only [hF, Bool.false_and, Bool.false_eq_true, if_false, hL]

theorem parse_body_literal_next (conv : Conv) (id : Nat) (L : Locals) (P : ArgumentParser)
    (t : Str) (h : L.Escaped = true ∨ (plain t ∧ L.CurrentDesc = none)) (L1 : Locals)
    (P1 : ArgumentParser) (hn : parse_body conv id L P t = .next L1 P1) :
    L1.Escaped = true ∧ L1.FirstNonOption = false := by
  rw [parse_body_literal conv id L P t h] at hn
  cases hf : (if L.FirstNonOption && !(P.scope id).SubCommandMap.isEmpty then
      map_find (P.scope id).SubCommandMap t else none) with
  | some Offset => rw [hf] at hn; cases hn
  | none =>
    rw [hf] at hn
    exact parse_value_locals conv id _ P t L1 P1 hn

theorem scan_escaped (conv : Conv) (id : Nat) (ts : List Str) :
    ∀ (L : Locals) (P : ArgumentParser) (id1 : Nat) (L1 : Locals) (P1 : ArgumentParser),
      L.Escaped = true → L.FirstNonOption = false →
      scan conv id L P ts = some (id1, L1, P1) →
      id1 = id ∧ L1.Escaped = true ∧ L1.FirstNonOption = false
        ∧ (∀ s, (P1.scope s).HelpOpt = (P.scope s).HelpOpt) ∧ P1.VerOpt = P.VerOpt := by
  induction ts with
  | nil =>
    intro L P id1 L1 P1 hE hF h
    simp only [scan, Option.some.injEq, Prod.mk.injEq] at h
    obtain ⟨rfl, rfl, rfl⟩ := h
    exact ⟨rfl, hE, hF, fun _ => rfl, rfl⟩
  | cons t ts ih =>
    intro L P id1 L1 P1 hE hF h
    have hb := parse_body_escaped conv id L P t hE hF
    have he := parse_value_effect conv id L P t
    rw [← hb] at he
    rw [scan] at h
    cases hs : parse_body conv id L P t with
    | next L2 P2 =>
      rw [hs] at h he
      obtain ⟨hE2, hF2⟩ := parse_body_literal_next conv id L P t (Or.inl hE) L2 P2 hs
      obtain ⟨h1, h2, h3, h4, h5⟩ := ih L2 P2 id1 L1 P1 hE2 hF2 h
      exact ⟨h1, h2, h3, fun s => (h4 s).trans (he.1 s), h5.trans he.2.1⟩
    | fail e P2 =>
      rw [hs] at h
      cases h
    | dispatch Child P2 =>
      have := (parse_body_stays conv id L P t hF).1
      rw [hs] at this
      exact absurd this (fun x => x)

theorem parse_loop_escaped_error (conv : Conv) (id : Nat) (ts : List Str) :
    ∀ (L : Locals) (P : ArgumentParser) (e : Error) (Q : ArgumentParser),
      L.Escaped = true → L.FirstNonOption = false →
      parse_loop conv id L P ts = some (.error e, Q) →
      e = PositionalOverflow ∨ ∃ o, ∃ t ∈ ts, conv o t = some e := by
  induction ts with
  | nil =>
    intro L P e Q _ _ h
    simp only [parse_loop, Option.map_eq_some'] at h
    obtain ⟨⟨b, Q1⟩, _, he⟩ := h
    cases he
  | cons t ts ih =>
    intro L P e Q hE hF h
    have hb := parse_body_escaped conv id L P t hE hF
    have he := (parse_value_effect conv id L P t).2.2.2
    rw [← hb] at he
    rw [parse_loop] at h
    cases hs : parse_body conv id L P t with
    | next L2 P2 =>
      rw [hs] at h
      obtain ⟨hE2, hF2⟩ := parse_body_literal_next conv id L P t (Or.inl hE) L2 P2 hs
      rcases ih L2 P2 e Q hE2 hF2 h with x | ⟨o, t1, ht1, x⟩
      · exact Or.inl x
      · exact Or.inr ⟨o, t1, List.mem_cons_of_mem _ ht1, x⟩
    | fail e1 P2 =>
      rw [hs] at h
      simp only [Option.some.injEq, Prod.mk.injEq, Except.error.injEq] at h
      rcases he e1 P2 hs with x | ⟨o, x⟩
      · exact Or.inl (by rw [← h.1]; exact x)
      · exact Or.inr ⟨o, t, List.mem_cons_self _ _, by rw [← h.1]; exact x⟩
    | dispatch Child P2 =>
      have := (parse_body_stays conv id L P t hF).1
      rw [hs] at this
      exact absurd this (fun x => x)

/-- C22 (amended).  In the scan of a scope the escape flag is never cleared once set,
and it is set, with `FirstNonOption` cleared, by every token that the loop consumes as
a value in its last branch, so by the first token consumed as a positional value.  From
then on every token, whatever its spelling, is consumed as a literal value: it is fed
to the descriptor still awaiting values, else to the next positional, else the scan
fails with the positional overflow.  Such a token invokes no default operation and
leaves the help flag of every scope and the version flag as they are, and the only
errors of the rest of the scan are the positional overflow and the errors of value
conversions, never an unknown option.  (The help flag can still be set afterwards, by
the validation at the end of the scan.) -/
theorem escaped_after_first_positional (conv : Conv) (id : Nat) :
    (∀ (L : Locals) (P : ArgumentParser) (t : Str) (L1 : Locals) (P1 : ArgumentParser),
      L.Escaped = true → parse_body conv id L P t = .next L1 P1 → L1.Escaped = true)
    ∧ (∀ (L : Locals) (P : ArgumentParser) (t : Str) (L1 : Locals) (P1 : ArgumentParser),
      plain t → L.CurrentDesc = none → parse_body conv id L P t = .next L1 P1 →
      L1.Escaped = true ∧ L1.FirstNonOption = false)
    ∧ (∀ (L : Locals) (P : ArgumentParser) (t : Str), L.Escaped = true →
      L.FirstNonOption = false →
      parse_body conv id L P t =
          (match L.CurrentDesc with
            | some c =>
              match consume_argument conv id c t P with
              | (.error e, P1) => .fail e P1
              | (.ok d, P1) => .next { L with CurrentDesc := d } P1
            | none =>
              match (P.scope id).PositionalList.get? L.PositionalIter with
              | none => .fail PositionalOverflow P
              | some p =>
                match consume_argument conv id p t P with
                | (.error e, P1) => .fail e P1
                | (.ok d, P1) =>
                  .next { L with CurrentDesc := d, PositionalIter := L.PositionalIter + 1 } P1)
      ∧ (∀ s, ((parse_body conv id L P t).state.scope s).HelpOpt = (P.scope s).HelpOpt)
      ∧ (parse_body conv id L P t).state.VerOpt = P.VerOpt
      ∧ (∀ c ∈ (parse_body conv id L P t).state.Calls,
          c ∈ P.Calls ∨ ∃ o, c = Call.argument o t))
    ∧ (∀ (ts : List Str) (L : Locals) (P : ArgumentParser), L.Escaped = true →
      L.FirstNonOption = false →
      (∀ id1 L1 P1, scan conv id L P ts = some (id1, L1, P1) →
        id1 = id ∧ L1.Escaped = true ∧ L1.FirstNonOption = false
          ∧ (∀ s, (P1.scope s).HelpOpt = (P.scope s).HelpOpt) ∧ P1.VerOpt = P.VerOpt)
      ∧ (∀ e Q, parse_loop conv id L P ts = some (.error e, Q) →
        e = PositionalOverflow ∨ ∃ o, ∃ t ∈ ts, conv o t = some e)) := by
  refine ⟨?_, ?_, ?_, ?_⟩
  · intro L P t L1 P1 hE h
    exact (parse_body_literal_next conv id L P t (Or.inl hE) L1 P1 h).1
  · intro L P t L1 P1 ht hC h
    exact parse_body_literal_next conv id L P t (Or.inr ⟨ht, hC⟩) L1 P1 h
  · intro L P t hE hF
    have hb := parse_body_escaped conv id L P t hE hF
    have he := parse_value_effect conv id L P t
    rw [← hb] at he
    refine ⟨?_, he.1, he.2.1, he.2.2.1⟩
    rw [hb]
    rfl
  · intro ts L P hE hF
    exact ⟨fun id1 L1 P1 h => scan_escaped conv id ts L P id1 L1 P1 hE hF h,
      fun e Q h => parse_loop_escaped_error conv id ts L P e Q hE hF h⟩

/-- C22, witness: `[prog, file, --help]` and `[prog, file, --bogus]` on the parser with
two single-valued positionals: `file` sets the escape flag, and the second token is the
value of the second positional; the scan proceeds, the help flag is not set and no
default operation is invoked. -/
theorem escaped_after_first_positional_witness :
    (∃ P1, parse_body accept_all 0 Locals.init
          (parse_enter 0 [] "prog".data parser_two_positionals) "file".data =
        .next ⟨none, false, true, 1⟩ P1)
    ∧ (∀ s, ((parse_body accept_all 0 ⟨none, false, true, 1⟩
          (bind_value 0 2 "file".data (parse_enter 0 [] "prog".data parser_two_positionals))
          "--help".data).state.scope s).HelpOpt =
        ((bind_value 0 2 "file".data
          (parse_enter 0 [] "prog".data parser_two_positionals)).scope s).HelpOpt)
    ∧ (∃ Q, parse accept_all 0 [] "prog".data ["file".data, "--help".data]
          parser_two_positionals = some (.ok true, Q)
        ∧ Q.Calls = [Call.argument (.user 1) "file".data,
            Call.argument (.user 2) "--help".data]
        ∧ (Q.scope 0).HelpOpt = false)
    ∧ (∃ Q, parse accept_all 0 [] "prog".data ["file".data, "--bogus".data]
          parser_two_positionals = some (.ok true, Q)
        ∧ Q.Calls = [Call.argument (.user 1) "file".data,
            Call.argument (.user 2) "--bogus".data]) :=
  have h := escaped_after_first_positional accept_all 0
  ⟨⟨_, rfl⟩,
    (h.2.2.1 ⟨none, false, true, 1⟩
      (bind_value 0 2 "file".data (parse_enter 0 [] "prog".data parser_two_positionals))
      "--help".data rfl rfl).2.1,
    ⟨_, rfl, by decide, by decide⟩, ⟨_, rfl, by decide⟩⟩

/-- C22, counterexample.  The positional takes exactly three values; the scan of
`[prog, file, --help]` feeds both tokens to it and invokes no default operation, and
then the validation at the end, finding a consumed count of 2 below `min_nargs`, sets
the help flag: help is rendered and the outcome is the handled stop. -/
theorem escaped_after_first_positional_counterexample :
    (parser_min_three.scope 0).HelpOpt = false
    ∧ ∃ Q, parse accept_all 0 [] "prog".data ["file".data, "--help".data] parser_min_three =
          some (.ok false, Q)
        ∧ Q.Calls = [Call.argument (.user 1) "file".data,
            Call.argument (.user 1) "--help".data]
        ∧ (Q.desc 0 2).NArgs = 2 ∧ (Q.desc 0 2).MinNArgs = 3
        ∧ (Q.scope 0).HelpOpt = true ∧ Q.Cout ≠ [] := by
  refine ⟨by decide, ⟨_, rfl, by decide, by decide, by decide, by decide, by decide⟩⟩

/-! ## A scan reads only its own scope and the scopes after it -/

theorem Agree.descs {c : Nat} {Q Q1 : ArgumentParser} (h : Agree c Q Q1) (s i : Nat)
    (hs : c ≤ s) : Q.desc s i = Q1.desc s i := by
  simp only [ArgumentParser.desc, h.scopes s hs]

theorem agree_refl (c : Nat) (Q : ArgumentParser) : Agree c Q Q :=
  ⟨rfl, fun _ _ => rfl, rfl⟩

theorem agree_modify_scope {c : Nat} {Q Q1 : ArgumentParser} (h : Agree c Q Q1) (s : Nat)
    (f : SubCommandDescriptor → SubCommandDescriptor) :
    Agree c (Q.modify_scope s f) (Q1.modify_scope s f) := by
  refine ⟨by simp only [length_modify_scope]; exact h.length, ?_, h.version⟩
  intro s1 hs1
  simp only [scope_modify_scope, h.length, h.scopes s1 hs1]

theorem agree_modify_left {c : Nat} {Q Q1 : ArgumentParser} (h : Agree c Q Q1) (s : Nat)
    (f : SubCommandDescriptor → SubCommandDescriptor) (hs : s < c) :
    Agree c (Q.modify_scope s f) Q1 := by
  refine ⟨by simp only [length_modify_scope]; exact h.length, ?_, h.version⟩
  intro s1 hs1
  have hne : ¬ (s = s1 ∧ s1 < Q.SubCommandDescriptors.length) := fun x => by omega
  simp only [scope_modify_scope, if_neg hne, h.scopes s1 hs1]

theorem agree_calls {c : Nat} {Q Q1 : ArgumentParser} (h : Agree c Q Q1) (x y : List Call) :
    Agree c { Q with Calls := x } { Q1 with Calls := y } :=
  ⟨h.length, h.scopes, h.version⟩

theorem agree_cout {c : Nat} {Q Q1 : ArgumentParser} (h : Agree c Q Q1) (x y : Str) :
    Agree c { Q with Cout := x } { Q1 with Cout := y } :=
  ⟨h.length, h.scopes, h.version⟩

theorem agree_default_argument {c : Nat} {Q Q1 : ArgumentParser} (h : Agree c Q Q1)
    (o : OptRef) : Agree c (default_argument o Q) (default_argument o Q1) := by
  cases o with
  | help s => exact agree_modify_scope (agree_calls h _ _) s _
  | version => exact ⟨h.length, h.scopes, rfl⟩
  | user a => exact agree_calls h _ _

theorem agree_default_value {c : Nat} {Q Q1 : ArgumentParser} (h : Agree c Q Q1)
    (id i : Nat) (hid : c ≤ id) : Agree c (default_value id i Q) (default_value id i Q1) := by
  simp only [default_value, h.descs id i hid]
  exact agree_default_argument h _

theorem agree_pending_default {c : Nat} {Q Q1 : ArgumentParser} (h : Agree c Q Q1)
    (id : Nat) (cur : Option Nat) (hid : c ≤ id) :
    Agree c (pending_default id cur Q) (pending_default id cur Q1) := by
  cases cur with
  | none => exact h
  | some i =>
    simp only [pending_default, h.descs id i hid]
    split
    · exact agree_default_value h id i hid
    · exact h

theorem agree_bind_value {c : Nat} {Q Q1 : ArgumentParser} (h : Agree c Q Q1)
    (id i : Nat) (v : Str) : Agree c (bind_value id i v Q) (bind_value id i v Q1) :=
  agree_modify_scope (agree_calls h _ _) id _

theorem agree_consume_argument {c : Nat} {Q Q1 : ArgumentParser} (h : Agree c Q Q1)
    (conv : Conv) (id i : Nat) (v : Str) (hid : c ≤ id) :
    (consume_argument conv id i v Q).1 = (consume_argument conv id i v Q1).1
    ∧ Agree c (consume_argument conv id i v Q).2 (consume_argument conv id i v Q1).2 := by
  have hd := h.descs id i hid
  cases hc : conv (Q.desc id i).Opt v with
  | none =>
    rw [consume_argument_accept _ _ _ _ _ hc,
      consume_argument_accept _ _ _ _ _ (by rw [← hd]; exact hc)]
    have hb := agree_bind_value h id i v
    exact ⟨by simp only [hb.descs id i hid], hb⟩
  | some e =>
    rw [consume_argument_reject _ _ _ _ _ _ hc,
      consume_argument_reject _ _ _ _ _ _ (by rw [← hd]; exact hc)]
    exact ⟨rfl, agree_calls h _ _⟩

theorem agree_consume_long_option {c : Nat} {Q Q1 : ArgumentParser} (h : Agree c Q Q1)
    (id : Nat) (A : Str) (hid : c ≤ id) :
    (consume_long_option id A Q).1 = (consume_long_option id A Q1).1
    ∧ Agree c (consume_long_option id A Q).2 (consume_long_option id A Q1).2 := by
  simp only [consume_long_option, h.scopes id hid]
  cases map_find (Q1.scope id).ArgumentMap A with
  | none => exact ⟨rfl, h⟩
  | some i =>
    simp only [h.descs id i hid]
    split
    · exact ⟨rfl, agree_default_value h id i hid⟩
    · exact ⟨rfl, h⟩

theorem agree_consume_short_options_loop (id : Nat) (cs : Str) :
    ∀ {c : Nat} {Q Q1 : ArgumentParser} (cur : Option Nat), Agree c Q Q1 → c ≤ id →
      (consume_short_options_loop id cs cur Q).1 = (consume_short_options_loop id cs cur Q1).1
      ∧ Agree c (consume_short_options_loop id cs cur Q).2
          (consume_short_options_loop id cs cur Q1).2 := by
  induction cs with
  | nil => intro c Q Q1 cur h _; exact ⟨rfl, h⟩
  | cons x cs ih =>
    intro c Q Q1 cur h hid
    have h1 := agree_pending_default h id cur hid
    have h2 := agree_consume_long_option h1 id [x] hid
    simp only [consume_short_options_loop, consume_short_option_eq]
    cases hr : consume_long_option id [x] (pending_default id cur Q) with
    | mk r P1 =>
      cases hr1 : consume_long_option id [x] (pending_default id cur Q1) with
      | mk r1 P2 =>
        rw [hr, hr1] at h2
        simp only at h2
        obtain ⟨e, ha⟩ := h2
        subst e
        cases r with
        | error e => exact ⟨rfl, ha⟩
        | ok d => exact ih d ha hid

theorem agree_consume_long_option_with_argument {c : Nat} {Q Q1 : ArgumentParser}
    (h : Agree c Q Q1) (conv : Conv) (id : Nat) (Arg : Str) (hid : c ≤ id) :
    (consume_long_option_with_argument conv id Arg Q).1 =
        (consume_long_option_with_argument conv id Arg Q1).1
    ∧ Agree c (consume_long_option_with_argument conv id Arg Q).2
        (consume_long_option_with_argument conv id Arg Q1).2 := by
  simp only [consume_long_option_with_argument]
  cases find Arg '=' 2 with
  | none => exact agree_consume_long_option h id _ hid
  | some Pos =>
    have h2 := agree_consume_long_option h id (substr Arg 2 (Pos - 2)) hid
    simp only
    cases hr : consume_long_option id (substr Arg 2 (Pos - 2)) Q with
    | mk r P1 =>
      cases hr1 : consume_long_option id (substr Arg 2 (Pos - 2)) Q1 with
      | mk r1 P2 =>
        rw [hr, hr1] at h2
        simp only at h2
        obtain ⟨e, ha⟩ := h2
        subst e
        cases r with
        | error e => exact ⟨rfl, ha⟩
        | ok d =>
          cases d with
          | none => exact ⟨rfl, ha⟩
          | some i => exact ⟨rfl, (agree_consume_argument ha conv id i _ hid).2⟩

theorem agree_select {c : Nat} {Q Q1 : ArgumentParser} (h : Agree c Q Q1) (d : Nat)
    (hd : c ≤ d) : Agree c (select d Q) (select d Q1) := by
  simp only [select, h.scopes d hd]
  split
  · exact agree_calls h _ _
  · exact h

theorem agree_parse_enter {c : Nat} {Q Q1 : ArgumentParser} (h : Agree c Q Q1) (id : Nat)
    (pre : List Str) (a : Str) : Agree c (parse_enter id pre a Q) (parse_enter id pre a Q1) :=
  agree_modify_scope h id _

theorem same_step_consume {c : Nat} {Q Q1 : ArgumentParser} (h : Agree c Q Q1) (conv : Conv)
    (id i : Nat) (v : Str) (hid : c ≤ id) (f : Option Nat → Locals) :
    same_step c
      (match consume_argument conv id i v Q with
        | (.error e, P1) => .fail e P1
        | (.ok d, P1) => .next (f d) P1)
      (match consume_argument conv id i v Q1 with
        | (.error e, P1) => .fail e P1
        | (.ok d, P1) => .next (f d) P1) := by
  have h2 := agree_consume_argument h conv id i v hid
  cases hr : consume_argument conv id i v Q with
  | mk r P1 =>
    cases hr1 : consume_argument conv id i v Q1 with
    | mk r1 P2 =>
      rw [hr, hr1] at h2
      simp only at h2
      obtain ⟨e, ha⟩ := h2
      subst e
      cases r with
      | error e => exact ⟨rfl, ha⟩
      | ok d => exact ⟨rfl, ha⟩

theorem same_step_parse_value {c : Nat} {Q Q1 : ArgumentParser} (h : Agree c Q Q1)
    (conv : Conv) (id : Nat) (L : Locals) (t : Str) (hid : c ≤ id) :
    same_step c (parse_value conv id L Q t) (parse_value conv id L Q1 t) := by
  simp only [parse_value, h.scopes id hid]
  cases L.CurrentDesc with
  | some i => exact same_step_consume h conv id i t hid _
  | none =>
    simp only
    cases (Q1.scope id).PositionalList.get? L.PositionalIter with
    | none => exact ⟨rfl, h⟩
    | some p => exact same_step_consume h conv id p t hid _

theorem same_step_parse_body {c : Nat} {Q Q1 : ArgumentParser} (h : Agree c Q Q1)
    (conv : Conv) (id : Nat) (L : Locals) (t : Str) (hid : c ≤ id) :
    same_step c (parse_body conv id L Q t) (parse_body conv id L Q1 t) := by
  have h1 := agree_pending_default h id L.CurrentDesc hid
  simp only [parse_body, h.scopes id hid]
  split
  · split
    · split
      · exact ⟨rfl, h⟩
      · have h2 := agree_consume_long_option_with_argument h1 conv id t hid
        cases hr : consume_long_option_with_argument conv id t
            (pending_default id L.CurrentDesc Q) with
        | mk r P1 =>
          cases hr1 : consume_long_option_with_argument conv id t
              (pending_default id L.CurrentDesc Q1) with
          | mk r1 P2 =>
            rw [hr, hr1] at h2
            simp only at h2
            obtain ⟨e, ha⟩ := h2
            subst e
            cases r with
            | error e => exact ⟨rfl, ha⟩
            | ok d => exact ⟨rfl, ha⟩
    · have h2 := agree_consume_short_options_loop id (t.drop 1) none h1 hid
      simp only [consume_short_options]
      cases hr : consume_short_options_loop id (t.drop 1) none
          (pending_default id L.CurrentDesc Q) with
      | mk r P1 =>
        cases hr1 : consume_short_options_loop id (t.drop 1) none
            (pending_default id L.CurrentDesc Q1) with
        | mk r1 P2 =>
          rw [hr, hr1] at h2
          simp only at h2
          obtain ⟨e, ha⟩ := h2
          subst e
          cases r with
          | error e => exact ⟨rfl, ha⟩
          | ok d => exact ⟨rfl, ha⟩
  · split
    · exact ⟨rfl, (agree_consume_argument h conv id _ t hid).2⟩
    · split
      · rename_i Offset _
        exact ⟨rfl, agree_select h (id + Offset) (Nat.le_trans hid (Nat.le_add_right _ _))⟩
      · exact same_step_parse_value h conv id _ t hid

theorem help_eq_of_agree {c : Nat} {Q Q1 : ArgumentParser} (h : Agree c Q Q1) (id : Nat)
    (hid : c ≤ id) : usage id Q = usage id Q1 ∧ help id Q = help id Q1 := by
  have hu : usage id Q = usage id Q1 := by simp only [usage, h.scopes id hid]
  have hs : help_subcommand id Q = help_subcommand id Q1 := by
    funext Offset
    simp only [help_subcommand, h.scopes (id + Offset) (Nat.le_trans hid (Nat.le_add_right _ _))]
  have ho : help_option id Q = help_option id Q1 := by
    funext Index
    simp only [help_option, h.descs id Index hid]
  exact ⟨hu, by simp only [help, h.scopes id hid, hu, hs, ho]⟩

theorem agree_parse_validate {c : Nat} {Q Q1 : ArgumentParser} (h : Agree c Q Q1) (id : Nat)
    (hid : c ≤ id) : Agree c (parse_validate id Q) (parse_validate id Q1) := by
  simp only [parse_validate, h.scopes id hid]
  split
  · exact agree_modify_scope h id _
  · exact h

theorem same_outcome_parse_tail {c : Nat} {Q Q1 : ArgumentParser} (h : Agree c Q Q1)
    (id : Nat) (cur : Option Nat) (hid : c ≤ id) :
    same_outcome c (parse_tail id cur Q) (parse_tail id cur Q1) := by
  have h1 := agree_pending_default h id cur hid
  have h2 := agree_parse_validate h1 id hid
  have h3 := (help_eq_of_agree h2 id hid).2
  simp only [parse_tail, h1.version, h2.scopes id hid, h3]
  split
  · exact ⟨rfl, h1⟩
  · split
    · cases help id (parse_validate id (pending_default id cur Q1)) with
      | none => trivial
      | some out => exact ⟨rfl, agree_cout h2 _ _⟩
    · exact ⟨rfl, h2⟩

/-- The result of a scan of the scope `id` does not depend on the scopes stored before
`id`, on the calls recorded or on the text written so far. -/
theorem same_outcome_parse_loop (conv : Conv) (ts : List Str) :
    ∀ {c : Nat} {Q Q1 : ArgumentParser} (id : Nat) (L : Locals), Agree c Q Q1 → c ≤ id →
      same_outcome c (parse_loop conv id L Q ts) (parse_loop conv id L Q1 ts) := by
  induction ts with
  | nil =>
    intro c Q Q1 id L h hid
    have h1 := same_outcome_parse_tail h id L.CurrentDesc hid
    simp only [parse_loop]
    cases hr : parse_tail id L.CurrentDesc Q with
    | none =>
      cases hr1 : parse_tail id L.CurrentDesc Q1 with
      | none => trivial
      | some x => rw [hr, hr1] at h1; exact h1.elim
    | some x =>
      cases hr1 : parse_tail id L.CurrentDesc Q1 with
      | none => rw [hr, hr1] at h1; exact h1.elim
      | some y =>
        rw [hr, hr1] at h1
        obtain ⟨b, X⟩ := x
        obtain ⟨b1, Y⟩ := y
        exact ⟨by rw [h1.1], h1.2⟩
  | cons t ts ih =>
    intro c Q Q1 id L h hid
    have h1 := same_step_parse_body h conv id L t hid
    have hdle : ∀ d P2, parse_body conv id L Q t = .dispatch d P2 → id ≤ d := by
      intro d P2 hd
      by_cases hz : id = 0
      · omega
      · have := parse_body_frame conv 0 id L Q t (fun x => hz x.symm)
        rw [hd] at this
        exact this.2
    rw [parse_loop, parse_loop]
    cases hs : parse_body conv id L Q t with
    | next L2 P2 =>
      cases hs1 : parse_body conv id L Q1 t with
      | next L3 P3 =>
        rw [hs, hs1] at h1
        obtain ⟨e, ha⟩ := h1
        subst e
        exact ih id L2 ha hid
      | fail e P3 => rw [hs, hs1] at h1; exact h1.elim
      | dispatch d P3 => rw [hs, hs1] at h1; exact h1.elim
    | fail e P2 =>
      cases hs1 : parse_body conv id L Q1 t with
      | next L3 P3 => rw [hs, hs1] at h1; exact h1.elim
      | fail e1 P3 =>
        rw [hs, hs1] at h1
        exact ⟨by rw [h1.1], h1.2⟩
      | dispatch d P3 => rw [hs, hs1] at h1; exact h1.elim
    | dispatch d P2 =>
      cases hs1 : parse_body conv id L Q1 t with
      | next L3 P3 => rw [hs, hs1] at h1; exact h1.elim
      | fail e1 P3 => rw [hs, hs1] at h1; exact h1.elim
      | dispatch d1 P3 =>
        rw [hs, hs1] at h1
        obtain ⟨e, ha⟩ := h1
        subst e
        have hd := hdle d P2 hs
        simp only
        rw [ha.scopes id hid]
        exact ih d Locals.init (agree_parse_enter ha d _ t) (Nat.le_trans hid hd)

/-- C23.  When the scan of `pre` arrives in the scope `id1` and the step at the token
`s` there dispatches to the scope `Child`, in the state `X` in which the scan of the
child starts: the scan of `pre ++ [s] ++ rest` returns exactly what the scan of `rest`
in the child returns from `X`, and the end of the scan of the parent is never run.
That result is the same from every state that agrees with `X` on the version flag and
on the scopes from `Child` on, so, the child being stored after the parent, whatever
the help flag and the consumed counts of the parent are.  With no token after `s` the
outcome is decided by the child alone: proceed, in the state `X` with nothing written,
when the version flag is set or the help flag of the child is unset and every
descriptor of the child has its `min_nargs`; else the help of the child. -/
theorem dispatch_returns_child_result (conv : Conv) (id : Nat) (L : Locals)
    (P : ArgumentParser) (pre : List Str) (s : Str) (rest : List Str) (id1 : Nat)
    (L1 : Locals) (P1 : ArgumentParser) (Child : Nat) (P2 : ArgumentParser)
    (hpre : scan conv id L P pre = some (id1, L1, P1))
    (hs : parse_body conv id1 L1 P1 s = .dispatch Child P2) :
    parse_loop conv id L P (pre ++ s :: rest) =
        parse_loop conv Child Locals.init
          (parse_enter Child (P2.scope id1).ProgramNames s P2) rest
    ∧ (∀ X, Agree Child X (parse_enter Child (P2.scope id1).ProgramNames s P2) →
        same_outcome Child (parse_loop conv Child Locals.init X rest)
          (parse_loop conv Child Locals.init
            (parse_enter Child (P2.scope id1).ProgramNames s P2) rest))
    ∧ (id1 < Child → ∀ f : SubCommandDescriptor → SubCommandDescriptor,
        same_outcome Child
          (parse_loop conv Child Locals.init
            ((parse_enter Child (P2.scope id1).ProgramNames s P2).modify_scope id1 f) rest)
          (parse_loop conv Child Locals.init
            (parse_enter Child (P2.scope id1).ProgramNames s P2) rest))
    ∧ (rest = [] →
        ((parse_enter Child (P2.scope id1).ProgramNames s P2).VerOpt = true ∨
          (((parse_enter Child (P2.scope id1).ProgramNames s P2).scope Child).HelpOpt = false ∧
            ∀ D ∈ ((parse_enter Child (P2.scope id1).ProgramNames s P2).scope
              Child).ArgumentDescriptors, D.MinNArgs ≤ D.NArgs)) →
        parse_loop conv id L P (pre ++ s :: rest) =
          some (.ok true, parse_enter Child (P2.scope id1).ProgramNames s P2))
    ∧ (rest = [] → Child < P2.SubCommandDescriptors.length →
        ¬ ((parse_enter Child (P2.scope id1).ProgramNames s P2).VerOpt = true ∨
          (((parse_enter Child (P2.scope id1).ProgramNames s P2).scope Child).HelpOpt = false ∧
            ∀ D ∈ ((parse_enter Child (P2.scope id1).ProgramNames s P2).scope
              Child).ArgumentDescriptors, D.MinNArgs ≤ D.NArgs)) →
        parse_loop conv id L P (pre ++ s :: rest) =
          (help Child
            (parse_validate Child (parse_enter Child (P2.scope id1).ProgramNames s P2))).map
            (fun out => (.ok false,
              { parse_validate Child (parse_enter Child (P2.scope id1).ProgramNames s P2) with
                Cout := (parse_enter Child (P2.scope id1).ProgramNames s P2).Cout ++ out }))) := by
  have main : parse_loop conv id L P (pre ++ s :: rest) =
      parse_loop conv Child Locals.init
        (parse_enter Child (P2.scope id1).ProgramNames s P2) rest := by
    rw [parse_loop_append conv pre (s :: rest) id L P id1 L1 P1 hpre, parse_loop, hs]
  refine ⟨main, ?_, ?_, ?_, ?_⟩
  · intro X hX
    exact same_outcome_parse_loop conv rest Child Locals.init hX (Nat.le_refl _)
  · intro hlt f
    exact same_outcome_parse_loop conv rest Child Locals.init
      (agree_modify_left (agree_refl Child _) id1 f hlt) (Nat.le_refl _)
  · intro hrest hok
    rw [main, hrest]
    simp only [parse_loop, Locals.init, parse_tail_proceed Child _ hok, Option.map_some']
  · intro hrest hlen hnot
    rw [main, hrest]
    simp only [parse_loop, Locals.init]
    rw [parse_tail_help Child _ (by simpa [parse_enter] using hlen) hnot]
    simp only [Option.map_map]
    rfl

/-- C23, witness: `[prog, --help, build]` on the parser whose root has a required
option `--num`: the token `--help` sets the help flag of the root, `build` dispatches,
and the scan proceeds in the state in which the child started, with nothing written,
the help flag of the root still set and the required option of the root without a
value. -/
theorem dispatch_returns_child_result_witness :
    parse_loop accept_all 0 Locals.init (parse_enter 0 [] "prog".data parser_required_parent)
        (["--help".data] ++ "build".data :: []) =
      some (.ok true,
        parse_enter 1 ["prog".data] "build".data
          (select 1 (default_value 0 0 (parse_enter 0 [] "prog".data parser_required_parent))))
    ∧ ((parse_enter 1 ["prog".data] "build".data
        (select 1 (default_value 0 0
          (parse_enter 0 [] "prog".data parser_required_parent)))).scope 0).HelpOpt = true
    ∧ ((parse_enter 1 ["prog".data] "build".data
        (select 1 (default_value 0 0
          (parse_enter 0 [] "prog".data parser_required_parent)))).desc 0 2).NArgs = 0
    ∧ ((parse_enter 1 ["prog".data] "build".data
        (select 1 (default_value 0 0
          (parse_enter 0 [] "prog".data parser_required_parent)))).desc 0 2).MinNArgs = 1
    ∧ (parse_enter 1 ["prog".data] "build".data
        (select 1 (default_value 0 0
          (parse_enter 0 [] "prog".data parser_required_parent)))).Cout = [] :=
  ⟨(dispatch_returns_child_result accept_all 0 Locals.init
      (parse_enter 0 [] "prog".data parser_required_parent) ["--help".data] "build".data [] 0
      Locals.init (default_value 0 0 (parse_enter 0 [] "prog".data parser_required_parent)) 1
      (select 1 (default_value 0 0 (parse_enter 0 [] "prog".data parser_required_parent)))
      rfl rfl).2.2.2.1 rfl (by decide),
    by decide, by decide, by decide, by decide⟩

end PO
end WasmEdge
